/-
Verification of the pramana-api ingestion-to-insight core against its
natural-language specification.

The definitions below are a shallow embedding of the TypeScript source
(`src/server/lib/buffer.ts`, `src/server/lib/schemas.ts` and the later
evolutionary snapshot of the buffer module that adds hash-chain drift
tracking and v3 user summaries, plus `src/server/routes/user.ts`).
Modelling conventions:
  * JavaScript `number` is modelled as `ℚ` (exact arithmetic) except where
    `Math.sqrt` / transcendental functions force `ℝ`; the integer-valued
    date fields are modelled as `Option ℤ` with `none` playing the role of
    `NaN` (what `parseInt` yields on a digit-free string).
  * JavaScript objects and `Map`s are association lists preserving
    insertion order; `Map.set` / property assignment replaces in place.
  * gzip compress/decompress round-trips losslessly and is modelled as the
    identity on the decompressed text.
  * `Array.prototype.sort` with a consistent comparator is a stable sort
    whose output is uniquely determined by the comparator, so it is
    modelled by the stable `List.insertionSort`.
  * `String(x)` on a float that is a finite decimal prints that decimal;
    the printer below does exactly this for rationals whose reduced
    denominator is of the form `2^a * 5^b` (every JavaScript float is such
    a rational).
-/
import Mathlib

set_option maxHeartbeats 1000000

namespace Pramana

/-! # Definitions -/

/-! ## Welford online statistics (`buffer.ts` lines 153-184)

`ModelDayStats` is the accumulator `{n, mean, m2, count}` from
`schemas.ts`: `n` counts scored observations, `count` all observations. -/

structure ModelDayStats where
  n : Nat
  mean : ℚ
  m2 : ℚ
  count : Nat
deriving DecidableEq

/-- `emptyStats()` from `buffer.ts`. -/
def emptyStats : ModelDayStats := ⟨0, 0, 0, 0⟩

/-- `welfordUpdate(stats, score)` from `buffer.ts` (the source mutates
`stats` in place; here the updated record is returned). -/
def welfordUpdate (stats : ModelDayStats) (score : Option ℚ) : ModelDayStats :=
  match score with
  | none => { stats with count := stats.count + 1 }
  | some s =>
      let n' := stats.n + 1
      let delta := s - stats.mean
      let mean' := stats.mean + delta / n'
      let delta2 := s - mean'
      { n := n', mean := mean', m2 := stats.m2 + delta * delta2, count := stats.count + 1 }

/-- `welfordMerge(a, b)` from `buffer.ts` (parallel combine). -/
def welfordMerge (a b : ModelDayStats) : ModelDayStats :=
  let count := a.count + b.count
  let n := a.n + b.n
  if n = 0 then ⟨0, 0, 0, count⟩
  else
    let delta := b.mean - a.mean
    let mean := ((a.n : ℚ) * a.mean + (b.n : ℚ) * b.mean) / (n : ℚ)
    let m2 := a.m2 + b.m2 + delta * delta * ((a.n : ℚ) * (b.n : ℚ)) / (n : ℚ)
    ⟨n, mean, m2, count⟩

/-- `welfordVariance(stats)` from `buffer.ts`: `m2/(n-1)` when `n ≥ 2`, else 0. -/
def welfordVariance (stats : ModelDayStats) : ℚ :=
  if stats.n < 2 then 0 else stats.m2 / ((stats.n : ℚ) - 1)

/-- The accumulator obtained by feeding a sequence of (possibly absent)
scores through `welfordUpdate`, starting from `emptyStats()`. -/
def accOf (l : List (Option ℚ)) : ModelDayStats :=
  l.foldl welfordUpdate emptyStats

/-- The scored observations of a score sequence (the `score !== null` ones). -/
def scoredOf (l : List (Option ℚ)) : List ℚ :=
  l.filterMap id

/-- An accumulator is well formed when having no scored observations forces
neutral `mean` and `m2`; every accumulator `welfordUpdate` builds is well
formed, while e.g. `{n: 0, m2: 5}` represents no observation sequence. -/
def WfStats (s : ModelDayStats) : Prop := s.n = 0 → s.mean = 0 ∧ s.m2 = 0

instance (s : ModelDayStats) : Decidable (WfStats s) := by
  unfold WfStats; infer_instance

/-! ## Association lists

JavaScript object property access / `Map.get` is `lookupA`; property
assignment / `Map.set` is `setA`, which replaces the value in place (the
key keeps its original insertion position) or appends a new binding. -/

/-- Code-unit lexicographic strict order on strings: what the JavaScript
`<` on strings and the default `Array.prototype.sort()` comparator use.
Defined on the character lists so that it evaluates inside the kernel. -/
def strLtB : List Char → List Char → Bool
  | [], [] => false
  | [], _ :: _ => true
  | _ :: _, [] => false
  | a :: as, b :: bs => if a < b then true else if b < a then false else strLtB as bs

def strLt (x y : String) : Prop := strLtB x.data y.data = true

def strLe (x y : String) : Prop := strLtB y.data x.data = false

instance : DecidableRel strLt := fun _ _ => by unfold strLt; infer_instance

instance : DecidableRel strLe := fun _ _ => by unfold strLe; infer_instance

/-- `Map.get` / property read. -/
def lookupA {α : Type} : List (String × α) → String → Option α
  | [], _ => none
  | (k, v) :: rest, key => if k = key then some v else lookupA rest key

/-- `Map.set` / property write: replace in place or append. -/
def setA {α : Type} : List (String × α) → String → α → List (String × α)
  | [], key, v => [(key, v)]
  | (k, w) :: rest, key, v =>
      if k = key then (k, v) :: rest else (k, w) :: setA rest key v

/-- Read-modify-write of one key, starting from a default: the pattern
`if (!obj[k]) obj[k] = dflt; f(obj[k])` used throughout the source. -/
def modifyA {α : Type} (l : List (String × α)) (key : String) (dflt : α)
    (f : α → α) : List (String × α) :=
  setA l key (f ((lookupA l key).getD dflt))

/-! ## Numeric printing and parsing

`String(n)` for an integer, `String(x)` for a finite-decimal float,
`parseInt(s, 10)` and `parseFloat(s)`.  All fully structural (fuelled)
so that concrete inputs evaluate inside the kernel. -/

/-- The decimal digit character for `n < 10`. -/
def digitChar (n : Nat) : Char := Char.ofNat (48 + n)

/-- Decimal digits of `n`, most significant first; `fuel` bounds the
number of digits (any `fuel` with `n < 10^fuel` gives the digits). -/
def natPrintAux : Nat → Nat → List Char
  | 0, _ => []
  | fuel + 1, n =>
      if n < 10 then [digitChar n]
      else natPrintAux fuel (n / 10) ++ [digitChar (n % 10)]

/-- `String(n)` for a natural number. -/
def natPrint (n : Nat) : List Char := natPrintAux (n + 1) n

/-- `String(i)` for an integer (JavaScript prints a leading `-`). -/
def intPrint (i : Int) : List Char :=
  if i < 0 then '-' :: natPrint i.natAbs else natPrint i.natAbs

/-- `String(x)` for the date fields modelled as `Option ℤ`
(`none` = `NaN`, which prints as `"NaN"`). -/
def jsNumStr (i : Option Int) : List Char :=
  match i with
  | none => ['N', 'a', 'N']
  | some n => intPrint n

/-- Is `c` a decimal digit? -/
def isDigitChar (c : Char) : Bool := 48 ≤ c.toNat && c.toNat ≤ 57

/-- Numeric value of a digit list, accumulating left to right. -/
def digitsVal (acc : Nat) : List Char → Nat
  | [] => acc
  | c :: rest => digitsVal (acc * 10 + (c.toNat - 48)) rest

/-- The digit-prefix part of `parseInt(s, 10)` after the optional sign:
the maximal digit prefix, or `none` (= `NaN`) when there is no digit. -/
def parseIntCore (t : List Char) : Option Nat :=
  let ds := t.takeWhile isDigitChar
  if ds.isEmpty then none else some (digitsVal 0 ds)

/-- `parseInt(s, 10)`: optional sign, then the maximal digit prefix;
`none` (= `NaN`) when there is no digit. -/
def jsParseInt (s : List Char) : Option Int :=
  match s with
  | '-' :: rest => (parseIntCore rest).map (fun n => -(n : Int))
  | '+' :: rest => (parseIntCore rest).map (fun n => (n : Int))
  | _ => (parseIntCore s).map (fun n => (n : Int))

/-- Multiplicity of prime `p` in `n` (fuelled; `fuel = n` suffices). -/
def multP : Nat → Nat → Nat → Nat
  | 0, _, _ => 0
  | fuel + 1, p, n =>
      if 2 ≤ p ∧ 0 < n ∧ n % p = 0 then multP fuel p (n / p) + 1 else 0

/-- Left-pad a digit list with `'0'` to length `k` (`String.padStart`). -/
def padZeros (k : Nat) (ds : List Char) : List Char :=
  List.replicate (k - ds.length) '0' ++ ds

/-- `String(x)` for a nonnegative finite-decimal rational: with
`k` decimal places (`k` minimal), prints `intpart` or `intpart.fracpart`. -/
def decPrintNonneg (q : ℚ) : List Char :=
  let k := max (multP q.den 2 q.den) (multP q.den 5 q.den)
  let n := (q * (10 : ℚ) ^ k).num.toNat
  if k = 0 then natPrint n
  else natPrint (n / 10 ^ k) ++ '.' :: padZeros k (natPrint (n % 10 ^ k))

/-- `String(x)` for a finite-decimal rational of either sign. -/
def decPrint (q : ℚ) : List Char :=
  if q < 0 then '-' :: decPrintNonneg (-q) else decPrintNonneg q

/-- The after-sign part of `parseFloat(s)`: digits, optionally `.` and
more digits; `none` (= `NaN`) when there is no leading digit. -/
def parseFloatCore (t : List Char) : Option ℚ :=
  let ds := t.takeWhile isDigitChar
  if ds.isEmpty then none
  else
    let ipart : ℚ := (digitsVal 0 ds : ℚ)
    match t.drop ds.length with
    | '.' :: frac =>
        let fs := frac.takeWhile isDigitChar
        some (ipart + (digitsVal 0 fs : ℚ) / (10 : ℚ) ^ fs.length)
    | _ => some ipart

/-- `parseFloat(s)`: optional sign, then `parseFloatCore`.  (Exponent
forms never arise from `decPrint` and are not needed by any claim.) -/
def jsParseFloat (s : List Char) : Option ℚ :=
  match s with
  | '-' :: rest => (parseFloatCore rest).map (fun v => -v)
  | '+' :: rest => parseFloatCore rest
  | _ => parseFloatCore s

/-- A rational is a finite decimal iff its reduced denominator is of the
form `2^a * 5^b`; exactly the values a JavaScript float can take. -/
def FiniteDecimal (q : ℚ) : Prop :=
  q.den = 2 ^ multP q.den 2 q.den * 5 ^ multP q.den 5 q.den

instance (q : ℚ) : Decidable (FiniteDecimal q) := by
  unfold FiniteDecimal; infer_instance

/-! ## Storage records and the CSV codec (`buffer.ts` lines 34-151)

`StorageRecord` from `schemas.ts` (12 fields).  `year`/`month`/`day` are
`Option ℤ` (`none` = `NaN`), `score` is `Option ℚ` (`none` = `null`). -/

structure StorageRecord where
  id : String
  timestamp : String
  user_id : String
  model_id : String
  prompt_id : String
  output : String
  output_hash : String
  metadata_json : String
  year : Option Int
  month : Option Int
  day : Option Int
  score : Option ℚ
deriving DecidableEq

/-- `value.replace(/"/g, '""')` on the character list. -/
def doubledQuotes (s : List Char) : List Char :=
  s.flatMap fun c => if c = '"' then ['"', '"'] else [c]

/-- `escapeCsvField(value)`: RFC 4180 quoting with doubled-quote escaping,
applied only when the value holds a delimiter, quote or line break. -/
def escapeCsvField (value : String) : String :=
  if ',' ∈ value.data ∨ '"' ∈ value.data ∨ '\n' ∈ value.data ∨ '\r' ∈ value.data then
    ⟨'"' :: doubledQuotes value.data ++ ['"']⟩
  else value

/-- `[...].join(',')` on the underlying character lists. -/
def joinComma (l : List String) : String :=
  ⟨List.intercalate [','] (l.map String.data)⟩

/-- `recordToCsvRow(r)`: the 12 fields joined with `','`.  Note that only
`output` and `metadata_json` pass through `escapeCsvField`. -/
def recordToCsvRow (r : StorageRecord) : String :=
  joinComma
    [r.id, r.timestamp, r.user_id, r.model_id, r.prompt_id,
     escapeCsvField r.output, r.output_hash, escapeCsvField r.metadata_json,
     ⟨jsNumStr r.year⟩, ⟨jsNumStr r.month⟩, ⟨jsNumStr r.day⟩,
     ⟨match r.score with | none => [] | some q => decPrint q⟩]

/-- The quoted-span scanner inside `parseCsvRow`: consumes up to and over
the closing quote, un-doubling `""`; returns the field value and `some`
remainder (the characters after the closing quote) or `none` when the
line ended before a closing quote. -/
def scanQ : List Char → String × Option (List Char)
  | [] => ("", none)
  | c :: rest =>
      if c = '"' then
        match rest with
        | c2 :: rest' =>
            if c2 = '"' then
              let (v, r) := scanQ rest'
              (⟨'"' :: v.data⟩, r)
            else ("", some rest)
        | [] => ("", some [])
      else
        let (v, r) := scanQ rest
        (⟨c :: v.data⟩, r)

/-- The unquoted-field scanner inside `parseCsvRow`: `indexOf(',')`;
returns the field and `some` remainder after the comma, or `none` when
no comma is left (last field). -/
def splitAtComma : List Char → String × Option (List Char)
  | [] => ("", none)
  | c :: rest =>
      if c = ',' then ("", some rest)
      else
        let (v, r) := splitAtComma rest
        (⟨c :: v.data⟩, r)

/-- The field loop of `parseCsvRow` (fuelled so that every step is
structural; `fuel` bounds the number of fields, so `length + 1` always
suffices).  Mirrors the JavaScript `while (i < line.length)` loop,
including `i = j + 1` skipping the character after a closing quote and the
final empty field being dropped when the line ends with `','`. -/
def parseFields : Nat → List Char → List String
  | 0, _ => []
  | _ + 1, [] => []
  | fuel + 1, c :: rest =>
      if c = '"' then
        match scanQ rest with
        | (v, none) => [v]
        | (v, some []) => [v]
        | (v, some (_ :: tail)) => v :: parseFields fuel tail
      else
        match splitAtComma (c :: rest) with
        | (v, none) => [v]
        | (v, some tail) => v :: parseFields fuel tail

/-- Is the line blank (`!line.trim()`)? -/
def isBlank (s : String) : Bool :=
  s.data.all fun c => c = ' ' ∨ c = '\t' ∨ c = '\n' ∨ c = '\r'

/-- `parseCsvRow(line)`: `none` for a blank or short row, otherwise the
decoded record; rows with 11 fields (legacy, no score) parse with
`score = null`. -/
def parseCsvRow (line : String) : Option StorageRecord :=
  if isBlank line then none
  else
    let fields := parseFields (line.data.length + 1) line.data
    if fields.length < 11 then none
    else
      let f := fun i => (fields.getD i "")
      let scoreStr := if fields.length ≥ 12 then f 11 else ""
      some
        { id := f 0, timestamp := f 1, user_id := f 2, model_id := f 3,
          prompt_id := f 4, output := f 5, output_hash := f 6,
          metadata_json := f 7,
          year := jsParseInt (f 8).data, month := jsParseInt (f 9).data,
          day := jsParseInt (f 10).data,
          score := if scoreStr ≠ "" then jsParseFloat scoreStr.data else none }

/-- `csv.split('\n')` (structural, kernel-evaluable; same semantics as
`String.splitOn "\n"`). -/
def splitOnChar (c : Char) : List Char → List (List Char)
  | [] => [[]]
  | x :: rest =>
      match splitOnChar c rest with
      | [] => [[]]
      | hd :: tl => if x = c then [] :: hd :: tl else (x :: hd) :: tl

def splitNl (s : String) : List String := (splitOnChar '\n' s.data).map (⟨·⟩)

/-- `parseCsvBody(csv)`: split on `'\n'`, skip the header line, parse each
line, drop the unparseable ones. -/
def parseCsvBody (csv : String) : List StorageRecord :=
  ((splitNl csv).drop 1).filterMap parseCsvRow

/-- The date string `` `${r.year}-${pad2 r.month}-${pad2 r.day}` ``
(`String(x).padStart(2, '0')` for month and day). -/
def dateKey (r : StorageRecord) : String :=
  ⟨jsNumStr r.year ++ '-' :: padZeros 2 (jsNumStr r.month) ++
    '-' :: padZeros 2 (jsNumStr r.day)⟩

/-! ## Welford-based chart (`buffer.ts` lines 335-370, chart version 2) -/

structure ChartV2 where
  data : List (String × List (String × ModelDayStats))
  models : List String
  total_submissions : Nat
  total_scored : Nat
deriving DecidableEq

/-- `aggregateRecords(records, into)` from `buffer.ts` (v2 chart): one
`welfordUpdate` per record into its `(date, model)` slot. -/
def aggregateRecords (records : List StorageRecord) (into : ChartV2) : ChartV2 :=
  records.foldl
    (fun c r =>
      { data := modifyA c.data (dateKey r) []
          (fun dm => modifyA dm r.model_id emptyStats (fun s => welfordUpdate s r.score)),
        models := if r.model_id ∈ c.models then c.models else c.models ++ [r.model_id],
        total_submissions := c.total_submissions + 1,
        total_scored := c.total_scored + if r.score ≠ none then 1 else 0 })
    into

/-- The externally reported view of a chart slot: its mean and variance
(an absent slot reports `0`/`0`, same as a slot with no scored data). -/
def statView (o : Option ModelDayStats) : ℚ × ℚ :=
  match o with
  | none => (0, 0)
  | some s => (s.mean, welfordVariance s)

/-- Two-level lookup `data[date]?.[model]`. -/
def lookup2 {α : Type} (l : List (String × List (String × α))) (d m : String) :
    Option α :=
  (lookupA l d).bind fun dm => lookupA dm m

/-! ## Hypothesis-testing library (`schemas.ts`/stats lines 86-279) -/

/-- The iteration of `holmBonferroni`'s loop: `i`-th (0-indexed) sorted
entry gets `min(1, p * (m - i))`, clamped below by the running maximum,
and is `Map.set` into the result. -/
def hbGo (m : Nat) (alpha : ℚ) :
    List (String × ℚ) → Nat → ℚ → List (String × ℚ × Bool) → List (String × ℚ × Bool)
  | [], _, _, acc => acc
  | (key, p) :: rest, i, maxAdj, acc =>
      let adjusted := min 1 (p * ((m - i : ℕ) : ℚ))
      let maxAdj' := max maxAdj adjusted
      hbGo m alpha rest (i + 1) maxAdj' (setA acc key (maxAdj', decide (maxAdj' < alpha)))

/-- `holmBonferroni(pValues, alpha)` from the stats module: sort ascending
by `p` (stable), adjust, enforce monotonicity, flag significance. -/
def holmBonferroni (pValues : List (String × ℚ)) (alpha : ℚ) :
    List (String × ℚ × Bool) :=
  let sorted := pValues.insertionSort (fun a b => a.2 ≤ b.2)
  hbGo sorted.length alpha sorted 0 0 []

/-- Specification-side adjusted value of the `i`-th sorted entry: the
running maximum (seeded with the loop's initial `0`) of
`min(1, p_k * (m - k))` over `k ≤ i`. -/
def specAdjGo (m : Nat) : ℚ → List ℚ → Nat → ℚ
  | start, [], _ => start
  | start, p :: rest, i =>
      specAdjGo m (max start (min 1 (p * ((m - i : ℕ) : ℚ)))) rest (i + 1)

/-- Specification-side adjusted value of the `j`-th (0-indexed) sorted
entry: the running maximum (seeded with the loop's initial `0`) of
`min 1 (p_k * (m - k))` over `k ≤ j`. -/
def specAdj (sorted : List (String × ℚ)) (j : Nat) : ℚ :=
  specAdjGo sorted.length 0 ((sorted.take (j + 1)).map Prod.snd) 0

/-- Result record of `welchTTest`. -/
structure WelchResult where
  t : ℝ
  df : ℝ
  pValue : ℝ
  cohensD : ℝ
  effectLabel : String

/-- The Lanczos series `c[0] + Σ c[i]/(x+i)` from `lgamma`. -/
noncomputable def lgammaSeries (x : ℝ) : ℝ :=
  0.99999999999980993 + 676.5203681218851 / (x + 1) +
    (-1259.1392167224028) / (x + 2) + 771.32342877765313 / (x + 3) +
    (-176.61502916214059) / (x + 4) + 12.507343278686905 / (x + 5) +
    (-0.13857109526572012) / (x + 6) + 9.9843695780195716e-6 / (x + 7) +
    1.5056327351493116e-7 / (x + 8)

/-- The `x ≥ 0.5` branch of `lgamma` (the source shifts `x -= 1`). -/
noncomputable def lgammaPos (x : ℝ) : ℝ :=
  let x' := x - 1
  let t := x' + 7 + 0.5
  0.5 * Real.log (2 * Real.pi) + (x' + 0.5) * Real.log t - t +
    Real.log (lgammaSeries x')

/-- `lgamma` with the reflection formula for `x < 0.5`; the recursion
depth is at most one since `x < 0.5 → 1 - x > 0.5`, so fuel 2 suffices. -/
noncomputable def lgammaF : Nat → ℝ → ℝ
  | 0, _ => 0
  | fuel + 1, x =>
      if x < 0.5 then Real.log (Real.pi / Real.sin (Real.pi * x)) - lgammaF fuel (1 - x)
      else lgammaPos x

noncomputable def lgamma (x : ℝ) : ℝ := lgammaF 2 x

/-- The `1e-30` underflow clamp in Lentz's algorithm. -/
noncomputable def lentzClamp (d : ℝ) : ℝ := if |d| < 1e-30 then 1e-30 else d

/-- The Lentz continued-fraction loop of `betaIncomplete` (two half-steps
per iteration, convergence break at `|delta - 1| < 1e-14`, 200-iteration
cap). State is `(remaining, i, f, c, d)` with `d` stored already inverted,
as in the source. -/
noncomputable def lentzGo (a b x : ℝ) : Nat → Nat → ℝ → ℝ → ℝ → ℝ
  | 0, _, f, _, _ => f
  | rem + 1, i, f, c, d =>
      let m : ℝ := (i : ℝ)
      let num1 := m * (b - m) * x / ((a + 2 * m - 1) * (a + 2 * m))
      let d1 := 1 / lentzClamp (1 + num1 * d)
      let c1 := lentzClamp (1 + num1 / c)
      let f1 := f * d1 * c1
      let num2 := -(a + m) * (a + b + m) * x / ((a + 2 * m) * (a + 2 * m + 1))
      let d2 := 1 / lentzClamp (1 + num2 * d1)
      let c2 := lentzClamp (1 + num2 / c1)
      let delta := d2 * c2
      let f2 := f1 * delta
      if |delta - 1| < 1e-14 then f2 else lentzGo a b x rem (i + 1) f2 c2 d2

/-- The non-swapped body of `betaIncomplete`. -/
noncomputable def betaCore (a b x : ℝ) : ℝ :=
  let lnBeta := lgamma a + lgamma b - lgamma (a + b)
  let front := Real.exp (Real.log x * a + Real.log (1 - x) * b - lnBeta) / a
  let d0 := 1 / lentzClamp (1 - (a + b) * x / (a + 1))
  front * lentzGo a b x 200 1 d0 1 d0

/-- `betaIncomplete(a, b, x)`: the symmetry swap recurses at most once
(`x > (a+1)/(a+b+2) → 1-x < (b+1)/(a+b+2)`), so fuel 2 suffices. -/
noncomputable def betaIncompleteF : Nat → ℝ → ℝ → ℝ → ℝ
  | 0, _, _, x => x
  | fuel + 1, a, b, x =>
      if x = 0 ∨ x = 1 then x
      else if x > (a + 1) / (a + b + 2) then 1 - betaIncompleteF fuel b a (1 - x)
      else betaCore a b x

noncomputable def betaIncomplete (a b x : ℝ) : ℝ := betaIncompleteF 2 a b x

/-- `tDistributionPValue(tStat, df)`: two-tailed p-value. -/
noncomputable def tDistributionPValue (tStat df : ℝ) : ℝ :=
  if df ≤ 0 then 1
  else betaIncomplete (df / 2) 0.5 (df / (df + tStat * tStat))

/-- `interpretEffect(d)`: Cohen's d label. -/
noncomputable def interpretEffect (d : ℝ) : String :=
  if |d| < 0.2 then "negligible"
  else if |d| < 0.5 then "small"
  else if |d| < 0.8 then "medium"
  else "large"

/-- `welchTTest(a, b)` from the stats module: `null` when either side has
`n < 2`; `t = 0, p = 1, d = 0` when the standard-error denominator is 0;
otherwise Welch's `t`, Welch–Satterthwaite `df`, two-tailed `p`, and
Cohen's d from the pooled standard deviation. -/
noncomputable def welchTTest (a b : ModelDayStats) : Option WelchResult :=
  if a.n < 2 ∨ b.n < 2 then none
  else
    let va : ℝ := (welfordVariance a : ℚ)
    let vb : ℝ := (welfordVariance b : ℚ)
    let sea := va / (a.n : ℝ)
    let seb := vb / (b.n : ℝ)
    let denom := Real.sqrt (sea + seb)
    if denom = 0 then some ⟨0, (a.n : ℝ) + (b.n : ℝ) - 2, 1, 0, "negligible"⟩
    else
      let t := ((a.mean : ℝ) - (b.mean : ℝ)) / denom
      let df := (sea + seb) ^ 2 /
        (sea * sea / ((a.n : ℝ) - 1) + seb * seb / ((b.n : ℝ) - 1))
      let pValue := tDistributionPValue t df
      let sp := Real.sqrt
        ((((a.n : ℝ) - 1) * va + ((b.n : ℝ) - 1) * vb) / ((a.n : ℝ) + (b.n : ℝ) - 2))
      let cohensD := if sp > 0 then |(a.mean : ℝ) - (b.mean : ℝ)| / sp else 0
      some ⟨t, df, pValue, cohensD, interpretEffect cohensD⟩

/-! ## Per-identity summaries, v3 with migration (later snapshot,
`buffer.test.ts` embedded module lines 916-1020) -/

/-- The current (v3) user summary: plain submission counts. -/
structure UserSummaryV3 where
  submissions_by_date : List (String × List (String × Nat))
  model_submissions : List (String × Nat)
  total_submissions : Nat
deriving DecidableEq

/-- Legacy v1 summary (`date_counts`, no `version` field). -/
structure UserSummaryV1 where
  date_counts : List (String × List (String × Nat))
  total_submissions : Nat
deriving DecidableEq

/-- Legacy v2 summary (Welford `date_stats`, `version: 2`). -/
structure UserSummaryV2 where
  date_stats : List (String × List (String × ModelDayStats))
  model_stats : List (String × ModelDayStats)
  total_submissions : Nat
  total_scored : Nat
deriving DecidableEq

def emptyV3 : UserSummaryV3 := ⟨[], [], 0⟩

/-- The shared loop body of `migrateSummary`: walk the per-date counts of
the legacy shape, filling `submissions_by_date` and accumulating
`model_submissions`. -/
def migrateFromCounts (source : List (String × List (String × Nat)))
    (total : Nat) : UserSummaryV3 :=
  let r := source.foldl
    (fun (acc : List (String × List (String × Nat)) × List (String × Nat)) dm =>
      let inner := dm.2.foldl
        (fun (p : List (String × Nat) × List (String × Nat)) mv =>
          (setA p.1 mv.1 mv.2, setA p.2 mv.1 ((lookupA p.2 mv.1).getD 0 + mv.2)))
        ([], acc.2)
      (setA acc.1 dm.1 inner.1, inner.2))
    ([], [])
  { submissions_by_date := r.1, model_submissions := r.2, total_submissions := total }

/-- `migrateSummary(raw)` applied to the two legacy shapes (the source
duck-types `date_counts || date_stats`; the sum type plays the role of
that version sniffing).  In the v2 case each slot contributes its
`count` field. -/
def migrateSummary (raw : UserSummaryV1 ⊕ UserSummaryV2) : UserSummaryV3 :=
  match raw with
  | .inl v1 => migrateFromCounts v1.date_counts v1.total_submissions
  | .inr v2 =>
      migrateFromCounts
        (v2.date_stats.map fun p => (p.1, p.2.map fun q => (q.1, q.2.count)))
        v2.total_submissions

/-- The per-record body of the v3 `updateUserSummary` loop. -/
def applySummaryRecord (s : UserSummaryV3) (r : StorageRecord) : UserSummaryV3 :=
  { submissions_by_date := modifyA s.submissions_by_date (dateKey r) []
      (fun dm => setA dm r.model_id ((lookupA dm r.model_id).getD 0 + 1)),
    model_submissions :=
      setA s.model_submissions r.model_id
        ((lookupA s.model_submissions r.model_id).getD 0 + 1),
    total_submissions := s.total_submissions + 1 }

def applySummaryRecords (s : UserSummaryV3) (rs : List StorageRecord) : UserSummaryV3 :=
  rs.foldl applySummaryRecord s

/-- The pure content of `updateUserSummary(bucket, userId, records)`:
the stored document is `none` (absent), a legacy shape (migrated on
read), or a current summary; the storage read / conditional write around
this value is the generic optimistic-concurrency loop. -/
def updateUserSummaryPure
    (doc : Option ((UserSummaryV1 ⊕ UserSummaryV2) ⊕ UserSummaryV3))
    (records : List StorageRecord) : UserSummaryV3 :=
  if records.isEmpty then emptyV3
  else
    let summary :=
      match doc with
      | none => emptyV3
      | some (.inl legacy) => migrateSummary legacy
      | some (.inr v3) => v3
    applySummaryRecords summary records

def sumCounts (l : List (String × Nat)) : Nat := (l.map (·.2)).sum

def sumCounts2 (l : List (String × List (String × Nat))) : Nat :=
  (l.map fun p => sumCounts p.2).sum

/-- The data-model invariant: `total_submissions` equals the sum over all
dates and models of the per-date submission counts. -/
def SummaryInvariant (s : UserSummaryV3) : Prop :=
  s.total_submissions = sumCounts2 s.submissions_by_date

/-- The same invariant read on a legacy v1 document. -/
def InvariantV1 (v : UserSummaryV1) : Prop :=
  v.total_submissions = sumCounts2 v.date_counts

/-- The same invariant read on a legacy v2 document (per-date submission
count = the `count` field of the Welford slot). -/
def InvariantV2 (v : UserSummaryV2) : Prop :=
  v.total_submissions =
    sumCounts2 (v.date_stats.map fun p => (p.1, p.2.map fun q => (q.1, q.2.count)))

instance (s : UserSummaryV3) : Decidable (SummaryInvariant s) := by
  unfold SummaryInvariant; infer_instance

instance (v : UserSummaryV1) : Decidable (InvariantV1 v) := by
  unfold InvariantV1; infer_instance

instance (v : UserSummaryV2) : Decidable (InvariantV2 v) := by
  unfold InvariantV2; infer_instance

/-! ## Full rebuild with hash-chain drift tracking (later snapshot,
`buffer.test.ts` embedded module lines 1022-1131) -/

/-- Per-(date, model) statistics of the drift-tracking chart ("v3"
chart document). -/
structure DayStats where
  submissions : Nat
  prompts_tested : Nat
  unique_outputs : Nat
  drifted_prompts : Nat
deriving DecidableEq

/-- The drift-tracking chart document. -/
structure ChartV3 where
  data : List (String × List (String × DayStats))
  models : List String
  total_submissions : Nat
  total_contributors : Nat
deriving DecidableEq

/-- The sort comparator `(a, b) => a.year - b.year || ... ` of step 2 of
`rebuildChartJson`, as a relation: lexicographic on `(year, month, day)`.
`NaN` dates would give the JavaScript engine an inconsistent comparator
(unspecified order); they are mapped to `0` here, and every theorem that
depends on the sort assumes numeric dates. -/
def numOr0 (i : Option Int) : Int := i.getD 0

def dateLe (a b : StorageRecord) : Prop :=
  numOr0 a.year < numOr0 b.year ∨
    (numOr0 a.year = numOr0 b.year ∧
      (numOr0 a.month < numOr0 b.month ∨
        (numOr0 a.month = numOr0 b.month ∧ numOr0 a.day ≤ numOr0 b.day)))

instance : DecidableRel dateLe := fun a b => by
  unfold dateLe; infer_instance

instance : IsTotal StorageRecord dateLe :=
  ⟨fun a b => by unfold dateLe; omega⟩

instance : IsTrans StorageRecord dateLe :=
  ⟨fun a b c => by unfold dateLe; omega⟩

/-- Step 2: stable sort by date. -/
def sortRecs (rs : List StorageRecord) : List StorageRecord :=
  rs.insertionSort dateLe

/-- Step 3: group by `(dateStr, model)`, preserving first-insertion order
of the `Map` keys and record order inside each group. -/
def groupRecs (rs : List StorageRecord) : List (String × List (String × List StorageRecord)) :=
  rs.foldl
    (fun acc r =>
      modifyA acc (dateKey r) []
        (fun dm => modifyA dm r.model_id [] (fun l => l ++ [r])))
    []

/-- The `modelSet` accumulated during the grouping pass. -/
def modelSetOf (rs : List StorageRecord) : List String :=
  rs.foldl (fun acc r => if r.model_id ∈ acc then acc else acc ++ [r.model_id]) []

/-- The `promptIds` set of one `(date, model)` group. -/
def promptSet (recs : List StorageRecord) : List String :=
  recs.foldl (fun acc r => if r.prompt_id ∈ acc then acc else acc ++ [r.prompt_id]) []

/-- The `outputHashes` set of one group (only its size is used). -/
def uniqueOutputs (recs : List StorageRecord) : List String :=
  recs.foldl (fun acc r => if r.output_hash ∈ acc then acc else acc ++ [r.output_hash]) []

/-- `` `${model}|${prompt}` ``, the key of the `prevHash` map. -/
def driftKey (model prompt : String) : String := model ++ "|" ++ prompt

/-- `promptLatestHash`: last-observed hash per prompt of a group
(`Map.set` keeps the first-insertion position, the value is the last
assignment). -/
def promptLatest (recs : List StorageRecord) : List (String × String) :=
  recs.foldl (fun acc r => setA acc r.prompt_id r.output_hash) []

/-- The `for (const [prompt, hash] of promptLatestHash)` loop: count a
drift when `prevHash` holds a different hash for the key, then update
`prevHash`. -/
def driftLoop (model : String) :
    List (String × String) → Nat × List (String × String) → Nat × List (String × String)
  | [], acc => acc
  | ph :: rest, (drifted, st) =>
      let key := driftKey model ph.1
      let hit :=
        match lookupA st key with
        | some prev => decide (prev ≠ ph.2)
        | none => false
      driftLoop model rest (drifted + (if hit then 1 else 0), setA st key ph.2)

/-- Step 4 for one `(date, model)` group: the stats entry and the updated
`prevHash` map. -/
def processGroup (prevHash : List (String × String)) (model : String)
    (recs : List StorageRecord) : DayStats × List (String × String) :=
  let (drifted, prevHash') := driftLoop model (promptLatest recs) (0, prevHash)
  (⟨recs.length, (promptSet recs).length, (uniqueOutputs recs).length, drifted⟩,
    prevHash')

/-- The inner `for (const [model, records] of dateMap)` loop. -/
def runModels (st : List (String × String)) :
    List (String × List StorageRecord) →
      List (String × DayStats) × List (String × String) × Nat
  | [] => ([], st, 0)
  | (m, recs) :: rest =>
      let (stats, st') := processGroup st m recs
      let (out, stF, tot) := runModels st' rest
      ((m, stats) :: out, stF, recs.length + tot)

/-- The outer `for (const date of sortedDates)` loop. -/
def runDates (grouped : List (String × List (String × List StorageRecord))) :
    List (String × String) → List String →
      List (String × List (String × DayStats)) × List (String × String) × Nat
  | st, [] => ([], st, 0)
  | st, d :: ds =>
      let dm := (lookupA grouped d).getD []
      let (entries, st', t1) := runModels st dm
      let (dataRest, stF, t2) := runDates grouped st' ds
      ((d, entries) :: dataRest, stF, t1 + t2)

/-- Steps 2-4 of `rebuildChartJson`: sort, group, then the drift pass
over the date keys in ascending string order; returns `(data, total)`. -/
def rebuildData (rs : List StorageRecord) :
    List (String × List (String × DayStats)) × Nat :=
  let grouped := groupRecs (sortRecs rs)
  let dates := (grouped.map (·.1)).insertionSort strLe
  let (data, _, total) := runDates grouped [] dates
  (data, total)

/-- `key.endsWith('.csv.gz')`. -/
def endsWithCsvGz (k : String) : Bool := ".csv.gz".data.isSuffixOf k.data

/-- Step 1a of `rebuildChartJson`: decode every archive partition whose
key ends in `.csv.gz` (in listing order). -/
def archiveRecordsOf (archives : List (String × String)) : List StorageRecord :=
  (archives.filter fun a => endsWithCsvGz a.1).flatMap fun a => parseCsvBody a.2

/-- Step 1b: decode the current buffer (absent buffer contributes
nothing). -/
def bufferRecordsOf (buffer : Option String) : List StorageRecord :=
  match buffer with
  | none => []
  | some csv => parseCsvBody csv

/-- `allRecords`: archives first, then the unarchived buffer rows. -/
def allInputRecords (archives : List (String × String)) (buffer : Option String) :
    List StorageRecord :=
  archiveRecordsOf archives ++ bufferRecordsOf buffer

/-- `rebuildChartJson` as a pure function of the loaded archive contents,
the buffer contents, and the listed per-user summary keys (step 5 counts
them as `total_contributors`). -/
def rebuildChart (archives : List (String × String)) (buffer : Option String)
    (userIds : List String) : ChartV3 :=
  let recs := allInputRecords archives buffer
  let (data, total) := rebuildData recs
  { data := data,
    models := (modelSetOf (sortRecs recs)).insertionSort strLe,
    total_submissions := total,
    total_contributors := userIds.length }

/-! ## Blob storage state and the GDPR eraser (`buffer.ts` lines 404-432,
`routes/user.ts` DELETE /me)

The object store is modelled as one explicit state: the (decompressed)
buffer text, the archive partitions in listing order, the identities that
own a `_users/{id}/summary.json` object, and the chart document.  The
optimistic-concurrency loop around each write is the means by which a
write happens, not a change of its value, so writes are modelled as plain
state updates. -/

structure Storage where
  buffer : Option String
  archives : List (String × String)
  users : List String
  chart : Option ChartV3
deriving DecidableEq

def Storage.archiveRecords (s : Storage) : List StorageRecord :=
  archiveRecordsOf s.archives

def Storage.bufferRecords (s : Storage) : List StorageRecord :=
  bufferRecordsOf s.buffer

def Storage.inputRecords (s : Storage) : List StorageRecord :=
  allInputRecords s.archives s.buffer

/-- `rebuildChartJson(bucket)`: write the freshly computed chart. -/
def rebuildChartJson (s : Storage) : Storage :=
  { s with chart := some (rebuildChart s.archives s.buffer s.users) }

/-- `deleteUserFromBuffer(bucket, userId)`: filter the user's rows out of
the buffer (unparseable lines are kept), write back only when at least
one row was removed, return the removed count. -/
def deleteUserFromBuffer (s : Storage) (userId : String) : Storage × Nat :=
  match s.buffer with
  | none => (s, 0)
  | some csv =>
      let lines := splitNl csv
      let header := lines.headD ""
      let filtered := (lines.drop 1).filter fun line =>
        match parseCsvRow line with
        | some rec => decide (rec.user_id ≠ userId)
        | none => true
      let removed := lines.length - 1 - filtered.length
      if 0 < removed then
        ({ s with buffer := some (header ++ "\n" ++ String.intercalate "\n" filtered) },
          removed)
      else (s, removed)

/-- `deleteFile(bucket, _users/{userId}/summary.json)`. -/
def deleteUserSummary (s : Storage) (userId : String) : Storage :=
  { s with users := s.users.filter fun u => decide (u ≠ userId) }

/-- The DELETE /me handler of `routes/user.ts`: (1) filter the buffer,
(2) delete the summary object, (3) full rebuild; returns the removed-row
count reported to the caller. -/
def eraseUser (s : Storage) (userId : String) : Storage × Nat :=
  let (s1, removed) := deleteUserFromBuffer s userId
  let s2 := deleteUserSummary s1 userId
  (rebuildChartJson s2, removed)

/-! ## Specification-side drift quantities

Derived directly from the sorted record list; the drift theorems state
that the chart's `drifted_prompts` counters equal these. -/

/-- The records of one `(date, model)` group, in sorted order. -/
def recAt (rs : List StorageRecord) (d m : String) : List StorageRecord :=
  rs.filter fun r => decide (dateKey r = d ∧ r.model_id = m)

/-- The distinct prompts observed for `(date, model)`. -/
def promptsAt (rs : List StorageRecord) (d m : String) : List String :=
  promptSet (recAt rs d m)

/-- The last-observed fingerprint of `(model, prompt)` within a date. -/
def lastHashAt (rs : List StorageRecord) (d m p : String) : Option String :=
  ((rs.filter fun r =>
      decide (dateKey r = d ∧ r.model_id = m ∧ r.prompt_id = p)).getLast?).map
    (·.output_hash)

/-- Was `(model, prompt)` observed on date `d`? -/
def obsB (rs : List StorageRecord) (d m p : String) : Bool :=
  rs.any fun r => decide (dateKey r = d ∧ r.model_id = m ∧ r.prompt_id = p)

/-- The larger of two strings under the code-unit order. -/
def maxStr (a b : String) : String := if strLtB a.data b.data then b else a

/-- The greatest element of a string list (`none` on the empty list). -/
def maxString? (l : List String) : Option String :=
  l.foldl (fun acc d => some (match acc with | none => d | some a => maxStr a d)) none

/-- The immediately preceding date (in the chart's ascending string order)
on which `(model, prompt)` was observed. -/
def prevObsDate (rs : List StorageRecord) (d m p : String) : Option String :=
  maxString? ((rs.map dateKey).filter fun d' => strLtB d'.data d.data && obsB rs d' m p)

/-- Does prompt `p` count as drifted for `(date, model)`: the pair was
observed on an earlier date, and the fingerprint carried forward from the
most recent such date differs from this date's last-observed one. -/
def driftedSpecB (rs : List StorageRecord) (d m p : String) : Bool :=
  match prevObsDate rs d m p with
  | none => false
  | some d' => decide (lastHashAt rs d' m p ≠ lastHashAt rs d m p)

/-! ## Concrete sample data

Used by the closed witness and counterexample theorems below. -/

/-- A benign record: no delimiter/quote/newline in any unescaped field. -/
def sampleRec : StorageRecord :=
  { id := "id1", timestamp := "2026-02-21T12:00:00.000Z", user_id := "user1",
    model_id := "gpt-5", prompt_id := "p1", output := "plain output",
    output_hash := "sha256:abc", metadata_json := "\x7b\x7d",
    year := some 2026, month := some 2, day := some 21, score := none }

/-- A record whose `user_id` (an unescaped field) contains the delimiter. -/
def commaRec : StorageRecord :=
  { sampleRec with user_id := "a,b" }

/-- A record whose `output` holds delimiter, quotes and a newline. -/
def quotedRec : StorageRecord :=
  { sampleRec with
      output := "has \"quotes\", a comma\nand a newline",
      score := some (1/2) }

/-- A record exercising the full quoting path with a parseable score:
`output` holds the delimiter, quotes and a newline, and the score is a
finite decimal. -/
def roundRec : StorageRecord :=
  { sampleRec with
      output := "has \"quotes\", a comma\nand a newline",
      score := some 2 }

/-- Drift-key aliasing pair: `(model "a", prompt "b|c")` on day 1 and
`(model "a|b", prompt "c")` on day 2 share the `prevHash` key `"a|b|c"`. -/
def aliasRec1 : StorageRecord :=
  { sampleRec with
      model_id := "a", prompt_id := "b|c", output_hash := "H1",
      year := some 2026, month := some 1, day := some 1 }

def aliasRec2 : StorageRecord :=
  { sampleRec with
      model_id := "a|b", prompt_id := "c", output_hash := "H2",
      year := some 2026, month := some 1, day := some 2 }

/-- Drift scenario records: same `(model, prompt)`, hash `A` on day 1,
hash `B` on day 2 and day 3. -/
def driftRec1 : StorageRecord :=
  { sampleRec with
      model_id := "m", prompt_id := "p", output_hash := "A",
      year := some 2026, month := some 1, day := some 1 }

def driftRec2 : StorageRecord :=
  { driftRec1 with
      output_hash := "B", day := some 2 }

def driftRec3 : StorageRecord :=
  { driftRec1 with
      output_hash := "B", day := some 3 }

/-- The CSV header line of the buffer and archive objects. -/
def csvHeader : String :=
  "id,timestamp,user_id,model_id,prompt_id,output,output_hash,metadata_json,year,month,day,score"

/-- A storage state whose archive partition and buffer each hold one row
owned by `user1`, who also owns the only summary object. -/
def sampleStorage : Storage :=
  { buffer := some (csvHeader ++ "\nid2,ts,user1,gpt-5,p1,out2,sha2,md,2026,2,21,"),
    archives := [("_archive/2026-02-21.csv.gz",
      csvHeader ++ "\nid1,ts,user1,gpt-5,p1,out1,sha,md,2026,2,21,")],
    users := ["user1"], chart := none }

/-- Like `sampleStorage` but with `user1` rows only in the buffer (the
archive partition belongs to `user2`). -/
def bufferOnlyStorage : Storage :=
  { buffer := some (csvHeader ++ "\nid2,ts,user1,gpt-5,p1,out2,sha2,md,2026,2,21,"),
    archives := [("_archive/2026-02-21.csv.gz",
      csvHeader ++ "\nid1,ts,user2,gpt-5,p1,out1,sha,md,2026,2,21,")],
    users := ["user1", "user2"], chart := none }

/-- A well-encoded field paired with its decoded value: either a raw
field free of the delimiter and the quote, or a quoted field with
doubled-quote escaping (the two shapes `escapeCsvField` emits). -/
def EncOK (p : String × List Char) : Prop :=
  (p.2 = p.1.data ∧ ',' ∉ p.2 ∧ '"' ∉ p.2) ∨
  p.2 = '"' :: doubledQuotes p.1.data ++ ['"']

/-- Distinct keys at both levels of a nested counter object (JavaScript
object keys are unique, so every document read from storage satisfies
this). -/
def NodupKeys2 {α : Type} (l : List (String × List (String × α))) : Prop :=
  (l.map Prod.fst).Nodup ∧ ∀ p ∈ l, (p.2.map Prod.fst).Nodup

instance {α : Type} (l : List (String × List (String × α))) :
    Decidable (NodupKeys2 l) := by
  unfold NodupKeys2; infer_instance

/-- What holds of a stored summary document before an update: current
documents satisfy the counts invariant, legacy ones satisfy it in their
own shape with well-formed (duplicate-free) keys, and an absent document
is unconstrained. -/
def DocInvariant : Option ((UserSummaryV1 ⊕ UserSummaryV2) ⊕ UserSummaryV3) → Prop
  | none => True
  | some (.inl (.inl v1)) => InvariantV1 v1 ∧ NodupKeys2 v1.date_counts
  | some (.inl (.inr v2)) => InvariantV2 v2 ∧ NodupKeys2 v2.date_stats
  | some (.inr v3) => SummaryInvariant v3

instance : ∀ (doc : Option ((UserSummaryV1 ⊕ UserSummaryV2) ⊕ UserSummaryV3)),
    Decidable (DocInvariant doc)
  | none => isTrue trivial
  | some (.inl (.inl v1)) =>
      inferInstanceAs (Decidable (InvariantV1 v1 ∧ NodupKeys2 v1.date_counts))
  | some (.inl (.inr v2)) =>
      inferInstanceAs (Decidable (InvariantV2 v2 ∧ NodupKeys2 v2.date_stats))
  | some (.inr v3) => inferInstanceAs (Decidable (SummaryInvariant v3))

/-- The total count of a nested association structure under a measure
(used to state that grouping partitions the records). -/
def sumBy {α : Type} (f : α → Nat) (l : List (String × α)) : Nat :=
  (l.map fun p => f p.2).sum

/-- `(model, prompt)` occurs among the records. -/
def Occ (S : List StorageRecord) (m p : String) : Prop :=
  ∃ r ∈ S, r.model_id = m ∧ r.prompt_id = p

/-- The key collisions the `prevHash` map relies on being absent: on the
occurring pairs, `` `${model}|${prompt}` `` determines the pair. -/
def KeyInj (S : List StorageRecord) : Prop :=
  ∀ m p m' p', Occ S m p → Occ S m' p' →
    driftKey m p = driftKey m' p' → m = m' ∧ p = p'

/-- The fingerprint the spec says is carried forward into date `d` for
`(m, p)`. -/
def stSpec (S : List StorageRecord) (d m p : String) : Option String :=
  match prevObsDate S d m p with
  | none => none
  | some d' => lastHashAt S d' m p

/-! # Theorems -/

/-! ## Association-list lemmas -/

theorem lookupA_setA {α : Type} (l : List (String × α)) (k k' : String) (v : α) :
    lookupA (setA l k v) k' = if k = k' then some v else lookupA l k' := by
  induction l with
  | nil => simp [setA, lookupA]
  | cons hd tl ih =>
      obtain ⟨a, b⟩ := hd
      by_cases hak : a = k
      · subst hak
        by_cases h : a = k' <;> simp [setA, lookupA, h]
      · by_cases h1 : a = k'
        · have h2 : k ≠ k' := fun he => hak (h1.trans he.symm)
          simp [setA, lookupA, hak, h1, h2, Ne.symm h2]
        · simp [setA, lookupA, hak, h1, ih]

theorem lookupA_append {α : Type} (l₁ l₂ : List (String × α)) (k : String) :
    lookupA (l₁ ++ l₂) k = ((lookupA l₁ k).orElse fun _ => lookupA l₂ k) := by
  induction l₁ with
  | nil => simp [lookupA]
  | cons hd tl ih =>
      obtain ⟨a, b⟩ := hd
      by_cases h : a = k <;> simp_all [lookupA]

theorem setA_keys {α : Type} (l : List (String × α)) (k : String) (v : α) :
    (setA l k v).map Prod.fst = if k ∈ l.map Prod.fst then l.map Prod.fst
      else l.map Prod.fst ++ [k] := by
  induction l with
  | nil => simp [setA]
  | cons hd tl ih =>
      obtain ⟨a, b⟩ := hd
      by_cases h : a = k
      · subst h; simp [setA]
      · simp only [setA, if_neg h, List.map_cons, List.mem_cons, ih]
        by_cases hm : k ∈ tl.map Prod.fst
        · simp [hm]
        · simp only [hm, or_false, List.cons_append]
          rw [if_neg (fun h' : k = a => h h'.symm)]
          simp

/-! ## Welford lemmas and claims C6, C7, C10 -/

theorem wfStats_empty : WfStats emptyStats := fun _ => ⟨rfl, rfl⟩

theorem wfStats_update {s : ModelDayStats} (h : WfStats s) (o : Option ℚ) :
    WfStats (welfordUpdate s o) := by
  cases o with
  | none => intro h0; exact h h0
  | some q => intro h0; simp [welfordUpdate] at h0

theorem wfStats_accOf (l : List (Option ℚ)) : WfStats (accOf l) := by
  unfold accOf
  induction l using List.reverseRecOn with
  | nil => exact wfStats_empty
  | append_singleton xs x _ =>
      rw [List.foldl_append, List.foldl_cons, List.foldl_nil]
      exact wfStats_update (by assumption) x

theorem welfordMerge_comm (a b : ModelDayStats) :
    welfordMerge a b = welfordMerge b a := by
  by_cases h : a.n + b.n = 0
  · have h' : b.n + a.n = 0 := by omega
    simp [welfordMerge, h, h', Nat.add_comm b.count a.count]
  · have h' : ¬ b.n + a.n = 0 := by omega
    simp only [welfordMerge, h, h', if_false, ModelDayStats.mk.injEq]
    refine ⟨by omega, ?_, ?_, by omega⟩
    · rw [Nat.add_comm b.n a.n]; ring
    · rw [Nat.add_comm b.n a.n]; ring

theorem welfordMerge_left_zero {a : ModelDayStats} (b : ModelDayStats)
    (ha0 : a.n = 0) (ha : WfStats a) (hb : WfStats b) :
    welfordMerge a b = { b with count := a.count + b.count } := by
  obtain ⟨ham, ham2⟩ := ha ha0
  by_cases hb0 : b.n = 0
  · obtain ⟨hbm, hbm2⟩ := hb hb0
    obtain ⟨n, mean, m2, count⟩ := b
    simp only at hb0 hbm hbm2
    subst hb0; subst hbm; subst hbm2
    simp [welfordMerge, ha0]
  · have h : ¬ a.n + b.n = 0 := by omega
    have hbq : ((b.n : ℚ)) ≠ 0 := Nat.cast_ne_zero.mpr hb0
    have hq : ((a.n + b.n : ℕ) : ℚ) = (b.n : ℚ) := by
      rw [ha0]; push_cast; ring
    simp only [welfordMerge, h, if_false, ModelDayStats.mk.injEq, hq, ha0, ham, ham2,
      Nat.cast_zero]
    rw [if_neg (show ¬ (0 + b.n = 0) by omega)]
    simp only [ModelDayStats.mk.injEq, Nat.zero_add]
    refine ⟨trivial, ?_, ?_, trivial⟩
    · field_simp
    · simp

theorem welfordMerge_count_left (b c : ModelDayStats) (k : Nat) :
    welfordMerge { b with count := k } c
      = { welfordMerge b c with count := k + c.count } := by
  by_cases h : b.n + c.n = 0 <;> simp [welfordMerge, h]

theorem welfordMerge_count_right (a c : ModelDayStats) (k : Nat) :
    welfordMerge a { c with count := k }
      = { welfordMerge a c with count := a.count + k } := by
  by_cases h : a.n + c.n = 0 <;> simp [welfordMerge, h]

theorem wfStats_merge {a b : ModelDayStats} (_ : WfStats a) (_ : WfStats b) :
    WfStats (welfordMerge a b) := by
  intro h0
  by_cases h : a.n + b.n = 0
  · simp [welfordMerge, h]
  · simp [welfordMerge, h] at h0

theorem welfordMerge_count (a b : ModelDayStats) :
    (welfordMerge a b).count = a.count + b.count := by
  by_cases h : a.n + b.n = 0 <;> simp [welfordMerge, h]

theorem welfordMerge_right_zero {c : ModelDayStats} (a : ModelDayStats)
    (hc0 : c.n = 0) (hc : WfStats c) (ha : WfStats a) :
    welfordMerge a c = { a with count := a.count + c.count } := by
  rw [welfordMerge_comm, welfordMerge_left_zero a hc0 hc ha, Nat.add_comm]

theorem welfordMerge_assoc {a b c : ModelDayStats}
    (ha : WfStats a) (hb : WfStats b) (hc : WfStats c) :
    welfordMerge (welfordMerge a b) c = welfordMerge a (welfordMerge b c) := by
  obtain ⟨an, am, am2, ac⟩ := a
  obtain ⟨bn, bm, bm2, bc⟩ := b
  obtain ⟨cn, cm, cm2, cc⟩ := c
  simp only [WfStats] at ha hb hc
  by_cases ha0 : an = 0 <;> by_cases hb0 : bn = 0 <;> by_cases hc0 : cn = 0
  all_goals try (obtain ⟨rfl, rfl⟩ := ha ha0; subst ha0)
  all_goals try (obtain ⟨rfl, rfl⟩ := hb hb0; subst hb0)
  all_goals try (obtain ⟨rfl, rfl⟩ := hc hc0; subst hc0)
  all_goals try have pa : (0 : ℚ) < (an : ℚ) := by exact_mod_cast Nat.pos_of_ne_zero ha0
  all_goals try have pb : (0 : ℚ) < (bn : ℚ) := by exact_mod_cast Nat.pos_of_ne_zero hb0
  all_goals try have pc : (0 : ℚ) < (cn : ℚ) := by exact_mod_cast Nat.pos_of_ne_zero hc0
  all_goals
    simp only [welfordMerge, Nat.add_zero, Nat.zero_add, Nat.add_eq_zero, and_true,
      true_and, and_false, false_and, if_true, if_false, Nat.cast_zero]
  all_goals try rw [if_pos rfl]
  all_goals try simp only [ha0, eq_self_iff_true, true_and, and_true, false_and, and_false,
      if_true, if_false]
  all_goals try simp only [hb0, eq_self_iff_true, true_and, and_true, false_and, and_false,
      if_true, if_false]
  all_goals try simp only [hc0, eq_self_iff_true, true_and, and_true, false_and, and_false,
      if_true, if_false]
  all_goals try rw [if_neg (by omega)]
  all_goals try rw [if_neg (by omega)]
  all_goals try rw [if_neg (by omega)]
  all_goals try rw [if_pos (by omega)]
  all_goals rw [ModelDayStats.mk.injEq]
  all_goals
    refine ⟨?_, ?_, ?_, ?_⟩ <;>
      first
        | rfl
        | omega
        | (push_cast; field_simp; try ring)

theorem accOf_snoc (l : List (Option ℚ)) (z : Option ℚ) :
    accOf (l ++ [z]) = welfordUpdate (accOf l) z := by
  unfold accOf
  rw [List.foldl_append, List.foldl_cons, List.foldl_nil]

theorem welfordMerge_update {a b : ModelDayStats}
    (ha : WfStats a) (hb : WfStats b) (o : Option ℚ) :
    welfordMerge a (welfordUpdate b o) = welfordUpdate (welfordMerge a b) o := by
  obtain ⟨an, am, am2, ac⟩ := a
  obtain ⟨bn, bm, bm2, bc⟩ := b
  simp only [WfStats] at ha hb
  cases o with
  | none =>
      by_cases h : an + bn = 0 <;>
        simp [welfordUpdate, welfordMerge, h, Nat.add_assoc]
  | some s =>
      by_cases ha0 : an = 0 <;> by_cases hb0 : bn = 0
      all_goals try (obtain ⟨rfl, rfl⟩ := ha ha0; subst ha0)
      all_goals try (obtain ⟨rfl, rfl⟩ := hb hb0; subst hb0)
      all_goals try have pa : (0 : ℚ) < (an : ℚ) := by exact_mod_cast Nat.pos_of_ne_zero ha0
      all_goals try have pb : (0 : ℚ) < (bn : ℚ) := by exact_mod_cast Nat.pos_of_ne_zero hb0
      all_goals
        simp only [welfordMerge, welfordUpdate, Nat.add_zero, Nat.zero_add,
          Nat.add_eq_zero, and_true, true_and, and_false, false_and, if_true,
          if_false, Nat.cast_zero, one_ne_zero]
      all_goals try rw [if_pos rfl]
      all_goals try simp only [ha0, eq_self_iff_true, true_and, and_true, false_and, and_false,
      if_true, if_false]
      all_goals try simp only [hb0, eq_self_iff_true, true_and, and_true, false_and, and_false,
      if_true, if_false]
      all_goals try rw [if_neg (by omega)]
      all_goals try rw [if_neg (by omega)]
      all_goals try rw [if_pos (by omega)]
      all_goals rw [ModelDayStats.mk.injEq]
      all_goals
        refine ⟨?_, ?_, ?_, ?_⟩ <;>
          first
            | rfl
            | omega
            | (push_cast; field_simp; try ring)

theorem welfordMerge_accOf (xs ys : List (Option ℚ)) :
    welfordMerge (accOf xs) (accOf ys) = accOf (xs ++ ys) := by
  induction ys using List.reverseRecOn with
  | nil =>
      rw [List.append_nil,
        welfordMerge_right_zero (c := accOf []) (accOf xs) rfl wfStats_empty
          (wfStats_accOf xs)]
      rw [show (accOf [] : ModelDayStats).count = 0 from rfl, Nat.add_zero]
  | append_singleton zs z ih =>
      rw [← List.append_assoc, accOf_snoc, accOf_snoc,
        welfordMerge_update (wfStats_accOf xs) (wfStats_accOf zs), ih]

/-- Shift-of-mean identity for a list of squared deviations. -/
theorem sum_sq_shift (s : List ℚ) (μ μ' : ℚ) :
    ((s.map fun x => (x - μ') ^ 2).sum)
      = ((s.map fun x => (x - μ) ^ 2).sum)
        + 2 * (μ - μ') * (s.sum - s.length * μ) + s.length * (μ - μ') ^ 2 := by
  induction s with
  | nil => simp
  | cons a t ih =>
      simp only [List.map_cons, List.sum_cons, List.length_cons]
      rw [ih]
      push_cast
      ring

/-- Exact characterization of the Welford fold: `count` counts all inputs,
`n` the scored ones, `mean` satisfies `sum = n * mean`, and `m2` is the
sum of squared deviations of the scored inputs from the running mean. -/
theorem accOf_spec (l : List (Option ℚ)) :
    (accOf l).count = l.length ∧ (accOf l).n = (scoredOf l).length ∧
    (scoredOf l).sum = ((accOf l).n : ℚ) * (accOf l).mean ∧
    (accOf l).m2 = ((scoredOf l).map fun x => (x - (accOf l).mean) ^ 2).sum := by
  induction l using List.reverseRecOn with
  | nil => refine ⟨rfl, rfl, by simp [accOf, scoredOf, emptyStats], by simp [accOf, scoredOf, emptyStats]⟩
  | append_singleton xs o ih =>
      obtain ⟨ihc, ihn, ihs, ihm⟩ := ih
      rw [accOf_snoc]
      cases o with
      | none =>
          have hsc : scoredOf (xs ++ [none]) = scoredOf xs := by
            simp [scoredOf]
          refine ⟨?_, ?_, ?_, ?_⟩ <;>
            simp [welfordUpdate, hsc, ihc, ihn, ihs, ihm]
      | some x =>
          have hsc : scoredOf (xs ++ [some x]) = scoredOf xs ++ [x] := by
            simp [scoredOf]
          have hq : (((accOf xs).n + 1 : ℕ) : ℚ) = ((accOf xs).n : ℚ) + 1 := by
            push_cast; ring
          have hq0 : ((accOf xs).n : ℚ) + 1 ≠ 0 := by positivity
          refine ⟨?_, ?_, ?_, ?_⟩
          · simp [welfordUpdate, ihc]
          · simp [welfordUpdate, hsc, ihn]
          · show (scoredOf (xs ++ [some x])).sum
              = (((accOf xs).n + 1 : ℕ) : ℚ)
                * ((accOf xs).mean + (x - (accOf xs).mean) / (((accOf xs).n + 1 : ℕ) : ℚ))
            rw [hsc, List.sum_append, List.sum_cons, List.sum_nil, ihs, hq]
            field_simp
            ring
          · show (accOf xs).m2 + (x - (accOf xs).mean)
                * (x - ((accOf xs).mean + (x - (accOf xs).mean) / (((accOf xs).n + 1 : ℕ) : ℚ)))
              = ((scoredOf (xs ++ [some x])).map fun t =>
                  (t - ((accOf xs).mean + (x - (accOf xs).mean) / (((accOf xs).n + 1 : ℕ) : ℚ))) ^ 2).sum
            rw [hsc, List.map_append, List.sum_append, List.map_singleton,
              List.sum_singleton, hq,
              sum_sq_shift (scoredOf xs)
                ((accOf xs).mean)
                ((accOf xs).mean + (x - (accOf xs).mean) / (((accOf xs).n : ℚ) + 1))]
            rw [← ihn, ihs, ihm]
            have hz : ((accOf xs).n : ℚ) * (accOf xs).mean - ((accOf xs).n : ℚ) * (accOf xs).mean = 0 := by ring
            rw [hz, mul_zero]
            field_simp
            ring

theorem two_le_length_of_mem_ne {l : List ℚ} {x y : ℚ}
    (hx : x ∈ l) (hy : y ∈ l) (hxy : x ≠ y) : 2 ≤ l.length := by
  obtain ⟨s1, s2, rfl⟩ := List.append_of_mem hx
  rcases List.mem_append.mp hy with h | h
  · have := List.length_pos.mpr (List.ne_nil_of_mem h)
    simp only [List.length_append, List.length_cons]
    omega
  · rcases List.mem_cons.mp h with h | h
    · exact absurd h.symm hxy
    · have := List.length_pos.mpr (List.ne_nil_of_mem h)
      simp only [List.length_append, List.length_cons]
      omega

theorem list_sum_pos_of_mem {l : List ℚ} (h0 : ∀ a ∈ l, 0 ≤ a) {a : ℚ}
    (ha : a ∈ l) (hpa : 0 < a) : 0 < l.sum := by
  induction l with
  | nil => cases ha
  | cons b t ih =>
      rw [List.sum_cons]
      rcases List.mem_cons.mp ha with rfl | h
      · have : (0 : ℚ) ≤ t.sum := List.sum_nonneg fun c hc => h0 c (List.mem_cons_of_mem _ hc)
        linarith
      · have hb : (0 : ℚ) ≤ b := h0 b (List.mem_cons_self b t)
        have := ih (fun c hc => h0 c (List.mem_cons_of_mem _ hc)) h
        linarith

/-- Claim C6: `welfordMerge` is commutative, associative on well-formed
accumulators (exact rational arithmetic), equivalent to having observed
both input sequences, and the concrete pooling scenario
`{n:3, mean:0.8, m2:0.02}` + `{n:2, mean:0.5, m2:0.01}` yields `n = 5`
with a mean strictly between `0.5` and `0.8`. -/
theorem welfordMerge_commutative_associative_pools :
    (∀ a b : ModelDayStats, welfordMerge a b = welfordMerge b a) ∧
    (∀ a b c : ModelDayStats, WfStats a → WfStats b → WfStats c →
      welfordMerge (welfordMerge a b) c = welfordMerge a (welfordMerge b c)) ∧
    (∀ xs ys : List (Option ℚ),
      welfordMerge (accOf xs) (accOf ys) = accOf (xs ++ ys)) ∧
    ((welfordMerge ⟨3, 4/5, 1/50, 3⟩ ⟨2, 1/2, 1/100, 2⟩).n = 5 ∧
      1/2 < (welfordMerge ⟨3, 4/5, 1/50, 3⟩ ⟨2, 1/2, 1/100, 2⟩).mean ∧
      (welfordMerge ⟨3, 4/5, 1/50, 3⟩ ⟨2, 1/2, 1/100, 2⟩).mean < 4/5) := by
  refine ⟨welfordMerge_comm,
    fun a b c ha hb hc => welfordMerge_assoc ha hb hc,
    welfordMerge_accOf, ?_, ?_, ?_⟩
  · norm_num [welfordMerge]
  · norm_num [welfordMerge]
  · norm_num [welfordMerge]

/-- Witness for C6: the associativity conjunct applied at concrete
well-formed accumulators. -/
theorem welfordMerge_commutative_associative_pools_witness :
    welfordMerge (welfordMerge ⟨1, 3/4, 0, 1⟩ ⟨0, 0, 0, 2⟩) ⟨2, 1/2, 1/8, 2⟩
      = welfordMerge ⟨1, 3/4, 0, 1⟩ (welfordMerge ⟨0, 0, 0, 2⟩ ⟨2, 1/2, 1/8, 2⟩) :=
  welfordMerge_commutative_associative_pools.2.1 _ _ _
    (fun h => by simp at h) (fun _ => ⟨rfl, rfl⟩) (fun h => by simp at h)

/-- Claim C7: `welfordVariance` is exactly 0 whenever `n < 2`, and on an
accumulator built by `welfordUpdate` from a sequence containing two
distinct scores it equals `m2/(n-1)` and is strictly positive. -/
theorem welfordVariance_zero_or_positive :
    (∀ s : ModelDayStats, s.n < 2 → welfordVariance s = 0) ∧
    (∀ (l : List (Option ℚ)) (x y : ℚ), x ∈ scoredOf l → y ∈ scoredOf l → x ≠ y →
      welfordVariance (accOf l) = (accOf l).m2 / (((accOf l).n : ℚ) - 1) ∧
      0 < welfordVariance (accOf l)) := by
  constructor
  · intro s h
    simp [welfordVariance, h]
  · intro l x y hx hy hxy
    obtain ⟨_, ihn, ihs, ihm⟩ := accOf_spec l
    have hlen : 2 ≤ (scoredOf l).length := two_le_length_of_mem_ne hx hy hxy
    have hn2 : ¬ (accOf l).n < 2 := by omega
    have hvar : welfordVariance (accOf l)
        = (accOf l).m2 / (((accOf l).n : ℚ) - 1) := by
      simp [welfordVariance, hn2]
    refine ⟨hvar, ?_⟩
    rw [hvar]
    apply div_pos
    · rw [ihm]
      have hne : x ≠ (accOf l).mean ∨ y ≠ (accOf l).mean := by
        by_contra h
        push_neg at h
        exact hxy (h.1.trans h.2.symm)
      have key : ∃ t ∈ scoredOf l, t ≠ (accOf l).mean := by
        rcases hne with h | h
        · exact ⟨x, hx, h⟩
        · exact ⟨y, hy, h⟩
      obtain ⟨t, ht, htne⟩ := key
      apply list_sum_pos_of_mem
        (fun a ha => ?_)
        (List.mem_map_of_mem _ ht)
      · have hsub : t - (accOf l).mean ≠ 0 := sub_ne_zero.mpr htne
        positivity
      · obtain ⟨u, _, rfl⟩ := List.mem_map.mp ha
        positivity
    · have h2 : (2 : ℚ) ≤ ((accOf l).n : ℚ) := by exact_mod_cast by omega
      linarith

/-- Witness for C7: the sequence `[0.2, none, 0.8]` has two distinct
scores; its accumulator's variance is `m2/(n-1) > 0`. -/
theorem welfordVariance_zero_or_positive_witness :
    ((1:ℚ)/5 ∈ scoredOf [some (1/5), none, some (4/5)] ∧
      (4:ℚ)/5 ∈ scoredOf [some (1/5), none, some (4/5)] ∧ ((1:ℚ)/5) ≠ 4/5) ∧
    welfordVariance (accOf [some (1/5), none, some (4/5)])
      = (accOf [some (1/5), none, some (4/5)]).m2
        / (((accOf [some (1/5), none, some (4/5)]).n : ℚ) - 1) ∧
    0 < welfordVariance (accOf [some (1/5), none, some (4/5)]) := by
  have h1 : (1:ℚ)/5 ∈ scoredOf [some (1/5), none, some (4/5)] := by
    simp [scoredOf]
  have h2 : (4:ℚ)/5 ∈ scoredOf [some (1/5), none, some (4/5)] := by
    simp [scoredOf]
  have h3 : ((1:ℚ)/5) ≠ 4/5 := by norm_num
  exact ⟨⟨h1, h2, h3⟩, welfordVariance_zero_or_positive.2 _ _ _ h1 h2 h3⟩

/-- Claim C10: updating with an absent score bumps only `count`; hence a
record with `score = null` aggregated into the Welford chart leaves every
slot's reported mean and variance, and `total_scored`, unchanged. -/
theorem welfordUpdate_none_frame :
    (∀ s : ModelDayStats, welfordUpdate s none = { s with count := s.count + 1 }) ∧
    (∀ (c : ChartV2) (r : StorageRecord), r.score = none →
      (∀ d m, lookup2 (aggregateRecords [r] c).data d m ≠ lookup2 c.data d m →
        statView (lookup2 (aggregateRecords [r] c).data d m)
          = statView (lookup2 c.data d m)) ∧
      (aggregateRecords [r] c).total_scored = c.total_scored) := by
  constructor
  · intro s
    rfl
  · intro c r hscore
    constructor
    · intro d m _
      have hdata : (aggregateRecords [r] c).data
          = setA c.data (dateKey r)
              (setA ((lookupA c.data (dateKey r)).getD []) r.model_id
                (welfordUpdate
                  ((lookupA ((lookupA c.data (dateKey r)).getD []) r.model_id).getD
                    emptyStats) r.score)) := rfl
      rw [hdata]
      unfold lookup2
      rw [lookupA_setA]
      by_cases hd : dateKey r = d
      · subst hd
        rw [if_pos rfl]
        show statView (lookupA (setA ((lookupA c.data (dateKey r)).getD []) r.model_id
          (welfordUpdate _ r.score)) m) = _
        rw [lookupA_setA]
        by_cases hm : r.model_id = m
        · subst hm
          rw [if_pos rfl, hscore]
          cases hdm : lookupA c.data (dateKey r) with
          | none =>
              simp [lookup2, hdm, lookupA, statView, welfordUpdate, emptyStats,
                welfordVariance]
          | some dm =>
              cases hval : lookupA dm r.model_id with
              | none =>
                  simp [lookup2, hdm, hval, statView, welfordUpdate, emptyStats,
                    welfordVariance]
              | some entry =>
                  simp [lookup2, hdm, hval, statView, welfordUpdate, welfordVariance]
        · rw [if_neg hm]
          cases hdm : lookupA c.data (dateKey r) with
          | none => simp [lookup2, hdm, lookupA]
          | some dm => simp [lookup2, hdm]
      · rw [if_neg hd]
    · show c.total_scored + (if r.score ≠ none then 1 else 0) = c.total_scored
      simp [hscore]

/-! ## Number printing and parsing lemmas -/

theorem digitChar_toNat (n : Nat) (h : n < 10) : (digitChar n).toNat = 48 + n := by
  interval_cases n <;> decide

theorem isDigitChar_digitChar (n : Nat) (h : n < 10) :
    isDigitChar (digitChar n) = true := by
  interval_cases n <;> decide

theorem isDigit_ne (c : Char) (h : isDigitChar c = true) :
    c ≠ ',' ∧ c ≠ '"' ∧ c ≠ '-' ∧ c ≠ '+' ∧ c ≠ '.' := by
  refine ⟨?_, ?_, ?_, ?_, ?_⟩ <;> (intro hc; subst hc; exact absurd h (by decide))

theorem digitsVal_append (acc : Nat) (xs ys : List Char) :
    digitsVal acc (xs ++ ys) = digitsVal (digitsVal acc xs) ys := by
  induction xs generalizing acc with
  | nil => rfl
  | cons c rest ih =>
      show digitsVal (acc * 10 + (c.toNat - 48)) (rest ++ ys)
        = digitsVal (digitsVal (acc * 10 + (c.toNat - 48)) rest) ys
      exact ih (acc * 10 + (c.toNat - 48))

theorem digitsVal_acc (acc : Nat) (ds : List Char) :
    digitsVal acc ds = acc * 10 ^ ds.length + digitsVal 0 ds := by
  induction ds generalizing acc with
  | nil =>
      show acc = acc * 10 ^ 0 + 0
      simp
  | cons c rest ih =>
      show digitsVal (acc * 10 + (c.toNat - 48)) rest
        = acc * 10 ^ (c :: rest).length + digitsVal (0 * 10 + (c.toNat - 48)) rest
      rw [ih (acc * 10 + (c.toNat - 48)), ih (0 * 10 + (c.toNat - 48)),
        List.length_cons, pow_succ]
      ring

theorem natPrintAux_digits (fuel n : Nat) :
    ∀ c ∈ natPrintAux fuel n, isDigitChar c = true := by
  induction fuel generalizing n with
  | zero => intro c hc; exact absurd hc (List.not_mem_nil c)
  | succ fuel ih =>
      intro c hc
      rw [natPrintAux] at hc
      by_cases h : n < 10
      · rw [if_pos h] at hc
        rcases List.mem_singleton.mp hc with rfl
        exact isDigitChar_digitChar n h
      · rw [if_neg h] at hc
        rcases List.mem_append.mp hc with h1 | h1
        · exact ih (n / 10) c h1
        · rcases List.mem_singleton.mp h1 with rfl
          exact isDigitChar_digitChar _ (Nat.mod_lt n (by omega))

theorem natPrintAux_ne_nil (fuel n : Nat) (h : 0 < fuel) :
    natPrintAux fuel n ≠ [] := by
  cases fuel with
  | zero => omega
  | succ f =>
      rw [natPrintAux]
      by_cases h10 : n < 10
      · rw [if_pos h10]; simp
      · rw [if_neg h10]; simp

theorem natPrintAux_val (fuel : Nat) :
    ∀ n, n < 10 ^ fuel → digitsVal 0 (natPrintAux fuel n) = n := by
  induction fuel with
  | zero => intro n hn; interval_cases n; rfl
  | succ fuel ih =>
      intro n hn
      rw [natPrintAux]
      by_cases h10 : n < 10
      · rw [if_pos h10]
        show 0 * 10 + ((digitChar n).toNat - 48) = n
        rw [digitChar_toNat n h10]
        omega
      · rw [if_neg h10]
        rw [digitsVal_append, ih (n / 10) ?hlt]
        case hlt =>
          rw [Nat.div_lt_iff_lt_mul (by omega : 0 < 10)]
          calc n < 10 ^ (fuel + 1) := hn
            _ = 10 ^ fuel * 10 := by rw [pow_succ]
        show digitsVal (n / 10 * 10 + ((digitChar (n % 10)).toNat - 48)) [] = n
        rw [digitChar_toNat _ (Nat.mod_lt n (by omega))]
        show n / 10 * 10 + (48 + n % 10 - 48) = n
        omega

theorem natPrint_val (n : Nat) : digitsVal 0 (natPrint n) = n :=
  natPrintAux_val (n + 1) n
    (lt_of_lt_of_le (Nat.lt_pow_self (by omega) n)
      (Nat.pow_le_pow_right (by omega) (Nat.le_succ n)))

theorem natPrint_digits (n : Nat) : ∀ c ∈ natPrint n, isDigitChar c = true :=
  natPrintAux_digits (n + 1) n

theorem natPrint_ne_nil (n : Nat) : natPrint n ≠ [] :=
  natPrintAux_ne_nil (n + 1) n (Nat.succ_pos n)

theorem natPrintAux_length_le (fuel : Nat) :
    ∀ n j, 1 ≤ j → n < 10 ^ j → (natPrintAux fuel n).length ≤ j := by
  induction fuel with
  | zero => intro n j hj _; simp [natPrintAux]
  | succ fuel ih =>
      intro n j hj hn
      rw [natPrintAux]
      by_cases h10 : n < 10
      · rw [if_pos h10]; simpa using hj
      · rw [if_neg h10]
        have hj2 : 2 ≤ j := by
          by_contra hlt
          have : j = 1 := by omega
          subst this
          simp at hn
          omega
        have hdiv : n / 10 < 10 ^ (j - 1) := by
          rw [Nat.div_lt_iff_lt_mul (by omega : 0 < 10)]
          calc n < 10 ^ j := hn
            _ = 10 ^ (j - 1) * 10 := by
                rw [← pow_succ]
                congr 1
                omega
        have := ih (n / 10) (j - 1) (by omega) hdiv
        simp only [List.length_append, List.length_cons, List.length_nil]
        omega

theorem takeWhile_all {p : Char → Bool} (l : List Char)
    (h : ∀ c ∈ l, p c = true) : l.takeWhile p = l := by
  induction l with
  | nil => rfl
  | cons c rest ih =>
      rw [List.takeWhile_cons, h c (List.mem_cons_self c rest),
        ih (fun d hd => h d (List.mem_cons_of_mem c hd))]
      rfl

theorem takeWhile_append_stop {p : Char → Bool} (A : List Char) (b : Char)
    (B : List Char) (hA : ∀ c ∈ A, p c = true) (hb : p b = false) :
    (A ++ b :: B).takeWhile p = A := by
  induction A with
  | nil => simp [List.takeWhile_cons, hb]
  | cons c rest ih =>
      rw [List.cons_append, List.takeWhile_cons,
        hA c (List.mem_cons_self c rest),
        ih (fun d hd => hA d (List.mem_cons_of_mem c hd))]
      rfl

theorem parseIntCore_natPrint (n : Nat) : parseIntCore (natPrint n) = some n := by
  rw [parseIntCore]
  simp only [takeWhile_all (natPrint n) (natPrint_digits n)]
  rw [if_neg (by simpa using natPrint_ne_nil n)]
  rw [natPrint_val]

theorem jsParseInt_not_sign (c : Char) (cs : List Char)
    (h1 : c ≠ '-') (h2 : c ≠ '+') :
    jsParseInt (c :: cs) = (parseIntCore (c :: cs)).map (fun n => (n : Int)) := by
  rw [jsParseInt.eq_def]
  split
  · rename_i heq; injection heq with hc _; exact absurd hc h1
  · rename_i heq; injection heq with hc _; exact absurd hc h2
  · rfl

theorem jsParseInt_natPrint (n : Nat) : jsParseInt (natPrint n) = some (n : Int) := by
  rcases hnp : natPrint n with _ | ⟨c, cs⟩
  · exact absurd hnp (natPrint_ne_nil n)
  · have hd : isDigitChar c = true := by
      apply natPrint_digits n
      rw [hnp]; exact List.mem_cons_self c cs
    obtain ⟨_, _, h3, h4, _⟩ := isDigit_ne c hd
    rw [jsParseInt_not_sign c cs h3 h4, ← hnp, parseIntCore_natPrint]
    rfl

theorem jsParseInt_intPrint (i : Int) : jsParseInt (intPrint i) = some i := by
  rw [intPrint]
  by_cases hneg : i < 0
  · rw [if_pos hneg]
    show (parseIntCore (natPrint i.natAbs)).map (fun n => -(n : Int)) = some i
    rw [parseIntCore_natPrint]
    show some (-(i.natAbs : Int)) = some i
    congr 1
    omega
  · rw [if_neg hneg, jsParseInt_natPrint]
    congr 1
    omega

theorem jsParseInt_jsNumStr (o : Option Int) : jsParseInt (jsNumStr o) = o := by
  cases o with
  | none => rfl
  | some i => rw [jsNumStr, jsParseInt_intPrint]

/-! ## decimal printing lemmas -/

theorem digitsVal_replicate_zero (j : Nat) :
    digitsVal 0 (List.replicate j '0') = 0 := by
  induction j with
  | zero => rfl
  | succ j ih =>
      show digitsVal (0 * 10 + ('0'.toNat - 48)) (List.replicate j '0') = 0
      have h : 0 * 10 + ('0'.toNat - 48) = 0 := by decide
      rw [h]
      exact ih

theorem digitsVal_padZeros (k : Nat) (ds : List Char) :
    digitsVal 0 (padZeros k ds) = digitsVal 0 ds := by
  rw [padZeros, digitsVal_append, digitsVal_replicate_zero]

theorem padZeros_length (k : Nat) (ds : List Char) (h : ds.length ≤ k) :
    (padZeros k ds).length = k := by
  simp only [padZeros, List.length_append, List.length_replicate]
  omega

theorem padZeros_digits (k : Nat) (ds : List Char)
    (h : ∀ c ∈ ds, isDigitChar c = true) :
    ∀ c ∈ padZeros k ds, isDigitChar c = true := by
  intro c hc
  rcases List.mem_append.mp hc with h1 | h1
  · rcases List.eq_of_mem_replicate h1 with rfl
    decide
  · exact h c h1

theorem den_dvd_pow10 (q : ℚ) (hfd : FiniteDecimal q) :
    q.den ∣ 10 ^ max (multP q.den 2 q.den) (multP q.den 5 q.den) := by
  set a := multP q.den 2 q.den with ha
  set b := multP q.den 5 q.den with hb
  have h10 : (10 : ℕ) ^ max a b = 2 ^ max a b * 5 ^ max a b := by
    rw [← Nat.mul_pow]
  rw [h10, hfd]
  exact mul_dvd_mul (pow_dvd_pow 2 (le_max_left a b)) (pow_dvd_pow 5 (le_max_right a b))

theorem rat_mul_pow_eq_int (q : ℚ) (k : Nat) (hd : q.den ∣ 10 ^ k) :
    q * 10 ^ k = ((q.num * ((10 ^ k / q.den : ℕ) : ℤ) : ℤ) : ℚ) := by
  have hden : (q.den : ℚ) ≠ 0 := by
    exact_mod_cast q.den_nz
  have hmul : ((10 ^ k / q.den : ℕ) : ℚ) * (q.den : ℚ) = (10 : ℚ) ^ k := by
    rw [← Nat.cast_mul, Nat.div_mul_cancel hd]
    push_cast
    ring
  have hq : q * (q.den : ℚ) = (q.num : ℚ) :=
    (eq_div_iff hden).mp (Rat.num_div_den q).symm
  calc q * 10 ^ k = q * (((10 ^ k / q.den : ℕ) : ℚ) * q.den) := by rw [hmul]
    _ = (q * q.den) * ((10 ^ k / q.den : ℕ) : ℚ) := by ring
    _ = (q.num : ℚ) * ((10 ^ k / q.den : ℕ) : ℚ) := by rw [hq]
    _ = _ := by rw [Int.cast_mul, Int.cast_natCast]

theorem toNat_num_mul_pow (q : ℚ) (k : Nat) (hq : 0 ≤ q) (hd : q.den ∣ 10 ^ k) :
    (((q * 10 ^ k).num.toNat : ℕ) : ℚ) = q * 10 ^ k := by
  have h1 := rat_mul_pow_eq_int q k hd
  have h2 : (q * 10 ^ k).num = q.num * ((10 ^ k / q.den : ℕ) : ℤ) := by
    rw [h1, Rat.num_intCast]
  have h3 : 0 ≤ (q * 10 ^ k).num := by
    rw [h2]
    exact mul_nonneg (Rat.num_nonneg.mpr hq) (Int.natCast_nonneg _)
  have h4 : (((q * 10 ^ k).num.toNat : ℕ) : ℤ) = (q * 10 ^ k).num :=
    Int.toNat_of_nonneg h3
  have h5 : (((q * 10 ^ k).num.toNat : ℕ) : ℚ) = (((q * 10 ^ k).num : ℤ) : ℚ) := by
    exact_mod_cast congrArg (fun z : ℤ => (z : ℚ)) h4
  rw [h5, h1, Rat.num_intCast]

theorem parseFloatCore_natPrint (m : Nat) :
    parseFloatCore (natPrint m) = some (m : ℚ) := by
  simp only [parseFloatCore]
  rw [takeWhile_all (natPrint m) (natPrint_digits m)]
  rw [if_neg (by simpa using natPrint_ne_nil m)]
  rw [List.drop_length]
  show some ((digitsVal 0 (natPrint m) : ℕ) : ℚ) = some (m : ℚ)
  rw [natPrint_val]

theorem parseFloatCore_decPrintNonneg (q : ℚ) (hq : 0 ≤ q)
    (hfd : FiniteDecimal q) :
    parseFloatCore (decPrintNonneg q) = some q := by
  have hdvd := den_dvd_pow10 q hfd
  set k := max (multP q.den 2 q.den) (multP q.den 5 q.den) with hk
  set n := (q * (10 : ℚ) ^ k).num.toNat with hn
  have hnq : ((n : ℕ) : ℚ) = q * 10 ^ k := toNat_num_mul_pow q k hq hdvd
  have h10 : ((10 : ℚ)) ^ k ≠ 0 := by positivity
  have hq' : q = ((n : ℕ) : ℚ) / 10 ^ k := by
    rw [hnq]
    field_simp
  have hdp : decPrintNonneg q =
      if k = 0 then natPrint n
      else natPrint (n / 10 ^ k) ++ '.' :: padZeros k (natPrint (n % 10 ^ k)) := rfl
  rw [hdp]
  by_cases hk0 : k = 0
  · rw [if_pos hk0, parseFloatCore_natPrint]
    congr 1
    rw [hq', hk0]
    simp
  · rw [if_neg hk0]
    have hk1 : 1 ≤ k := by omega
    have hAd := natPrint_digits (n / 10 ^ k)
    have hBlen : (natPrint (n % 10 ^ k)).length ≤ k :=
      natPrintAux_length_le _ _ k hk1 (Nat.mod_lt n (by positivity))
    have hBd := padZeros_digits k (natPrint (n % 10 ^ k)) (natPrint_digits _)
    simp only [parseFloatCore]
    rw [takeWhile_append_stop _ '.' _ hAd (by decide)]
    rw [if_neg (by simpa using natPrint_ne_nil (n / 10 ^ k))]
    rw [List.drop_left]
    show some ((digitsVal 0 (natPrint (n / 10 ^ k)) : ℕ)
      + (digitsVal 0 ((padZeros k (natPrint (n % 10 ^ k))).takeWhile isDigitChar) : ℕ)
        / (10 : ℚ) ^ ((padZeros k (natPrint (n % 10 ^ k))).takeWhile isDigitChar).length)
      = some q
    rw [takeWhile_all _ hBd, digitsVal_padZeros, natPrint_val, natPrint_val,
      padZeros_length k _ hBlen]
    congr 1
    have hnm := Nat.div_add_mod n (10 ^ k)
    have hcast : (10 : ℚ) ^ k * ((n / 10 ^ k : ℕ) : ℚ) + ((n % 10 ^ k : ℕ) : ℚ)
        = ((n : ℕ) : ℚ) := by
      exact_mod_cast hnm
    rw [hq']
    field_simp
    linarith [hcast]

theorem decPrintNonneg_head (q : ℚ) :
    ∃ c cs, decPrintNonneg q = c :: cs ∧ isDigitChar c = true := by
  rw [decPrintNonneg]
  set k := max (multP q.den 2 q.den) (multP q.den 5 q.den) with hk
  set n := (q * (10 : ℚ) ^ k).num.toNat with hn
  by_cases hk0 : k = 0
  · rw [if_pos hk0]
    rcases hnp : natPrint n with _ | ⟨c, cs⟩
    · exact absurd hnp (natPrint_ne_nil n)
    · exact ⟨c, cs, rfl, natPrint_digits n c (by rw [hnp]; exact List.mem_cons_self c cs)⟩
  · rw [if_neg hk0]
    rcases hnp : natPrint (n / 10 ^ k) with _ | ⟨c, cs⟩
    · exact absurd hnp (natPrint_ne_nil _)
    · refine ⟨c, cs ++ '.' :: padZeros k (natPrint (n % 10 ^ k)), by simp, ?_⟩
      exact natPrint_digits _ c (by rw [hnp]; exact List.mem_cons_self c cs)

theorem mem_decPrintNonneg (q : ℚ) :
    ∀ c ∈ decPrintNonneg q, isDigitChar c = true ∨ c = '.' := by
  rw [decPrintNonneg]
  set k := max (multP q.den 2 q.den) (multP q.den 5 q.den) with hk
  set n := (q * (10 : ℚ) ^ k).num.toNat with hn
  intro c hc
  by_cases hk0 : k = 0
  · rw [if_pos hk0] at hc
    exact Or.inl (natPrint_digits n c hc)
  · rw [if_neg hk0] at hc
    rcases List.mem_append.mp hc with h1 | h1
    · exact Or.inl (natPrint_digits _ c h1)
    · rcases List.mem_cons.mp h1 with rfl | h2
      · exact Or.inr rfl
      · exact Or.inl (padZeros_digits k _ (natPrint_digits _) c h2)

theorem mem_decPrint (q : ℚ) :
    ∀ c ∈ decPrint q, isDigitChar c = true ∨ c = '.' ∨ c = '-' := by
  rw [decPrint]
  intro c hc
  by_cases hq : q < 0
  · rw [if_pos hq] at hc
    rcases List.mem_cons.mp hc with rfl | h2
    · exact Or.inr (Or.inr rfl)
    · rcases mem_decPrintNonneg (-q) c h2 with h | h
      · exact Or.inl h
      · exact Or.inr (Or.inl h)
  · rw [if_neg hq] at hc
    rcases mem_decPrintNonneg q c hc with h | h
    · exact Or.inl h
    · exact Or.inr (Or.inl h)

theorem decPrint_ne_nil (q : ℚ) : decPrint q ≠ [] := by
  rw [decPrint]
  by_cases hq : q < 0
  · rw [if_pos hq]; simp
  · rw [if_neg hq]
    obtain ⟨c, cs, heq, _⟩ := decPrintNonneg_head q
    rw [heq]
    simp

theorem jsParseFloat_not_sign (c : Char) (cs : List Char)
    (h1 : c ≠ '-') (h2 : c ≠ '+') :
    jsParseFloat (c :: cs) = parseFloatCore (c :: cs) := by
  rw [jsParseFloat.eq_def]
  split
  · rename_i heq; injection heq with hc _; exact absurd hc h1
  · rename_i heq; injection heq with hc _; exact absurd hc h2
  · rfl

theorem neg_finiteDecimal (q : ℚ) (hfd : FiniteDecimal q) : FiniteDecimal (-q) := by
  show (-q).den = _
  rw [Rat.neg_den]
  exact hfd

theorem jsParseFloat_decPrint (q : ℚ) (hfd : FiniteDecimal q) :
    jsParseFloat (decPrint q) = some q := by
  rw [decPrint]
  by_cases hq : q < 0
  · rw [if_pos hq]
    show (parseFloatCore (decPrintNonneg (-q))).map (fun v => -v) = some q
    rw [parseFloatCore_decPrintNonneg (-q) (by linarith) (neg_finiteDecimal q hfd)]
    show some (-(-q)) = some q
    rw [neg_neg]
  · rw [if_neg hq]
    obtain ⟨c, cs, heq, hd⟩ := decPrintNonneg_head q
    obtain ⟨_, _, h3, h4, _⟩ := isDigit_ne c hd
    rw [heq, jsParseFloat_not_sign c cs h3 h4, ← heq]
    exact parseFloatCore_decPrintNonneg q (by linarith) hfd

/-! ## CSV codec lemmas and claim C1 -/

theorem splitAtComma_no_comma (s : List Char) (h : ',' ∉ s) :
    splitAtComma s = (⟨s⟩, none) := by
  induction s with
  | nil => rfl
  | cons c rest ih =>
      simp only [List.mem_cons, not_or] at h
      rw [splitAtComma, if_neg (fun hc => h.1 hc.symm), ih h.2]

theorem splitAtComma_comma (s rest : List Char) (h : ',' ∉ s) :
    splitAtComma (s ++ ',' :: rest) = (⟨s⟩, some rest) := by
  induction s with
  | nil => simp [splitAtComma]
  | cons c s' ih =>
      simp only [List.mem_cons, not_or] at h
      rw [List.cons_append, splitAtComma, if_neg (fun hc => h.1 hc.symm), ih h.2]

theorem scanQ_doubled (s rest : List Char) (hrest : rest.head? ≠ some '"') :
    scanQ (doubledQuotes s ++ '"' :: rest) = (⟨s⟩, some rest) := by
  induction s with
  | nil =>
      show scanQ ('"' :: rest) = _
      rw [scanQ.eq_def]
      simp only [if_pos rfl, if_true]
      cases rest with
      | nil => rfl
      | cons c r =>
          have hc : c ≠ '"' := by
            intro h
            exact hrest (by rw [h]; rfl)
          simp only [if_neg hc]
  | cons c s' ih =>
      by_cases hc : c = '"'
      · subst hc
        show scanQ ('"' :: '"' :: (doubledQuotes s' ++ '"' :: rest)) = _
        rw [scanQ.eq_def]
        simp only [if_pos rfl, if_true, ih]
      · have hd : doubledQuotes (c :: s') ++ '"' :: rest
            = c :: (doubledQuotes s' ++ '"' :: rest) := by
          simp [doubledQuotes, hc]
        rw [hd, scanQ.eq_def]
        simp only [if_neg hc, ih]

/-! ## Field-list lemmas for `parseFields` -/

theorem intercalate_comma_cons (x : List Char) (ys : List (List Char)) (h : ys ≠ []) :
    List.intercalate [','] (x :: ys) = x ++ ',' :: List.intercalate [','] ys := by
  cases ys with
  | nil => exact absurd rfl h
  | cons y zs => simp [List.intercalate, List.intersperse]

theorem parseFields_step_raw (fuel : Nat) (dl I : List Char)
    (h1 : ',' ∉ dl) (h2 : '"' ∉ dl) :
    parseFields (fuel + 1) (dl ++ ',' :: I) = ⟨dl⟩ :: parseFields fuel I := by
  cases dl with
  | nil => rfl
  | cons c cs =>
      simp only [List.mem_cons, not_or] at h1 h2
      rw [List.cons_append, parseFields.eq_def]
      simp only [if_neg (fun hc : c = '"' => h2.1 hc.symm)]
      rw [← List.cons_append, splitAtComma_comma (c :: cs) I (by
        simp only [List.mem_cons, not_or]
        exact h1)]

theorem parseFields_last_raw (fuel : Nat) (dl : List Char)
    (h1 : ',' ∉ dl) (h2 : '"' ∉ dl) (h3 : dl ≠ []) :
    parseFields (fuel + 1) dl = [⟨dl⟩] := by
  cases dl with
  | nil => exact absurd rfl h3
  | cons c cs =>
      simp only [List.mem_cons, not_or] at h1 h2
      rw [parseFields.eq_def]
      simp only [if_neg (fun hc : c = '"' => h2.1 hc.symm)]
      rw [splitAtComma_no_comma (c :: cs) (by
        simp only [List.mem_cons, not_or]
        exact h1)]

theorem parseFields_step_quoted (fuel : Nat) (dl I : List Char) :
    parseFields (fuel + 1) (('"' :: doubledQuotes dl ++ ['"']) ++ ',' :: I)
      = ⟨dl⟩ :: parseFields fuel I := by
  have hsh : ('"' :: doubledQuotes dl ++ ['"']) ++ ',' :: I
      = '"' :: (doubledQuotes dl ++ '"' :: (',' :: I)) := by
    simp
  rw [hsh, parseFields.eq_def]
  simp only [if_pos rfl, if_true]
  rw [scanQ_doubled dl (',' :: I) (by simp)]

theorem parseFields_last_quoted (fuel : Nat) (dl : List Char) :
    parseFields (fuel + 1) ('"' :: doubledQuotes dl ++ ['"'])
      = [⟨dl⟩] := by
  have hsh : ('"' : Char) :: doubledQuotes dl ++ ['"']
      = '"' :: (doubledQuotes dl ++ '"' :: ([] : List Char)) := by
    simp
  rw [hsh, parseFields.eq_def]
  simp only [if_pos rfl, if_true]
  rw [scanQ_doubled dl [] (by simp)]

theorem parseFields_encoded (ps : List (String × List Char)) :
    ∀ fuel, ps.length ≤ fuel → (∀ p ∈ ps, EncOK p) →
    (∀ d, ps.getLast? ≠ some (d, ([] : List Char))) →
    parseFields fuel (List.intercalate [','] (ps.map Prod.snd)) = ps.map Prod.fst := by
  induction ps with
  | nil =>
      intro fuel _ _ _
      have : List.intercalate [','] ([] : List (List Char)) = [] := by
        simp [List.intercalate]
      rw [List.map_nil, this]
      cases fuel <;> rfl
  | cons p tl ih =>
      obtain ⟨d, e⟩ := p
      intro fuel hf hok hlast
      cases fuel with
      | zero => simp at hf
      | succ f =>
          have hokp : EncOK (d, e) := hok (d, e) (List.mem_cons_self _ _)
          cases tl with
          | nil =>
              have he : e ≠ [] := by
                intro h
                exact hlast d (by rw [h]; rfl)
              have hsing : List.intercalate [','] ([e] : List (List Char)) = e := by
                simp [List.intercalate]
              simp only [List.map_cons, List.map_nil, hsing]
              rcases hokp with ⟨hraw, hc, hq⟩ | hquoted
              · simp only at hraw hc hq
                rw [hraw] at he ⊢
                rw [parseFields_last_raw f d.data (hraw ▸ hc) (hraw ▸ hq) he]
              · simp only at hquoted
                rw [hquoted, parseFields_last_quoted]
          | cons q tl' =>
              have hlast' : ∀ d, (q :: tl').getLast? ≠ some (d, ([] : List Char)) := by
                intro d0 h
                exact hlast d0 (by rw [List.getLast?_cons_cons]; exact h)
              have hok' : ∀ p ∈ q :: tl', EncOK p :=
                fun p hp => hok p (List.mem_cons_of_mem _ hp)
              have hf' : (q :: tl').length ≤ f := by
                simp only [List.length_cons] at hf ⊢
                omega
              simp only [List.map_cons]
              rw [intercalate_comma_cons e _ (by simp)]
              rcases hokp with ⟨hraw, hc, hq⟩ | hquoted
              · simp only at hraw hc hq
                rw [hraw, parseFields_step_raw f d.data _ (hraw ▸ hc) (hraw ▸ hq)]
                rw [← List.map_cons Prod.snd q tl']
                rw [ih f hf' hok' hlast']
                rfl
              · simp only at hquoted
                rw [hquoted, parseFields_step_quoted]
                rw [← List.map_cons Prod.snd q tl']
                rw [ih f hf' hok' hlast']
                rfl

theorem parseFields_encoded_trail (ps : List (String × List Char)) :
    ∀ fuel, ps.length ≤ fuel → (∀ p ∈ ps, EncOK p) →
    parseFields fuel (List.intercalate [','] (ps.map Prod.snd ++ [[]]))
      = ps.map Prod.fst := by
  induction ps with
  | nil =>
      intro fuel _ _
      have : List.intercalate [','] ([[]] : List (List Char)) = [] := by
        simp [List.intercalate]
      rw [List.map_nil, List.nil_append, this]
      cases fuel <;> rfl
  | cons p tl ih =>
      obtain ⟨d, e⟩ := p
      intro fuel hf hok
      cases fuel with
      | zero => simp at hf
      | succ f =>
          have hokp : EncOK (d, e) := hok (d, e) (List.mem_cons_self _ _)
          have hok' : ∀ p ∈ tl, EncOK p :=
            fun p hp => hok p (List.mem_cons_of_mem _ hp)
          have hf' : tl.length ≤ f := by
            simp only [List.length_cons] at hf
            omega
          simp only [List.map_cons, List.cons_append]
          rw [intercalate_comma_cons e _ (by simp)]
          rcases hokp with ⟨hraw, hc, hq⟩ | hquoted
          · simp only at hraw hc hq
            rw [hraw, parseFields_step_raw f d.data _ (hraw ▸ hc) (hraw ▸ hq)]
            rw [ih f hf' hok']
          · simp only at hquoted
            rw [hquoted, parseFields_step_quoted]
            rw [ih f hf' hok']

/-! ## Encoded-field facts and the row round trip -/

theorem escapeCsvField_encOK (v : String) : EncOK (v, (escapeCsvField v).data) := by
  rw [escapeCsvField]
  by_cases h : ',' ∈ v.data ∨ '"' ∈ v.data ∨ '\n' ∈ v.data ∨ '\r' ∈ v.data
  · rw [if_pos h]
    exact Or.inr rfl
  · rw [if_neg h]
    push_neg at h
    exact Or.inl ⟨rfl, h.1, h.2.1⟩

theorem mem_jsNumStr (o : Option Int) :
    ∀ c ∈ jsNumStr o, isDigitChar c = true ∨ c = '-' ∨ c = 'N' ∨ c = 'a' := by
  cases o with
  | none =>
      intro c hc
      simp only [jsNumStr, List.mem_cons, List.not_mem_nil, or_false] at hc
      rcases hc with rfl | rfl | rfl
      · exact Or.inr (Or.inr (Or.inl rfl))
      · exact Or.inr (Or.inr (Or.inr rfl))
      · exact Or.inr (Or.inr (Or.inl rfl))
  | some i =>
      intro c hc
      rw [jsNumStr, intPrint] at hc
      by_cases hneg : i < 0
      · rw [if_pos hneg] at hc
        rcases List.mem_cons.mp hc with rfl | h2
        · exact Or.inr (Or.inl rfl)
        · exact Or.inl (natPrint_digits _ c h2)
      · rw [if_neg hneg] at hc
        exact Or.inl (natPrint_digits _ c hc)

theorem encOK_jsNumStr (o : Option Int) : EncOK (⟨jsNumStr o⟩, jsNumStr o) := by
  refine Or.inl ⟨rfl, ?_, ?_⟩ <;> intro hmem <;>
    rcases mem_jsNumStr o _ hmem with h | h | h | h <;>
    exact absurd h (by decide)

theorem encOK_decPrint (q : ℚ) : EncOK (⟨decPrint q⟩, decPrint q) := by
  refine Or.inl ⟨rfl, ?_, ?_⟩ <;> intro hmem <;>
    rcases mem_decPrint q _ hmem with h | h | h <;>
    exact absurd h (by decide)

theorem length_intercalate_ge (ys : List (List Char)) :
    ys.length ≤ (List.intercalate [','] ys).length + 1 := by
  induction ys with
  | nil => simp
  | cons x ys ih =>
      cases ys with
      | nil => simp
      | cons y zs =>
          rw [intercalate_comma_cons x (y :: zs) (by simp)]
          simp only [List.length_cons, List.length_append] at ih ⊢
          omega

theorem comma_mem_intercalate (x y : List Char) (zs : List (List Char)) :
    ',' ∈ List.intercalate [','] (x :: y :: zs) := by
  rw [intercalate_comma_cons x (y :: zs) (by simp)]
  exact List.mem_append_right x (List.mem_cons_self _ _)

theorem isBlank_false_of_comma (s : String) (h : ',' ∈ s.data) :
    isBlank s = false := by
  rw [isBlank, List.all_eq_false]
  exact ⟨',', h, by decide⟩

/-- C1 (amended): `recordToCsvRow` escapes only `output` and
`metadata_json`, so the encode-decode round trip is exact only when the
other string fields are free of the delimiter and the quote character
and the score (when present) is a finite decimal; under those
hypotheses, decoding the encoded row reproduces the record exactly
(including delimiters, quotes and line breaks inside `output` and
`metadata_json`).  The unconditional claim is refuted by
a comma inside `user_id`. -/
theorem csv_roundtrip_escaped_fields (r : StorageRecord)
    (hid : ',' ∉ r.id.data ∧ '"' ∉ r.id.data)
    (hts : ',' ∉ r.timestamp.data ∧ '"' ∉ r.timestamp.data)
    (huid : ',' ∉ r.user_id.data ∧ '"' ∉ r.user_id.data)
    (hmid : ',' ∉ r.model_id.data ∧ '"' ∉ r.model_id.data)
    (hpid : ',' ∉ r.prompt_id.data ∧ '"' ∉ r.prompt_id.data)
    (hoh : ',' ∉ r.output_hash.data ∧ '"' ∉ r.output_hash.data)
    (hsc : ∀ q, r.score = some q → FiniteDecimal q) :
    parseCsvRow (recordToCsvRow r) = some r := by
  rcases hscore : r.score with _ | q
  · -- score = none: legacy 11-field row with a trailing empty field
    set PS : List (String × List Char) :=
      [(r.id, r.id.data), (r.timestamp, r.timestamp.data),
       (r.user_id, r.user_id.data), (r.model_id, r.model_id.data),
       (r.prompt_id, r.prompt_id.data),
       (r.output, (escapeCsvField r.output).data),
       (r.output_hash, r.output_hash.data),
       (r.metadata_json, (escapeCsvField r.metadata_json).data),
       (⟨jsNumStr r.year⟩, jsNumStr r.year),
       (⟨jsNumStr r.month⟩, jsNumStr r.month),
       (⟨jsNumStr r.day⟩, jsNumStr r.day)] with hPS
    have hdata : (recordToCsvRow r).data
        = List.intercalate [','] (List.map Prod.snd PS ++ [[]]) := by
      simp only [recordToCsvRow, joinComma, hscore, hPS]
      rfl
    have hfuel : PS.length
        ≤ (List.intercalate [','] (List.map Prod.snd PS ++ [[]])).length + 1 := by
      have h1 := length_intercalate_ge (List.map Prod.snd PS ++ [[]])
      simp only [List.length_append, List.length_map, List.length_cons,
        List.length_nil] at h1
      omega
    have hok : ∀ p ∈ PS, EncOK p := by
      rw [hPS]
      intro p hp
      simp only [List.mem_cons, List.not_mem_nil, or_false] at hp
      rcases hp with rfl | rfl | rfl | rfl | rfl | rfl | rfl | rfl | rfl | rfl | rfl
      · exact Or.inl ⟨rfl, hid.1, hid.2⟩
      · exact Or.inl ⟨rfl, hts.1, hts.2⟩
      · exact Or.inl ⟨rfl, huid.1, huid.2⟩
      · exact Or.inl ⟨rfl, hmid.1, hmid.2⟩
      · exact Or.inl ⟨rfl, hpid.1, hpid.2⟩
      · exact escapeCsvField_encOK r.output
      · exact Or.inl ⟨rfl, hoh.1, hoh.2⟩
      · exact escapeCsvField_encOK r.metadata_json
      · exact encOK_jsNumStr r.year
      · exact encOK_jsNumStr r.month
      · exact encOK_jsNumStr r.day
    have hparse := parseFields_encoded_trail PS
      ((List.intercalate [','] (List.map Prod.snd PS ++ [[]])).length + 1) hfuel hok
    have hcomma : ',' ∈ (recordToCsvRow r).data := by
      rw [hdata, hPS]
      exact comma_mem_intercalate _ _ _
    have hblank : ¬isBlank (recordToCsvRow r) = true := by
      rw [isBlank_false_of_comma _ hcomma]
      simp
    simp only [parseCsvRow]
    rw [if_neg hblank, hdata, hparse, hPS]
    show some
      ({ id := r.id,
         timestamp := r.timestamp,
         user_id := r.user_id,
         model_id := r.model_id,
         prompt_id := r.prompt_id,
         output := r.output,
         output_hash := r.output_hash,
         metadata_json := r.metadata_json,
         year := jsParseInt (jsNumStr r.year),
         month := jsParseInt (jsNumStr r.month),
         day := jsParseInt (jsNumStr r.day),
         score := none } : StorageRecord) = some r
    rw [jsParseInt_jsNumStr, jsParseInt_jsNumStr, jsParseInt_jsNumStr, ← hscore]
  · -- score = some q: full 12-field row
    have hfd : FiniteDecimal q := hsc q hscore
    set PS : List (String × List Char) :=
      [(r.id, r.id.data), (r.timestamp, r.timestamp.data),
       (r.user_id, r.user_id.data), (r.model_id, r.model_id.data),
       (r.prompt_id, r.prompt_id.data),
       (r.output, (escapeCsvField r.output).data),
       (r.output_hash, r.output_hash.data),
       (r.metadata_json, (escapeCsvField r.metadata_json).data),
       (⟨jsNumStr r.year⟩, jsNumStr r.year),
       (⟨jsNumStr r.month⟩, jsNumStr r.month),
       (⟨jsNumStr r.day⟩, jsNumStr r.day),
       (⟨decPrint q⟩, decPrint q)] with hPS
    have hdata : (recordToCsvRow r).data
        = List.intercalate [','] (List.map Prod.snd PS) := by
      simp only [recordToCsvRow, joinComma, hscore, hPS]
      rfl
    have hfuel : PS.length
        ≤ (List.intercalate [','] (List.map Prod.snd PS)).length + 1 := by
      have h1 := length_intercalate_ge (List.map Prod.snd PS)
      simp only [List.length_map] at h1
      omega
    have hok : ∀ p ∈ PS, EncOK p := by
      rw [hPS]
      intro p hp
      simp only [List.mem_cons, List.not_mem_nil, or_false] at hp
      rcases hp with rfl | rfl | rfl | rfl | rfl | rfl | rfl | rfl | rfl | rfl | rfl | rfl
      · exact Or.inl ⟨rfl, hid.1, hid.2⟩
      · exact Or.inl ⟨rfl, hts.1, hts.2⟩
      · exact Or.inl ⟨rfl, huid.1, huid.2⟩
      · exact Or.inl ⟨rfl, hmid.1, hmid.2⟩
      · exact Or.inl ⟨rfl, hpid.1, hpid.2⟩
      · exact escapeCsvField_encOK r.output
      · exact Or.inl ⟨rfl, hoh.1, hoh.2⟩
      · exact escapeCsvField_encOK r.metadata_json
      · exact encOK_jsNumStr r.year
      · exact encOK_jsNumStr r.month
      · exact encOK_jsNumStr r.day
      · exact encOK_decPrint q
    have hlast : ∀ d, PS.getLast? ≠ some (d, ([] : List Char)) := by
      intro d h
      rw [hPS] at h
      simp only [List.getLast?_cons_cons, List.getLast?_singleton,
        Option.some.injEq, Prod.mk.injEq] at h
      exact decPrint_ne_nil q h.2
    have hparse := parseFields_encoded PS
      ((List.intercalate [','] (List.map Prod.snd PS)).length + 1) hfuel hok hlast
    have hcomma : ',' ∈ (recordToCsvRow r).data := by
      rw [hdata, hPS]
      exact comma_mem_intercalate _ _ _
    have hblank : ¬isBlank (recordToCsvRow r) = true := by
      rw [isBlank_false_of_comma _ hcomma]
      simp
    have hne : (⟨decPrint q⟩ : String) ≠ "" := by
      intro h
      exact decPrint_ne_nil q (congrArg String.data h)
    simp only [parseCsvRow]
    rw [if_neg hblank, hdata, hparse, hPS]
    show some
      ({ id := r.id,
         timestamp := r.timestamp,
         user_id := r.user_id,
         model_id := r.model_id,
         prompt_id := r.prompt_id,
         output := r.output,
         output_hash := r.output_hash,
         metadata_json := r.metadata_json,
         year := jsParseInt (jsNumStr r.year),
         month := jsParseInt (jsNumStr r.month),
         day := jsParseInt (jsNumStr r.day),
         score := if (⟨decPrint q⟩ : String) ≠ "" then jsParseFloat (decPrint q)
           else none } : StorageRecord) = some r
    rw [if_pos hne, jsParseInt_jsNumStr, jsParseInt_jsNumStr, jsParseInt_jsNumStr,
      jsParseFloat_decPrint q hfd, ← hscore]

/-- C1 counterexample: a comma in the unescaped `user_id` field shifts
every later field, so the round trip fails for `commaRec`. -/
theorem csv_roundtrip_counterexample :
    parseCsvRow (recordToCsvRow commaRec) ≠ some commaRec := by decide

/-- C1 witness: the amended round trip at a concrete record whose output
holds a delimiter, quotes and a newline, with score `2`. -/
theorem csv_roundtrip_escaped_fields_witness :
    parseCsvRow (recordToCsvRow roundRec) = some roundRec :=
  csv_roundtrip_escaped_fields roundRec (by decide) (by decide) (by decide)
    (by decide) (by decide) (by decide)
    (fun q h => by
      have h1 : some (2 : ℚ) = some q := h
      rw [← Option.some.inj h1]
      decide)

/-! ## Summary-invariant lemmas and claim C9 -/

theorem sumCounts_nil : sumCounts [] = 0 := rfl

theorem sumCounts_cons (k : String) (v : Nat) (l : List (String × Nat)) :
    sumCounts ((k, v) :: l) = v + sumCounts l := by
  simp [sumCounts]

theorem sumCounts2_cons (k : String) (w : List (String × Nat))
    (l : List (String × List (String × Nat))) :
    sumCounts2 ((k, w) :: l) = sumCounts w + sumCounts2 l := by
  simp [sumCounts2]

theorem sumCounts_setA_bump (dm : List (String × Nat)) (m : String) :
    sumCounts (setA dm m ((lookupA dm m).getD 0 + 1)) = sumCounts dm + 1 := by
  induction dm with
  | nil => rfl
  | cons p rest ih =>
      obtain ⟨k, w⟩ := p
      by_cases hk : k = m
      · subst hk
        rw [show lookupA ((k, w) :: rest) k = some w by rw [lookupA, if_pos rfl]]
        rw [show setA ((k, w) :: rest) k ((some w).getD 0 + 1)
          = (k, w + 1) :: rest by rw [setA, if_pos rfl]; rfl]
        rw [sumCounts_cons, sumCounts_cons]
        omega
      · rw [show lookupA ((k, w) :: rest) m = lookupA rest m by
          rw [lookupA, if_neg hk]]
        rw [show setA ((k, w) :: rest) m ((lookupA rest m).getD 0 + 1)
          = (k, w) :: setA rest m ((lookupA rest m).getD 0 + 1) by
          rw [setA, if_neg hk]]
        rw [sumCounts_cons, sumCounts_cons, ih]
        omega

theorem sumCounts2_modifyA_bump (l : List (String × List (String × Nat)))
    (d m : String) :
    sumCounts2 (modifyA l d []
      (fun dm => setA dm m ((lookupA dm m).getD 0 + 1)))
      = sumCounts2 l + 1 := by
  rw [modifyA]
  induction l with
  | nil =>
      show sumCounts2 [(d, setA [] m ((lookupA [] m).getD 0 + 1))] = 0 + 1
      rw [sumCounts2_cons, sumCounts_setA_bump]
      rfl
  | cons p rest ih =>
      obtain ⟨k, w⟩ := p
      by_cases hk : k = d
      · subst hk
        rw [show lookupA ((k, w) :: rest) k = some w by rw [lookupA, if_pos rfl]]
        rw [show setA ((k, w) :: rest) k
            (setA ((some w).getD []) m ((lookupA ((some w).getD []) m).getD 0 + 1))
          = (k, setA w m ((lookupA w m).getD 0 + 1)) :: rest by
          rw [setA, if_pos rfl]; rfl]
        rw [sumCounts2_cons, sumCounts2_cons, sumCounts_setA_bump]
        omega
      · rw [show lookupA ((k, w) :: rest) d = lookupA rest d by
          rw [lookupA, if_neg hk]]
        rw [show setA ((k, w) :: rest) d
            (setA ((lookupA rest d).getD []) m
              ((lookupA ((lookupA rest d).getD []) m).getD 0 + 1))
          = (k, w) :: setA rest d
            (setA ((lookupA rest d).getD []) m
              ((lookupA ((lookupA rest d).getD []) m).getD 0 + 1)) by
          rw [setA, if_neg hk]]
        rw [sumCounts2_cons, sumCounts2_cons, ih]
        omega

theorem applySummaryRecord_invariant (s : UserSummaryV3) (r : StorageRecord)
    (h : SummaryInvariant s) : SummaryInvariant (applySummaryRecord s r) := by
  have h' : s.total_submissions = sumCounts2 s.submissions_by_date := h
  show (applySummaryRecord s r).total_submissions
    = sumCounts2 (applySummaryRecord s r).submissions_by_date
  show s.total_submissions + 1
    = sumCounts2 (modifyA s.submissions_by_date (dateKey r) []
        (fun dm => setA dm r.model_id ((lookupA dm r.model_id).getD 0 + 1)))
  rw [sumCounts2_modifyA_bump, ← h']

theorem applySummaryRecords_invariant (rs : List StorageRecord)
    (s : UserSummaryV3) (h : SummaryInvariant s) :
    SummaryInvariant (applySummaryRecords s rs) := by
  induction rs generalizing s with
  | nil => exact h
  | cons r rest ih =>
      show SummaryInvariant (applySummaryRecords (applySummaryRecord s r) rest)
      exact ih _ (applySummaryRecord_invariant s r h)

theorem setA_not_mem {α : Type} (l : List (String × α)) (k : String) (v : α)
    (h : k ∉ l.map Prod.fst) : setA l k v = l ++ [(k, v)] := by
  induction l with
  | nil => rfl
  | cons p rest ih =>
      obtain ⟨a, b⟩ := p
      simp only [List.map_cons, List.mem_cons, not_or] at h
      rw [setA, if_neg (fun hk : a = k => h.1 hk.symm), ih h.2]
      rfl

theorem inner_fold_fst (ms : List (String × Nat)) :
    ∀ (a b : List (String × Nat)),
      (ms.foldl
        (fun (p : List (String × Nat) × List (String × Nat)) mv =>
          (setA p.1 mv.1 mv.2, setA p.2 mv.1 ((lookupA p.2 mv.1).getD 0 + mv.2)))
        (a, b)).1
      = ms.foldl (fun x mv => setA x mv.1 mv.2) a := by
  induction ms with
  | nil => intro a b; rfl
  | cons mv rest ih => intro a b; exact ih _ _

theorem inner_fold_snd (ms : List (String × Nat)) :
    ∀ (a b : List (String × Nat)),
      (ms.foldl
        (fun (p : List (String × Nat) × List (String × Nat)) mv =>
          (setA p.1 mv.1 mv.2, setA p.2 mv.1 ((lookupA p.2 mv.1).getD 0 + mv.2)))
        (a, b)).2
      = ms.foldl (fun y mv => setA y mv.1 ((lookupA y mv.1).getD 0 + mv.2)) b := by
  induction ms with
  | nil => intro a b; rfl
  | cons mv rest ih => intro a b; exact ih _ _

theorem foldl_pair_fst {α β γ : Type} (f : α → γ → α) (g : β → γ → β)
    (l : List γ) :
    ∀ (a : α) (b : β),
      (l.foldl (fun p c => (f p.1 c, g p.2 c)) (a, b)).1 = l.foldl f a := by
  induction l with
  | nil => intro a b; rfl
  | cons c rest ih => intro a b; exact ih (f a c) (g b c)

/-- The outer loop body of `migrateFromCounts`, with the per-date inner
pair-fold split into its two independent components. -/
theorem outer_step_eq :
    (fun (acc : List (String × List (String × Nat)) × List (String × Nat))
        (dm : String × List (String × Nat)) =>
      let inner := dm.2.foldl
        (fun (p : List (String × Nat) × List (String × Nat)) mv =>
          (setA p.1 mv.1 mv.2, setA p.2 mv.1 ((lookupA p.2 mv.1).getD 0 + mv.2)))
        ([], acc.2)
      (setA acc.1 dm.1 inner.1, inner.2))
    = fun (acc : List (String × List (String × Nat)) × List (String × Nat))
        (dm : String × List (String × Nat)) =>
        (setA acc.1 dm.1 (dm.2.foldl (fun y mv => setA y mv.1 mv.2) []),
         dm.2.foldl (fun z mv => setA z mv.1 ((lookupA z mv.1).getD 0 + mv.2)) acc.2) := by
  funext acc dm
  show (setA acc.1 dm.1
      (dm.2.foldl
        (fun (p : List (String × Nat) × List (String × Nat)) mv =>
          (setA p.1 mv.1 mv.2, setA p.2 mv.1 ((lookupA p.2 mv.1).getD 0 + mv.2)))
        ([], acc.2)).1,
    (dm.2.foldl
        (fun (p : List (String × Nat) × List (String × Nat)) mv =>
          (setA p.1 mv.1 mv.2, setA p.2 mv.1 ((lookupA p.2 mv.1).getD 0 + mv.2)))
        ([], acc.2)).2) = _
  rw [inner_fold_fst dm.2 [] acc.2, inner_fold_snd dm.2 [] acc.2]

theorem sumCounts_setFold (ms : List (String × Nat)) :
    ∀ (init : List (String × Nat)),
      (ms.map Prod.fst).Nodup →
      (∀ mv ∈ ms, mv.1 ∉ init.map Prod.fst) →
      sumCounts (ms.foldl (fun x mv => setA x mv.1 mv.2) init)
        = sumCounts init + sumCounts ms := by
  induction ms with
  | nil => intro init _ _; rfl
  | cons mv rest ih =>
      intro init hnd hmem
      obtain ⟨m, v⟩ := mv
      simp only [List.map_cons, List.nodup_cons] at hnd
      show sumCounts (rest.foldl _ (setA init m v)) = _
      rw [setA_not_mem init m v (hmem (m, v) (List.mem_cons_self _ _))]
      rw [ih (init ++ [(m, v)]) hnd.2 ?hmem2]
      case hmem2 =>
        intro mv2 hmv2
        simp only [List.map_append, List.mem_append, List.map_cons,
          List.map_nil, List.mem_singleton, not_or]
        refine ⟨hmem mv2 (List.mem_cons_of_mem _ hmv2), ?_⟩
        intro heq
        exact hnd.1 (heq ▸ (List.mem_map_of_mem Prod.fst hmv2))
      rw [sumCounts_cons]
      have happ : sumCounts (init ++ [(m, v)]) = sumCounts init + v := by
        simp [sumCounts]
      omega

theorem sumCounts2_setAFold (source : List (String × List (String × Nat))) :
    ∀ (acc : List (String × List (String × Nat))),
      (source.map Prod.fst).Nodup →
      (∀ dm ∈ source, dm.1 ∉ acc.map Prod.fst) →
      sumCounts2 (source.foldl
        (fun x dm => setA x dm.1 (dm.2.foldl (fun y mv => setA y mv.1 mv.2) [])) acc)
      = sumCounts2 acc
        + (source.map
            fun dm => sumCounts (dm.2.foldl (fun y mv => setA y mv.1 mv.2) [])).sum := by
  induction source with
  | nil => intro acc _ _; simp
  | cons dm rest ih =>
      intro acc hnd hmem
      simp only [List.map_cons, List.nodup_cons] at hnd
      show sumCounts2 (rest.foldl _
        (setA acc dm.1 (dm.2.foldl (fun y mv => setA y mv.1 mv.2) []))) = _
      rw [setA_not_mem acc dm.1 _ (hmem dm (List.mem_cons_self _ _))]
      rw [ih (acc ++ [(dm.1, dm.2.foldl (fun y mv => setA y mv.1 mv.2) [])]) hnd.2 ?hmem2]
      case hmem2 =>
        intro dm2 hdm2
        simp only [List.map_append, List.mem_append, List.map_cons,
          List.map_nil, List.mem_singleton, not_or]
        refine ⟨hmem dm2 (List.mem_cons_of_mem _ hdm2), ?_⟩
        intro heq
        exact hnd.1 (heq ▸ (List.mem_map_of_mem Prod.fst hdm2))
      have happ : sumCounts2 (acc ++ [(dm.1, dm.2.foldl (fun y mv => setA y mv.1 mv.2) [])])
          = sumCounts2 acc + sumCounts (dm.2.foldl (fun y mv => setA y mv.1 mv.2) []) := by
        simp [sumCounts2]
      rw [happ]
      simp only [List.map_cons, List.sum_cons]
      omega

theorem migrateFromCounts_invariant (source : List (String × List (String × Nat)))
    (hnd : NodupKeys2 source) :
    SummaryInvariant (migrateFromCounts source (sumCounts2 source)) := by
  show (migrateFromCounts source (sumCounts2 source)).total_submissions
    = sumCounts2 (migrateFromCounts source (sumCounts2 source)).submissions_by_date
  show sumCounts2 source
    = sumCounts2 (source.foldl
        (fun (acc : List (String × List (String × Nat)) × List (String × Nat)) dm =>
          let inner := dm.2.foldl
            (fun (p : List (String × Nat) × List (String × Nat)) mv =>
              (setA p.1 mv.1 mv.2, setA p.2 mv.1 ((lookupA p.2 mv.1).getD 0 + mv.2)))
            ([], acc.2)
          (setA acc.1 dm.1 inner.1, inner.2))
        ([], [])).1
  rw [outer_step_eq]
  rw [foldl_pair_fst
    (fun x (dm0 : String × List (String × Nat)) =>
      setA x dm0.1 (dm0.2.foldl (fun y mv => setA y mv.1 mv.2) []))
    (fun y (dm0 : String × List (String × Nat)) =>
      dm0.2.foldl (fun z mv => setA z mv.1 ((lookupA z mv.1).getD 0 + mv.2)) y)
    source [] []]
  rw [sumCounts2_setAFold source [] hnd.1 (by intro dm _; simp)]
  have hinner : ∀ dm ∈ source,
      sumCounts (dm.2.foldl (fun y mv => setA y mv.1 mv.2) []) = sumCounts dm.2 := by
    intro dm hdm
    rw [sumCounts_setFold dm.2 [] (hnd.2 dm hdm) (by intro mv _; simp)]
    rw [sumCounts_nil, Nat.zero_add]
  rw [show (source.map
      fun dm => sumCounts (dm.2.foldl (fun y mv => setA y mv.1 mv.2) [])).sum
    = (source.map fun dm => sumCounts dm.2).sum from
    congrArg List.sum (List.map_congr_left hinner)]
  show sumCounts2 source = 0 + (source.map fun dm => sumCounts dm.2).sum
  rw [Nat.zero_add]
  rfl

/-- C9: the counts invariant (`total_submissions` equals the sum over all
dates and models of the per-date submission counts) is preserved both by
the legacy migration (from the v1 `date_counts` shape and the v2 Welford
`date_stats` shape alike) and by `updateUserSummary` applying any batch
of records to any well-formed stored document. -/
theorem summary_invariant_preserved
    (doc : Option ((UserSummaryV1 ⊕ UserSummaryV2) ⊕ UserSummaryV3))
    (records : List StorageRecord) (legacy : UserSummaryV1 ⊕ UserSummaryV2)
    (hdoc : DocInvariant doc) (hleg : DocInvariant (some (.inl legacy))) :
    SummaryInvariant (migrateSummary legacy) ∧
    SummaryInvariant (updateUserSummaryPure doc records) := by
  have hmig : ∀ (l : UserSummaryV1 ⊕ UserSummaryV2),
      DocInvariant (some (.inl l)) → SummaryInvariant (migrateSummary l) := by
    intro l hl
    cases l with
    | inl v1 =>
        obtain ⟨hinv, hnd⟩ := hl
        rw [migrateSummary]
        rw [show v1.total_submissions = sumCounts2 v1.date_counts from hinv]
        exact migrateFromCounts_invariant v1.date_counts hnd
    | inr v2 =>
        obtain ⟨hinv, hnd⟩ := hl
        rw [migrateSummary]
        rw [show v2.total_submissions
          = sumCounts2 (v2.date_stats.map
              fun p => (p.1, p.2.map fun q => (q.1, q.2.count)))
          from hinv]
        apply migrateFromCounts_invariant
        constructor
        · rw [show (v2.date_stats.map
              fun p => (p.1, p.2.map fun q => (q.1, q.2.count))).map Prod.fst
            = v2.date_stats.map Prod.fst from by
            rw [List.map_map]
            rfl]
          exact hnd.1
        · intro p hp
          rcases List.mem_map.mp hp with ⟨p0, hp0, rfl⟩
          show ((p0.2.map fun q => (q.1, q.2.count)).map Prod.fst).Nodup
          rw [show (p0.2.map fun q => (q.1, q.2.count)).map Prod.fst
            = p0.2.map Prod.fst from by
            rw [List.map_map]
            rfl]
          exact hnd.2 p0 hp0
  refine ⟨hmig legacy hleg, ?_⟩
  rw [updateUserSummaryPure.eq_def]
  by_cases hre : records.isEmpty
  · rw [if_pos hre]
    rfl
  · rw [if_neg hre]
    apply applySummaryRecords_invariant
    cases doc with
    | none => rfl
    | some d =>
        cases d with
        | inl l => exact hmig l hdoc
        | inr v3 => exact hdoc

/-- C9 witness: a v2 legacy document migrates to an invariant-satisfying
summary, and an update applying one record to a stored v1 document
preserves the invariant. -/
theorem summary_invariant_preserved_witness :
    SummaryInvariant (migrateSummary
      (.inr ⟨[("2026-01-02", [("m1", ⟨2, 1, 0, 2⟩)])], [("m1", ⟨2, 1, 0, 2⟩)], 2, 1⟩)) ∧
    SummaryInvariant (updateUserSummaryPure
      (some (.inl (.inl ⟨[("2026-01-01", [("m1", 2), ("m2", 1)])], 3⟩)))
      [sampleRec]) :=
  summary_invariant_preserved
    (some (.inl (.inl ⟨[("2026-01-01", [("m1", 2), ("m2", 1)])], 3⟩)))
    [sampleRec]
    (.inr ⟨[("2026-01-02", [("m1", ⟨2, 1, 0, 2⟩)])], [("m1", ⟨2, 1, 0, 2⟩)], 2, 1⟩)
    (by decide) (by decide)

/-! ## Rebuild input-completeness lemmas and claim C4 -/

theorem sumBy_nil {α : Type} (f : α → Nat) : sumBy f ([] : List (String × α)) = 0 := rfl

theorem sumBy_cons {α : Type} (f : α → Nat) (k : String) (v : α) (l : List (String × α)) :
    sumBy f ((k, v) :: l) = f v + sumBy f l := by
  simp [sumBy]

theorem sumBy_setA_bump {α : Type} (f : α → Nat) (l : List (String × α))
    (d : String) (dflt : α) (g : α → α)
    (hg : ∀ x, f (g x) = f x + 1) (hdflt : f dflt = 0) :
    sumBy f (setA l d (g ((lookupA l d).getD dflt))) = sumBy f l + 1 := by
  induction l with
  | nil =>
      show sumBy f [(d, g dflt)] = sumBy f [] + 1
      rw [sumBy_cons, hg, hdflt, sumBy_nil]
  | cons p rest ih =>
      obtain ⟨k, w⟩ := p
      by_cases hk : k = d
      · subst hk
        rw [show lookupA ((k, w) :: rest) k = some w by rw [lookupA, if_pos rfl]]
        rw [show setA ((k, w) :: rest) k (g ((some w).getD dflt))
          = (k, g w) :: rest by rw [setA, if_pos rfl]; rfl]
        rw [sumBy_cons, sumBy_cons, hg]
        omega
      · rw [show lookupA ((k, w) :: rest) d = lookupA rest d by
          rw [lookupA, if_neg hk]]
        rw [show setA ((k, w) :: rest) d (g ((lookupA rest d).getD dflt))
          = (k, w) :: setA rest d (g ((lookupA rest d).getD dflt)) by
          rw [setA, if_neg hk]]
        rw [sumBy_cons, sumBy_cons, ih]
        omega

/-- One grouping step adds exactly one record to the nested groups. -/
theorem groupStep_bump (acc : List (String × List (String × List StorageRecord)))
    (r : StorageRecord) :
    sumBy (sumBy List.length)
      (modifyA acc (dateKey r) []
        (fun dm => modifyA dm r.model_id [] (fun l => l ++ [r])))
      = sumBy (sumBy List.length) acc + 1 := by
  rw [modifyA]
  refine sumBy_setA_bump (sumBy List.length) acc (dateKey r) []
    (fun dm => modifyA dm r.model_id [] (fun l => l ++ [r])) ?_ rfl
  intro dm
  exact sumBy_setA_bump List.length dm r.model_id [] (fun l => l ++ [r])
    (fun l => by simp) rfl

theorem groupRecs_total (rs : List StorageRecord) :
    sumBy (sumBy List.length) (groupRecs rs) = rs.length := by
  rw [groupRecs]
  have h : ∀ (acc : List (String × List (String × List StorageRecord))),
      sumBy (sumBy List.length)
        (rs.foldl
          (fun acc r =>
            modifyA acc (dateKey r) []
              (fun dm => modifyA dm r.model_id [] (fun l => l ++ [r])))
          acc)
      = sumBy (sumBy List.length) acc + rs.length := by
    induction rs with
    | nil => intro acc; rfl
    | cons r rest ih =>
        intro acc
        rw [List.foldl_cons, ih, groupStep_bump]
        simp only [List.length_cons]
        omega
  rw [h [], sumBy_nil, Nat.zero_add]

theorem setA_keys_nodup {α : Type} (l : List (String × α)) (k : String) (v : α)
    (h : (l.map Prod.fst).Nodup) : ((setA l k v).map Prod.fst).Nodup := by
  rw [setA_keys]
  by_cases hm : k ∈ l.map Prod.fst
  · rw [if_pos hm]; exact h
  · rw [if_neg hm]
    rw [List.nodup_append]
    exact ⟨h, List.nodup_singleton k, by simpa using hm⟩

theorem groupRecs_keys_nodup (rs : List StorageRecord) :
    ((groupRecs rs).map Prod.fst).Nodup := by
  rw [groupRecs]
  have h : ∀ (acc : List (String × List (String × List StorageRecord))),
      (acc.map Prod.fst).Nodup →
      ((rs.foldl
          (fun acc r =>
            modifyA acc (dateKey r) []
              (fun dm => modifyA dm r.model_id [] (fun l => l ++ [r])))
          acc).map Prod.fst).Nodup := by
    induction rs with
    | nil => intro acc hacc; exact hacc
    | cons r rest ih =>
        intro acc hacc
        rw [List.foldl_cons]
        exact ih _ (setA_keys_nodup _ _ _ hacc)
  exact h [] (by simp)

theorem runModels_total (dm : List (String × List StorageRecord)) :
    ∀ (st : List (String × String)),
      (runModels st dm).2.2 = sumBy List.length dm := by
  induction dm with
  | nil => intro st; rfl
  | cons p rest ih =>
      intro st
      obtain ⟨m, recs⟩ := p
      rw [runModels]
      show recs.length + (runModels (processGroup st m recs).2 rest).2.2
        = sumBy List.length ((m, recs) :: rest)
      rw [ih, sumBy_cons]

theorem runDates_total (grouped : List (String × List (String × List StorageRecord)))
    (ds : List String) :
    ∀ (st : List (String × String)),
      (runDates grouped st ds).2.2
        = (ds.map fun d => sumBy List.length ((lookupA grouped d).getD [])).sum := by
  induction ds with
  | nil => intro st; rfl
  | cons d rest ih =>
      intro st
      rw [runDates]
      show (runModels st ((lookupA grouped d).getD [])).2.2
          + (runDates grouped (runModels st ((lookupA grouped d).getD [])).2.1 rest).2.2
        = _
      rw [runModels_total, ih, List.map_cons, List.sum_cons]

theorem sum_over_keys {α : Type} (f : α → Nat) (l : List (String × α)) (dflt : α)
    (hnd : (l.map Prod.fst).Nodup) (hdflt : f dflt = 0) :
    ((l.map Prod.fst).map fun d => f ((lookupA l d).getD dflt)).sum = sumBy f l := by
  induction l with
  | nil => rfl
  | cons p rest ih =>
      obtain ⟨k, v⟩ := p
      simp only [List.map_cons, List.nodup_cons] at hnd
      rw [List.map_cons, List.map_cons, List.sum_cons, sumBy_cons]
      rw [show lookupA ((k, v) :: rest) k = some v by rw [lookupA, if_pos rfl]]
      have hmap : (rest.map Prod.fst).map (fun d => f ((lookupA ((k, v) :: rest) d).getD dflt))
          = (rest.map Prod.fst).map (fun d => f ((lookupA rest d).getD dflt)) := by
        apply List.map_congr_left
        intro d hd
        rw [show lookupA ((k, v) :: rest) d = lookupA rest d by
          rw [lookupA, if_neg (fun hk : k = d => hnd.1 (hk ▸ hd))]]
      rw [hmap, ih hnd.2]
      rfl

theorem perm_sum_lookup {α : Type} (f : α → Nat) (l : List (String × α)) (dflt : α)
    (ds : List String) (hperm : List.Perm ds (l.map Prod.fst))
    (hnd : (l.map Prod.fst).Nodup) (hdflt : f dflt = 0) :
    (ds.map fun d => f ((lookupA l d).getD dflt)).sum = sumBy f l := by
  rw [List.Perm.sum_eq (List.Perm.map _ hperm)]
  exact sum_over_keys f l dflt hnd hdflt

theorem rebuildData_total (rs : List StorageRecord) :
    (rebuildData rs).2 = rs.length := by
  rw [rebuildData]
  show (runDates (groupRecs (sortRecs rs)) []
      (((groupRecs (sortRecs rs)).map (·.1)).insertionSort strLe)).2.2 = rs.length
  rw [runDates_total]
  rw [perm_sum_lookup (sumBy List.length) (groupRecs (sortRecs rs)) []
    _ (List.perm_insertionSort strLe _) (groupRecs_keys_nodup _) rfl]
  rw [groupRecs_total]
  show (sortRecs rs).length = rs.length
  exact List.Perm.length_eq (List.perm_insertionSort dateLe rs)

theorem mem_foldl_models_mono (rs : List StorageRecord) :
    ∀ (acc : List String) (m : String), m ∈ acc →
      m ∈ rs.foldl (fun acc r => if r.model_id ∈ acc then acc else acc ++ [r.model_id]) acc := by
  induction rs with
  | nil => intro acc m hm; exact hm
  | cons r rest ih =>
      intro acc m hm
      rw [List.foldl_cons]
      apply ih
      by_cases h : r.model_id ∈ acc
      · rw [if_pos h]; exact hm
      · rw [if_neg h]; exact List.mem_append_left _ hm

theorem mem_foldl_models (rs : List StorageRecord) :
    ∀ (acc : List String) (s : StorageRecord), s ∈ rs →
      s.model_id ∈ rs.foldl
        (fun acc r => if r.model_id ∈ acc then acc else acc ++ [r.model_id]) acc := by
  induction rs with
  | nil => intro acc s hs; exact absurd hs (List.not_mem_nil s)
  | cons r0 rest ih =>
      intro acc s hs
      rw [List.foldl_cons]
      rcases List.mem_cons.mp hs with rfl | hs2
      · apply mem_foldl_models_mono
        by_cases h : s.model_id ∈ acc
        · rw [if_pos h]; exact h
        · rw [if_neg h]; exact List.mem_append_right _ (List.mem_singleton.mpr rfl)
      · exact ih _ s hs2

theorem mem_modelSetOf (rs : List StorageRecord) (r : StorageRecord) (hr : r ∈ rs) :
    r.model_id ∈ modelSetOf rs :=
  mem_foldl_models rs [] r hr

/-- C4: the rebuild reads every archive partition plus the current
buffer, and is a deterministic pure function of those contents. -/
theorem rebuildChart_complete_deterministic
    (archives archives' : List (String × String)) (buffer buffer' : Option String)
    (users users' : List String)
    (harch : archives = archives') (hbuf : buffer = buffer') (husers : users = users') :
    rebuildChart archives buffer users = rebuildChart archives' buffer' users' ∧
    (rebuildChart archives buffer users).total_submissions
      = (allInputRecords archives buffer).length ∧
    ∀ r ∈ allInputRecords archives buffer,
      r.model_id ∈ (rebuildChart archives buffer users).models := by
  subst harch hbuf husers
  refine ⟨rfl, ?_, ?_⟩
  · show (rebuildData (allInputRecords archives buffer)).2 = _
    exact rebuildData_total _
  · intro r hr
    show r.model_id ∈ (modelSetOf (sortRecs (allInputRecords archives buffer))).insertionSort strLe
    have hperm := List.perm_insertionSort strLe
      (modelSetOf (sortRecs (allInputRecords archives buffer)))
    apply (List.Perm.mem_iff hperm).mpr
    apply mem_modelSetOf
    exact (List.Perm.mem_iff (List.perm_insertionSort dateLe _)).mpr hr

/-- C4 witness: the rebuild of `sampleStorage`'s contents counts both the
archived row and the buffered row and lists their model. -/
theorem rebuildChart_complete_deterministic_witness :
    rebuildChart sampleStorage.archives sampleStorage.buffer sampleStorage.users
      = rebuildChart sampleStorage.archives sampleStorage.buffer sampleStorage.users ∧
    (rebuildChart sampleStorage.archives sampleStorage.buffer
        sampleStorage.users).total_submissions
      = (allInputRecords sampleStorage.archives sampleStorage.buffer).length ∧
    ∀ r ∈ allInputRecords sampleStorage.archives sampleStorage.buffer,
      r.model_id ∈ (rebuildChart sampleStorage.archives sampleStorage.buffer
        sampleStorage.users).models :=
  rebuildChart_complete_deterministic sampleStorage.archives sampleStorage.archives
    sampleStorage.buffer sampleStorage.buffer sampleStorage.users sampleStorage.users
    rfl rfl rfl

/-! ## Code-unit string order lemmas -/

theorem char_lt_trichotomy (a b : Char) : a < b ∨ b < a ∨ a = b := by
  rcases lt_trichotomy a b with h | h | h
  · exact Or.inl h
  · exact Or.inr (Or.inr h)
  · exact Or.inr (Or.inl h)

theorem strLtB_irrefl (a : List Char) : strLtB a a = false := by
  induction a with
  | nil => rfl
  | cons c rest ih =>
      rw [strLtB, if_neg (lt_irrefl c), if_neg (lt_irrefl c), ih]

theorem strLtB_asymm (a b : List Char) (h : strLtB a b = true) :
    strLtB b a = false := by
  induction a generalizing b with
  | nil =>
      cases b with
      | nil => exact absurd h (by decide)
      | cons c bs => rfl
  | cons c as ih =>
      cases b with
      | nil => exact Bool.noConfusion h
      | cons d bs =>
          rw [strLtB] at h ⊢
          by_cases hcd : c < d
          · rw [if_neg (asymm hcd), if_pos hcd]
          · rw [if_neg hcd] at h
            by_cases hdc : d < c
            · rw [if_pos hdc] at h
              exact absurd h (by decide)
            · rw [if_neg hdc] at h
              rw [if_neg hdc, if_neg hcd]
              exact ih bs h

theorem strLtB_trans (a b c : List Char) (h1 : strLtB a b = true)
    (h2 : strLtB b c = true) : strLtB a c = true := by
  induction a generalizing b c with
  | nil =>
      cases c with
      | nil =>
          cases b with
          | nil => exact Bool.noConfusion h1
          | cons d bs => exact Bool.noConfusion h2
      | cons e cs => rfl
  | cons x as ih =>
      cases b with
      | nil => exact Bool.noConfusion h1
      | cons y bs =>
          cases c with
          | nil => exact Bool.noConfusion h2
          | cons z cs =>
              rw [strLtB] at h1 h2 ⊢
              by_cases hxy : x < y
              · by_cases hyz : y < z
                · rw [if_pos (lt_trans hxy hyz)]
                · rw [if_neg hyz] at h2
                  by_cases hzy : z < y
                  · rw [if_pos hzy] at h2
                    exact absurd h2 (by decide)
                  · have hy : y = z := by
                      rcases char_lt_trichotomy y z with h | h | h
                      · exact absurd h hyz
                      · exact absurd h hzy
                      · exact h
                    rw [if_pos (hy ▸ hxy)]
              · rw [if_neg hxy] at h1
                by_cases hyx : y < x
                · rw [if_pos hyx] at h1
                  exact absurd h1 (by decide)
                · rw [if_neg hyx] at h1
                  have hx : x = y := by
                    rcases char_lt_trichotomy x y with h | h | h
                    · exact absurd h hxy
                    · exact absurd h hyx
                    · exact h
                  subst hx
                  by_cases hyz : x < z
                  · rw [if_pos hyz]
                  · rw [if_neg hyz] at h2 ⊢
                    by_cases hzy : z < x
                    · rw [if_pos hzy] at h2
                      exact absurd h2 (by decide)
                    · rw [if_neg hzy] at h2 ⊢
                      exact ih bs cs h1 h2

theorem strLtB_total (a b : List Char) :
    strLtB a b = true ∨ strLtB b a = true ∨ a = b := by
  induction a generalizing b with
  | nil =>
      cases b with
      | nil => exact Or.inr (Or.inr rfl)
      | cons d bs => exact Or.inl rfl
  | cons c as ih =>
      cases b with
      | nil => exact Or.inr (Or.inl rfl)
      | cons d bs =>
          rcases char_lt_trichotomy c d with h | h | h
          · refine Or.inl ?_
            rw [strLtB, if_pos h]
          · refine Or.inr (Or.inl ?_)
            rw [strLtB, if_pos h]
          · subst h
            rcases ih bs with h2 | h2 | h2
            · refine Or.inl ?_
              rw [strLtB, if_neg (lt_irrefl c), if_neg (lt_irrefl c)]
              exact h2
            · refine Or.inr (Or.inl ?_)
              rw [strLtB, if_neg (lt_irrefl c), if_neg (lt_irrefl c)]
              exact h2
            · exact Or.inr (Or.inr (by rw [h2]))

instance : IsTotal String strLe := by
  constructor
  intro x y
  rcases strLtB_total x.data y.data with h | h | h
  · exact Or.inl (show strLtB y.data x.data = false from strLtB_asymm _ _ h)
  · exact Or.inr (show strLtB x.data y.data = false from strLtB_asymm _ _ h)
  · refine Or.inl (show strLtB y.data x.data = false from ?_)
    rw [h]
    exact strLtB_irrefl _

instance : IsTrans String strLe := by
  constructor
  intro x y z h1 h2
  show strLtB z.data x.data = false
  have h1' : strLtB y.data x.data = false := h1
  have h2' : strLtB z.data y.data = false := h2
  by_contra hzx
  rw [Bool.not_eq_false] at hzx
  rcases strLtB_total x.data y.data with h | h | h
  · rcases strLtB_total y.data z.data with g | g | g
    · exact absurd (strLtB_asymm _ _ (strLtB_trans _ _ _ hzx h)) (by rw [g]; simp)
    · exact absurd g (by rw [h2']; simp)
    · rw [← g] at hzx
      exact absurd hzx (by rw [h1']; simp)
  · exact absurd h (by rw [h1']; simp)
  · rw [h] at hzx
    exact absurd hzx (by rw [h2']; simp)

theorem strLe_antisymm (x y : String) (h1 : strLe x y) (h2 : strLe y x) : x = y := by
  have h1' : strLtB y.data x.data = false := h1
  have h2' : strLtB x.data y.data = false := h2
  rcases strLtB_total x.data y.data with h | h | h
  · exact absurd h (by rw [h2']; simp)
  · exact absurd h (by rw [h1']; simp)
  · cases x; cases y
    simp only at h
    rw [h]

theorem strLt_iff_le_ne (x y : String) :
    strLtB x.data y.data = true ↔ strLe x y ∧ x ≠ y := by
  constructor
  · intro h
    refine ⟨show strLtB y.data x.data = false from strLtB_asymm _ _ h, ?_⟩
    intro he
    rw [he] at h
    exact absurd h (by rw [strLtB_irrefl]; simp)
  · intro ⟨h1, h2⟩
    have h1' : strLtB y.data x.data = false := h1
    rcases strLtB_total x.data y.data with h | h | h
    · exact h
    · exact absurd h (by rw [h1']; simp)
    · exfalso
      apply h2
      cases x; cases y
      simp only at h
      rw [h]

/-! ## Grouping lemmas for the drift rebuild -/

theorem lookupA_of_mem_nodup {α : Type} (l : List (String × α)) (k : String) (v : α)
    (hmem : (k, v) ∈ l) (hnd : (l.map Prod.fst).Nodup) : lookupA l k = some v := by
  induction l with
  | nil => exact absurd hmem (List.not_mem_nil _)
  | cons p rest ih =>
      obtain ⟨a, b⟩ := p
      simp only [List.map_cons, List.nodup_cons] at hnd
      rcases List.mem_cons.mp hmem with heq | hmem2
      · obtain ⟨rfl, rfl⟩ := Prod.mk.injEq .. ▸ heq
        rw [lookupA, if_pos rfl]
      · rw [lookupA]
        by_cases hak : a = k
        · subst hak
          exact absurd (List.mem_map_of_mem Prod.fst hmem2) hnd.1
        · rw [if_neg hak]
          exact ih hmem2 hnd.2

theorem groupRecs_lookup2 (S : List StorageRecord) (d m : String) :
    (lookupA ((lookupA (groupRecs S) d).getD []) m).getD []
      = S.filter fun r => decide (dateKey r = d ∧ r.model_id = m) := by
  rw [groupRecs]
  have h : ∀ (acc : List (String × List (String × List StorageRecord))),
      (lookupA ((lookupA (S.foldl
          (fun acc r =>
            modifyA acc (dateKey r) []
              (fun dm => modifyA dm r.model_id [] (fun l => l ++ [r])))
          acc) d).getD []) m).getD []
      = (lookupA ((lookupA acc d).getD []) m).getD []
        ++ S.filter fun r => decide (dateKey r = d ∧ r.model_id = m) := by
    induction S with
    | nil => intro acc; simp
    | cons r rest ih =>
        intro acc
        rw [List.foldl_cons, ih, List.filter_cons]
        by_cases hd : dateKey r = d
        · have houter : (lookupA (modifyA acc (dateKey r) []
              (fun dm => modifyA dm r.model_id [] (fun l => l ++ [r]))) d).getD []
              = modifyA ((lookupA acc d).getD []) r.model_id [] (fun l => l ++ [r]) := by
            rw [modifyA, lookupA_setA, if_pos hd, hd]
            rfl
          rw [houter]
          by_cases hm : r.model_id = m
          · have hinner : (lookupA (modifyA ((lookupA acc d).getD []) r.model_id []
                (fun l => l ++ [r])) m).getD []
                = (lookupA ((lookupA acc d).getD []) m).getD [] ++ [r] := by
              rw [modifyA, lookupA_setA, if_pos hm, hm]
              rfl
            rw [hinner]
            rw [if_pos (by rw [hd, hm]; exact decide_eq_true ⟨rfl, rfl⟩)]
            simp
          · have hinner : (lookupA (modifyA ((lookupA acc d).getD []) r.model_id []
                (fun l => l ++ [r])) m).getD []
                = (lookupA ((lookupA acc d).getD []) m).getD [] := by
              rw [modifyA, lookupA_setA, if_neg hm]
            rw [hinner]
            rw [if_neg (by simp [hm])]
        · have houter : (lookupA (modifyA acc (dateKey r) []
              (fun dm => modifyA dm r.model_id [] (fun l => l ++ [r]))) d).getD []
              = (lookupA acc d).getD [] := by
            rw [modifyA, lookupA_setA, if_neg hd]
          rw [houter]
          rw [if_neg (by simp [hd])]
  rw [h []]
  rfl

theorem groupRecs_mem_keys (S : List StorageRecord) (d : String) :
    d ∈ (groupRecs S).map Prod.fst ↔ d ∈ S.map dateKey := by
  rw [groupRecs]
  have h : ∀ (acc : List (String × List (String × List StorageRecord))),
      (d ∈ (S.foldl
          (fun acc r =>
            modifyA acc (dateKey r) []
              (fun dm => modifyA dm r.model_id [] (fun l => l ++ [r])))
          acc).map Prod.fst)
      ↔ (d ∈ acc.map Prod.fst ∨ d ∈ S.map dateKey) := by
    induction S with
    | nil => intro acc; simp
    | cons r rest ih =>
        intro acc
        rw [List.foldl_cons, ih]
        rw [modifyA, setA_keys]
        constructor
        · intro hc
          rcases hc with hc | hc
          · by_cases hmem : dateKey r ∈ acc.map Prod.fst
            · rw [if_pos hmem] at hc
              exact Or.inl hc
            · rw [if_neg hmem] at hc
              rcases List.mem_append.mp hc with hc2 | hc2
              · exact Or.inl hc2
              · rcases List.mem_singleton.mp hc2 with rfl
                exact Or.inr (List.mem_cons_self _ _ |> List.mem_map_of_mem dateKey)
          · exact Or.inr (by simp [List.mem_map] at hc ⊢; tauto)
        · intro hc
          rcases hc with hc | hc
          · refine Or.inl ?_
            by_cases hmem : dateKey r ∈ acc.map Prod.fst
            · rw [if_pos hmem]; exact hc
            · rw [if_neg hmem]; exact List.mem_append_left _ hc
          · rw [List.map_cons] at hc
            rcases List.mem_cons.mp hc with rfl | hc2
            · refine Or.inl ?_
              by_cases hmem : dateKey r ∈ acc.map Prod.fst
              · rw [if_pos hmem]; exact hmem
              · rw [if_neg hmem]
                exact List.mem_append_right _ (List.mem_singleton.mpr rfl)
            · exact Or.inr hc2
  rw [h []]
  simp

theorem groupRecs_inner_nodup (S : List StorageRecord) (d : String) :
    (((lookupA (groupRecs S) d).getD []).map Prod.fst).Nodup := by
  rw [groupRecs]
  have h : ∀ (acc : List (String × List (String × List StorageRecord))),
      (∀ d', (((lookupA acc d').getD []).map Prod.fst).Nodup) →
      ∀ d', (((lookupA (S.foldl
          (fun acc r =>
            modifyA acc (dateKey r) []
              (fun dm => modifyA dm r.model_id [] (fun l => l ++ [r])))
          acc) d').getD []).map Prod.fst).Nodup := by
    induction S with
    | nil => intro acc hacc; exact hacc
    | cons r rest ih =>
        intro acc hacc
        rw [List.foldl_cons]
        apply ih
        intro d'
        rw [modifyA, lookupA_setA]
        by_cases hd : dateKey r = d'
        · rw [if_pos hd]
          show ((modifyA ((lookupA acc (dateKey r)).getD []) r.model_id []
            (fun l => l ++ [r])).map Prod.fst).Nodup
          rw [modifyA]
          exact setA_keys_nodup _ _ _ (hacc (dateKey r))
        · rw [if_neg hd]
          exact hacc d'
  exact h [] (by intro d'; simp [lookupA]) d

/-! ## Maximum, prompt-latest and drift-loop lemmas -/

theorem strLe_trans (x y z : String) (h1 : strLe x y) (h2 : strLe y z) : strLe x z :=
  IsTrans.trans x y z h1 h2

theorem strLe_refl (x : String) : strLe x x :=
  show strLtB x.data x.data = false from strLtB_irrefl x.data

theorem strLe_maxStr_left (a b : String) : strLe a (maxStr a b) := by
  rw [maxStr]
  by_cases h : strLtB a.data b.data = true
  · rw [if_pos h]
    exact show strLtB b.data a.data = false from strLtB_asymm _ _ h
  · rw [if_neg h]
    exact strLe_refl a

theorem strLe_maxStr_right (a b : String) : strLe b (maxStr a b) := by
  rw [maxStr]
  by_cases h : strLtB a.data b.data = true
  · rw [if_pos h]
    exact strLe_refl b
  · rw [if_neg h]
    exact show strLtB a.data b.data = false from Bool.not_eq_true _ ▸ h

theorem maxStr_cases (a b : String) : maxStr a b = a ∨ maxStr a b = b := by
  rw [maxStr]
  by_cases h : strLtB a.data b.data = true
  · rw [if_pos h]; exact Or.inr rfl
  · rw [if_neg h]; exact Or.inl rfl

theorem max_fold_aux (t : List String) :
    ∀ a, t.foldl
        (fun acc d => some (match acc with | none => d | some a => maxStr a d))
        (some a)
      = some (t.foldl maxStr a) := by
  induction t with
  | nil => intro a; rfl
  | cons d rest ih => intro a; exact ih (maxStr a d)

theorem maxString?_cons (h : String) (t : List String) :
    maxString? (h :: t) = some (t.foldl maxStr h) := by
  rw [maxString?, List.foldl_cons]
  exact max_fold_aux t h

theorem foldl_maxStr_mem (t : List String) :
    ∀ a, t.foldl maxStr a ∈ a :: t := by
  induction t with
  | nil => intro a; exact List.mem_cons_self _ _
  | cons b rest ih =>
      intro a
      rw [List.foldl_cons]
      rcases List.mem_cons.mp (ih (maxStr a b)) with h2 | h2
      · rw [h2]
        rcases maxStr_cases a b with h3 | h3
        · rw [h3]; exact List.mem_cons_self _ _
        · rw [h3]; exact List.mem_cons_of_mem _ (List.mem_cons_self _ _)
      · exact List.mem_cons_of_mem _ (List.mem_cons_of_mem _ h2)

theorem foldl_maxStr_ge (t : List String) :
    ∀ a y, y ∈ a :: t → strLe y (t.foldl maxStr a) := by
  induction t with
  | nil =>
      intro a y hy
      rcases List.mem_cons.mp hy with rfl | h
      · exact strLe_refl y
      · exact absurd h (List.not_mem_nil y)
  | cons b rest ih =>
      intro a y hy
      rw [List.foldl_cons]
      rcases List.mem_cons.mp hy with rfl | h2
      · exact strLe_trans y (maxStr y b) _ (strLe_maxStr_left y b)
          (ih (maxStr y b) _ (List.mem_cons_self _ _))
      · rcases List.mem_cons.mp h2 with rfl | h3
        · exact strLe_trans y (maxStr a y) _ (strLe_maxStr_right a y)
            (ih (maxStr a y) _ (List.mem_cons_self _ _))
        · exact ih (maxStr a b) y (List.mem_cons_of_mem _ h3)

theorem maxString?_spec (l : List String) (hl : l ≠ []) :
    ∃ x, maxString? l = some x ∧ x ∈ l ∧ ∀ y ∈ l, strLe y x := by
  cases l with
  | nil => exact absurd rfl hl
  | cons h t =>
      exact ⟨t.foldl maxStr h, maxString?_cons h t, foldl_maxStr_mem t h,
        foldl_maxStr_ge t h⟩

theorem maxString?_nil : maxString? [] = none := rfl

theorem maxString?_eq_none (l : List String) (hl : l = []) : maxString? l = none := by
  rw [hl]; rfl

theorem maxString?_congr (l1 l2 : List String) (h : ∀ x, x ∈ l1 ↔ x ∈ l2) :
    maxString? l1 = maxString? l2 := by
  cases hl1 : l1 with
  | nil =>
      cases hl2 : l2 with
      | nil => rfl
      | cons c t =>
          subst hl1 hl2
          exact absurd ((h c).mpr (List.mem_cons_self c t)) (List.not_mem_nil c)
  | cons c t =>
      cases hl2 : l2 with
      | nil =>
          subst hl1 hl2
          exact absurd ((h c).mp (List.mem_cons_self c t)) (List.not_mem_nil c)
      | cons c2 t2 =>
          subst hl1 hl2
          obtain ⟨x1, he1, hm1, hge1⟩ := maxString?_spec (c :: t) (List.cons_ne_nil c t)
          obtain ⟨x2, he2, hm2, hge2⟩ :=
            maxString?_spec (c2 :: t2) (List.cons_ne_nil c2 t2)
          rw [he1, he2]
          have hx12 : strLe x1 x2 := hge2 x1 ((h x1).mp hm1)
          have hx21 : strLe x2 x1 := hge1 x2 ((h x2).mpr hm2)
          rw [strLe_antisymm x1 x2 hx12 hx21]

theorem maxString?_of_greatest (l : List String) (d0 : String) (hmem : d0 ∈ l)
    (hge : ∀ y ∈ l, strLe y d0) : maxString? l = some d0 := by
  obtain ⟨x, he, hm, hgx⟩ := maxString?_spec l
    (fun h => (h ▸ List.not_mem_nil d0) hmem)
  rw [he, strLe_antisymm x d0 (hge x hm) (hgx d0 hmem)]

theorem promptSet_nodup (recs : List StorageRecord) : (promptSet recs).Nodup := by
  rw [promptSet]
  have h : ∀ (acc : List String), acc.Nodup →
      (recs.foldl
        (fun acc r => if r.prompt_id ∈ acc then acc else acc ++ [r.prompt_id])
        acc).Nodup := by
    induction recs with
    | nil => intro acc hacc; exact hacc
    | cons r rest ih =>
        intro acc hacc
        rw [List.foldl_cons]
        apply ih
        by_cases hm : r.prompt_id ∈ acc
        · rw [if_pos hm]; exact hacc
        · rw [if_neg hm]
          rw [List.nodup_append]
          exact ⟨hacc, List.nodup_singleton _, by simpa using hm⟩
  exact h [] List.nodup_nil

theorem mem_promptSet (recs : List StorageRecord) (p : String) :
    p ∈ promptSet recs ↔ ∃ r ∈ recs, r.prompt_id = p := by
  rw [promptSet]
  have h : ∀ (acc : List String),
      (p ∈ recs.foldl
        (fun acc r => if r.prompt_id ∈ acc then acc else acc ++ [r.prompt_id])
        acc
      ↔ (p ∈ acc ∨ ∃ r ∈ recs, r.prompt_id = p)) := by
    induction recs with
    | nil => intro acc; simp
    | cons r rest ih =>
        intro acc
        rw [List.foldl_cons, ih]
        constructor
        · intro hc
          rcases hc with hc | hc
          · by_cases hm : r.prompt_id ∈ acc
            · rw [if_pos hm] at hc
              exact Or.inl hc
            · rw [if_neg hm] at hc
              rcases List.mem_append.mp hc with h2 | h2
              · exact Or.inl h2
              · rcases List.mem_singleton.mp h2 with rfl
                exact Or.inr ⟨r, List.mem_cons_self _ _, rfl⟩
          · obtain ⟨r0, hr0, hp⟩ := hc
            exact Or.inr ⟨r0, List.mem_cons_of_mem _ hr0, hp⟩
        · intro hc
          rcases hc with hc | hc
          · refine Or.inl ?_
            by_cases hm : r.prompt_id ∈ acc
            · rw [if_pos hm]; exact hc
            · rw [if_neg hm]; exact List.mem_append_left _ hc
          · obtain ⟨r0, hr0, hp⟩ := hc
            rcases List.mem_cons.mp hr0 with rfl | h3
            · refine Or.inl ?_
              by_cases hm : r0.prompt_id ∈ acc
              · rw [if_pos hm]; exact hp ▸ hm
              · rw [if_neg hm]
                exact List.mem_append_right _ (List.mem_singleton.mpr hp.symm)
            · exact Or.inr ⟨r0, h3, hp⟩
  rw [h []]
  simp

theorem promptLatest_keys (recs : List StorageRecord) :
    (promptLatest recs).map Prod.fst = promptSet recs := by
  rw [promptLatest, promptSet]
  have h : ∀ (acc : List (String × String)),
      (recs.foldl (fun acc r => setA acc r.prompt_id r.output_hash) acc).map Prod.fst
      = recs.foldl
          (fun acc r => if r.prompt_id ∈ acc then acc else acc ++ [r.prompt_id])
          (acc.map Prod.fst) := by
    induction recs with
    | nil => intro acc; rfl
    | cons r rest ih =>
        intro acc
        rw [List.foldl_cons, List.foldl_cons, ih, setA_keys]
  exact h []

theorem promptLatest_lookup (recs : List StorageRecord) (p : String) :
    lookupA (promptLatest recs) p
      = match (recs.filter fun r => decide (r.prompt_id = p)).getLast? with
        | some r => some r.output_hash
        | none => none := by
  rw [promptLatest]
  have h : ∀ (acc : List (String × String)),
      lookupA (recs.foldl (fun acc r => setA acc r.prompt_id r.output_hash) acc) p
      = match (recs.filter fun r => decide (r.prompt_id = p)).getLast? with
        | some r => some r.output_hash
        | none => lookupA acc p := by
    induction recs with
    | nil => intro acc; rfl
    | cons r rest ih =>
        intro acc
        rw [List.foldl_cons, ih, List.filter_cons]
        cases hrest : (rest.filter fun r => decide (r.prompt_id = p)).getLast? with
        | some r' =>
            by_cases hp : r.prompt_id = p
            · rw [if_pos (decide_eq_true hp)]
              cases hfil : rest.filter fun r => decide (r.prompt_id = p) with
              | nil => rw [hfil] at hrest; exact absurd hrest (by simp)
              | cons b l' =>
                  rw [hfil] at hrest
                  rw [List.getLast?_cons_cons, hrest]
            · rw [if_neg (by simpa using hp), hrest]
        | none =>
            have hfil : (rest.filter fun r => decide (r.prompt_id = p)) = [] := by
              cases hf : rest.filter fun r => decide (r.prompt_id = p) with
              | nil => rfl
              | cons b l' => rw [hf] at hrest; simp [List.getLast?] at hrest
            by_cases hp : r.prompt_id = p
            · rw [if_pos (decide_eq_true hp), hfil]
              show lookupA (setA acc r.prompt_id r.output_hash) p = some r.output_hash
              rw [lookupA_setA, if_pos hp]
            · rw [if_neg (by simpa using hp), hfil]
              show lookupA (setA acc r.prompt_id r.output_hash) p = lookupA acc p
              rw [lookupA_setA, if_neg hp]
  rw [h []]
  cases (recs.filter fun r => decide (r.prompt_id = p)).getLast? <;> rfl

theorem driftKey_inj_prompt (m p p' : String) (h : driftKey m p = driftKey m p') :
    p = p' := by
  rw [driftKey, driftKey] at h
  have hd := congrArg String.data h
  simp only [String.data_append] at hd
  have := List.append_cancel_left hd
  cases p; cases p'
  simp only at this
  rw [this]

theorem lookupA_mem_keys {α : Type} (l : List (String × α)) (k : String)
    (h : lookupA l k ≠ none) : k ∈ l.map Prod.fst := by
  induction l with
  | nil => exact absurd rfl h
  | cons p rest ih =>
      obtain ⟨a, b⟩ := p
      rw [lookupA] at h
      by_cases hak : a = k
      · exact hak ▸ List.mem_cons_self a _
      · rw [if_neg hak] at h
        exact List.mem_cons_of_mem _ (ih h)

theorem driftLoop_state (m : String) (phs : List (String × String))
    (hnd : (phs.map Prod.fst).Nodup) :
    ∀ (n : Nat) (st : List (String × String)) (k : String),
      lookupA (driftLoop m phs (n, st)).2 k
      = match lookupA (phs.map fun ph => (driftKey m ph.1, ph.2)) k with
        | some h => some h
        | none => lookupA st k := by
  induction phs with
  | nil => intro n st k; rfl
  | cons ph rest ih =>
      intro n st k
      simp only [List.map_cons, List.nodup_cons] at hnd
      rw [driftLoop]
      show lookupA (driftLoop m rest (_, setA st (driftKey m ph.1) ph.2)).2 k = _
      rw [ih hnd.2]
      rw [List.map_cons]
      cases hrest : lookupA (rest.map fun ph => (driftKey m ph.1, ph.2)) k with
      | some h =>
          rw [show lookupA ((driftKey m ph.1, ph.2) :: rest.map
              fun ph => (driftKey m ph.1, ph.2)) k
            = if driftKey m ph.1 = k then some ph.2 else some h by
            rw [lookupA, hrest]]
          by_cases hk : driftKey m ph.1 = k
          · exfalso
            have hkmem : k ∈ (rest.map fun ph => (driftKey m ph.1, ph.2)).map Prod.fst :=
              lookupA_mem_keys _ _ (by rw [hrest]; simp)
            simp only [List.map_map] at hkmem
            rcases List.mem_map.mp hkmem with ⟨ph2, hph2, hkey⟩
            have hpp : ph2.1 = ph.1 :=
              driftKey_inj_prompt m _ _ (hkey.trans hk.symm)
            exact hnd.1 (hpp ▸ List.mem_map_of_mem Prod.fst hph2)
          · rw [if_neg hk]
      | none =>
          by_cases hk : driftKey m ph.1 = k
          · rw [show lookupA ((driftKey m ph.1, ph.2) :: rest.map
                fun ph => (driftKey m ph.1, ph.2)) k = some ph.2 by
              rw [lookupA, if_pos hk]]
            show lookupA (setA st (driftKey m ph.1) ph.2) k = some ph.2
            rw [lookupA_setA, if_pos hk]
          · rw [show lookupA ((driftKey m ph.1, ph.2) :: rest.map
                fun ph => (driftKey m ph.1, ph.2)) k
              = lookupA (rest.map fun ph => (driftKey m ph.1, ph.2)) k by
              rw [lookupA, if_neg hk]]
            rw [hrest]
            show lookupA (setA st (driftKey m ph.1) ph.2) k = lookupA st k
            rw [lookupA_setA, if_neg hk]

/-! ## Group-level drift facts -/

theorem driftLoop_count (m : String) (phs : List (String × String))
    (hnd : (phs.map Prod.fst).Nodup) :
    ∀ (n : Nat) (st : List (String × String)),
      (driftLoop m phs (n, st)).1
        = n + (phs.filter fun ph =>
            match lookupA st (driftKey m ph.1) with
            | some prev => decide (prev ≠ ph.2)
            | none => false).length := by
  induction phs with
  | nil => intro n st; rfl
  | cons ph rest ih =>
      intro n st
      simp only [List.map_cons, List.nodup_cons] at hnd
      rw [driftLoop]
      show (driftLoop m rest (n + (if (match lookupA st (driftKey m ph.1) with
          | some prev => decide (prev ≠ ph.2) | none => false) = true then 1 else 0),
          setA st (driftKey m ph.1) ph.2)).1 = _
      rw [ih hnd.2]
      have hcong : (rest.filter fun ph' =>
          match lookupA (setA st (driftKey m ph.1) ph.2) (driftKey m ph'.1) with
          | some prev => decide (prev ≠ ph'.2) | none => false)
        = rest.filter fun ph' =>
          match lookupA st (driftKey m ph'.1) with
          | some prev => decide (prev ≠ ph'.2) | none => false := by
        apply List.filter_congr
        intro ph' hph'
        have hne : driftKey m ph.1 ≠ driftKey m ph'.1 := by
          intro he
          exact hnd.1 ((driftKey_inj_prompt m _ _ he) ▸
            List.mem_map_of_mem Prod.fst hph')
        rw [lookupA_setA, if_neg hne]
      rw [hcong, List.filter_cons]
      by_cases hhit : (match lookupA st (driftKey m ph.1) with
          | some prev => decide (prev ≠ ph.2) | none => false) = true
      · rw [if_pos hhit, if_pos hhit]
        simp only [List.length_cons]
        omega
      · rw [if_neg hhit, if_neg hhit]
        omega

theorem filter_prompt_recAt (S : List StorageRecord) (d m p : String) :
    (recAt S d m).filter (fun r => decide (r.prompt_id = p))
      = S.filter fun r => decide (dateKey r = d ∧ r.model_id = m ∧ r.prompt_id = p) := by
  rw [recAt, List.filter_filter]
  apply List.filter_congr
  intro r _
  by_cases h1 : dateKey r = d
  · by_cases h2 : r.model_id = m
    · by_cases h3 : r.prompt_id = p
      · simp [h1, h2, h3]
      · simp [h1, h2, h3]
    · simp [h1, h2]
  · simp [h1]

theorem lastHashAt_group (S : List StorageRecord) (d m p : String) :
    lookupA (promptLatest (recAt S d m)) p = lastHashAt S d m p := by
  rw [promptLatest_lookup, lastHashAt, filter_prompt_recAt]
  cases (S.filter fun r =>
      decide (dateKey r = d ∧ r.model_id = m ∧ r.prompt_id = p)).getLast? <;> rfl

theorem obsB_iff (S : List StorageRecord) (d m p : String) :
    obsB S d m p = true ↔
      ∃ r ∈ S, dateKey r = d ∧ r.model_id = m ∧ r.prompt_id = p := by
  rw [obsB, List.any_eq_true]
  constructor
  · intro ⟨r, hr, hd⟩
    exact ⟨r, hr, of_decide_eq_true hd⟩
  · intro ⟨r, hr, hd⟩
    exact ⟨r, hr, decide_eq_true hd⟩

theorem obsB_lastHash_some (S : List StorageRecord) (d m p : String)
    (h : obsB S d m p = true) : ∃ hash, lastHashAt S d m p = some hash := by
  obtain ⟨r, hr, hcond⟩ := (obsB_iff S d m p).mp h
  rw [lastHashAt]
  cases hfil : (S.filter fun r =>
      decide (dateKey r = d ∧ r.model_id = m ∧ r.prompt_id = p)).getLast? with
  | some r0 => exact ⟨r0.output_hash, rfl⟩
  | none =>
      exfalso
      have hmem : r ∈ S.filter fun r =>
          decide (dateKey r = d ∧ r.model_id = m ∧ r.prompt_id = p) :=
        List.mem_filter.mpr ⟨hr, decide_eq_true hcond⟩
      cases hf : S.filter fun r =>
          decide (dateKey r = d ∧ r.model_id = m ∧ r.prompt_id = p) with
      | nil => rw [hf] at hmem; exact List.not_mem_nil r hmem
      | cons b l => rw [hf] at hfil; simp [List.getLast?] at hfil

theorem prevObsDate_facts (S : List StorageRecord) (d m p : String) (d' : String)
    (h : prevObsDate S d m p = some d') :
    d' ∈ S.map dateKey ∧ strLtB d'.data d.data = true ∧ obsB S d' m p = true := by
  rw [prevObsDate] at h
  cases hfil : (S.map dateKey).filter
      (fun d0 => strLtB d0.data d.data && obsB S d0 m p) with
  | nil => rw [hfil] at h; exact absurd h (by rw [maxString?_nil]; simp)
  | cons c t =>
      rw [hfil] at h
      obtain ⟨x, he, hm, _⟩ := maxString?_spec (c :: t) (List.cons_ne_nil c t)
      rw [he] at h
      have hx : d' = x := (Option.some.inj h).symm
      subst hx
      have hmem : d' ∈ (S.map dateKey).filter
          (fun d0 => strLtB d0.data d.data && obsB S d0 m p) := hfil ▸ hm
      obtain ⟨hmem2, hcond⟩ := List.mem_filter.mp hmem
      rw [Bool.and_eq_true] at hcond
      exact ⟨hmem2, hcond.1, hcond.2⟩

theorem mem_recAt (S : List StorageRecord) (d m : String) (r : StorageRecord) :
    r ∈ recAt S d m ↔ r ∈ S ∧ dateKey r = d ∧ r.model_id = m := by
  rw [recAt, List.mem_filter]
  constructor
  · intro ⟨h1, h2⟩
    exact ⟨h1, of_decide_eq_true h2⟩
  · intro ⟨h1, h2⟩
    exact ⟨h1, decide_eq_true h2⟩

theorem groupRecs_inner_mem (S : List StorageRecord) (d m : String)
    (h : ∃ r ∈ S, dateKey r = d ∧ r.model_id = m) :
    m ∈ ((lookupA (groupRecs S) d).getD []).map Prod.fst := by
  obtain ⟨r, hr, hd, hm⟩ := h
  have hne : (lookupA ((lookupA (groupRecs S) d).getD []) m).getD [] ≠ [] := by
    rw [groupRecs_lookup2]
    intro hnil
    have hmem : r ∈ S.filter fun r0 => decide (dateKey r0 = d ∧ r0.model_id = m) :=
      List.mem_filter.mpr ⟨hr, decide_eq_true ⟨hd, hm⟩⟩
    rw [hnil] at hmem
    exact List.not_mem_nil r hmem
  apply lookupA_mem_keys
  intro hnone
  rw [hnone] at hne
  exact hne rfl

theorem inner_entry_eq (S : List StorageRecord) (d m : String)
    (recs : List StorageRecord)
    (hmem : (m, recs) ∈ (lookupA (groupRecs S) d).getD []) :
    recs = recAt S d m := by
  have hl := lookupA_of_mem_nodup _ _ _ hmem (groupRecs_inner_nodup S d)
  have h2 := groupRecs_lookup2 S d m
  rw [hl] at h2
  exact h2

/-! ## C3 workspace: per-group and per-date correctness -/

theorem lookupA_eq_none_not_mem {α : Type} (l : List (String × α)) (k : String)
    (h : k ∉ l.map Prod.fst) : lookupA l k = none := by
  by_contra hne
  exact h (lookupA_mem_keys l k hne)

theorem lookupA_map_driftKey (m p : String) (l : List (String × String)) :
    lookupA (l.map fun ph => (driftKey m ph.1, ph.2)) (driftKey m p) = lookupA l p := by
  induction l with
  | nil => rfl
  | cons ph rest ih =>
      rw [List.map_cons]
      by_cases hp : ph.1 = p
      · rw [show lookupA ((driftKey m ph.1, ph.2) :: rest.map
            fun ph => (driftKey m ph.1, ph.2)) (driftKey m p) = some ph.2 by
          rw [lookupA, if_pos (by rw [hp])]]
        rw [show lookupA (ph :: rest) p = some ph.2 by
          rw [show ph = (ph.1, ph.2) from rfl, lookupA, if_pos hp]]
      · have hne : driftKey m ph.1 ≠ driftKey m p :=
          fun he => hp (driftKey_inj_prompt m _ _ he)
        rw [show lookupA ((driftKey m ph.1, ph.2) :: rest.map
            fun ph => (driftKey m ph.1, ph.2)) (driftKey m p)
          = lookupA (rest.map fun ph => (driftKey m ph.1, ph.2)) (driftKey m p) by
          rw [lookupA, if_neg hne]]
        rw [show lookupA (ph :: rest) p = lookupA rest p by
          rw [show ph = (ph.1, ph.2) from rfl, lookupA, if_neg hp]]
        exact ih

theorem processGroup_drift (S : List StorageRecord) (d m : String)
    (st : List (String × String))
    (hst : ∀ p, Occ S m p → lookupA st (driftKey m p) = stSpec S d m p) :
    (processGroup st m (recAt S d m)).1.drifted_prompts
      = ((promptsAt S d m).filter fun p => driftedSpecB S d m p).length := by
  have hnd : ((promptLatest (recAt S d m)).map Prod.fst).Nodup := by
    rw [promptLatest_keys]
    exact promptSet_nodup _
  show (driftLoop m (promptLatest (recAt S d m)) (0, st)).1 = _
  rw [driftLoop_count m _ hnd 0 st, Nat.zero_add]
  have hcong : ((promptLatest (recAt S d m)).filter fun ph =>
      match lookupA st (driftKey m ph.1) with
      | some prev => decide (prev ≠ ph.2)
      | none => false)
    = (promptLatest (recAt S d m)).filter fun ph => driftedSpecB S d m ph.1 := by
    apply List.filter_congr
    intro ph hph
    have hpm : ph.1 ∈ promptSet (recAt S d m) := by
      rw [← promptLatest_keys]
      exact List.mem_map_of_mem Prod.fst hph
    obtain ⟨r, hr, hrp⟩ := (mem_promptSet _ _).mp hpm
    obtain ⟨hrS, hrd, hrm⟩ := (mem_recAt S d m r).mp hr
    have hOcc : Occ S m ph.1 := ⟨r, hrS, hrm, hrp⟩
    have hlk : lookupA (promptLatest (recAt S d m)) ph.1 = some ph.2 :=
      lookupA_of_mem_nodup _ _ _ hph hnd
    have hlast : lastHashAt S d m ph.1 = some ph.2 := by
      rw [← lastHashAt_group]
      exact hlk
    rw [hst ph.1 hOcc, stSpec]
    cases hprev : prevObsDate S d m ph.1 with
    | none =>
        rw [driftedSpecB, hprev]
    | some d' =>
        obtain ⟨hdk, hlt, hobs⟩ := prevObsDate_facts S d m ph.1 d' hprev
        obtain ⟨hash', hsome⟩ := obsB_lastHash_some S d' m ph.1 hobs
        rw [driftedSpecB, hprev]
        show (match lastHashAt S d' m ph.1 with
          | some prev => decide (prev ≠ ph.2)
          | none => false)
          = decide (lastHashAt S d' m ph.1 ≠ lastHashAt S d m ph.1)
        rw [hsome, hlast]
        show decide (hash' ≠ ph.2) = decide (some hash' ≠ some ph.2)
        by_cases he : hash' = ph.2
        · rw [he]
          simp
        · simp [he]
  rw [hcong, promptsAt, ← promptLatest_keys, List.filter_map, List.length_map]
  rfl

theorem processGroup_state (S : List StorageRecord) (d m0 : String)
    (st : List (String × String)) (hinj : KeyInj S)
    (hm0occ : ∃ r0 ∈ S, dateKey r0 = d ∧ r0.model_id = m0) :
    ∀ m p, Occ S m p →
      lookupA (processGroup st m0 (recAt S d m0)).2 (driftKey m p)
        = if m = m0 ∧ obsB S d m p = true then lastHashAt S d m p
          else lookupA st (driftKey m p) := by
  intro m p hOcc
  have hnd : ((promptLatest (recAt S d m0)).map Prod.fst).Nodup := by
    rw [promptLatest_keys]
    exact promptSet_nodup _
  show lookupA (driftLoop m0 (promptLatest (recAt S d m0)) (0, st)).2 (driftKey m p) = _
  rw [driftLoop_state m0 _ hnd 0 st (driftKey m p)]
  by_cases hm : m = m0
  · subst hm
    rw [lookupA_map_driftKey]
    by_cases hobs : obsB S d m p = true
    · obtain ⟨hash, hsome⟩ := obsB_lastHash_some S d m p hobs
      rw [lastHashAt_group, hsome, if_pos ⟨rfl, hobs⟩]
    · have hnp : p ∉ promptSet (recAt S d m) := by
        intro hmem
        obtain ⟨r, hr, hrp⟩ := (mem_promptSet _ _).mp hmem
        obtain ⟨hrS, hrd, hrm⟩ := (mem_recAt S d m r).mp hr
        exact hobs ((obsB_iff S d m p).mpr ⟨r, hrS, hrd, hrm, hrp⟩)
      rw [show lookupA (promptLatest (recAt S d m)) p = none from
        lookupA_eq_none_not_mem _ _ (by rw [promptLatest_keys]; exact hnp)]
      rw [if_neg (fun hc => hobs hc.2)]
  · have hnone : lookupA ((promptLatest (recAt S d m0)).map
        fun ph => (driftKey m0 ph.1, ph.2)) (driftKey m p) = none := by
      apply lookupA_eq_none_not_mem
      intro hmem
      simp only [List.map_map] at hmem
      rcases List.mem_map.mp hmem with ⟨ph2, hph2, hkey⟩
      have hpm : ph2.1 ∈ promptSet (recAt S d m0) := by
        rw [← promptLatest_keys]
        exact List.mem_map_of_mem Prod.fst hph2
      obtain ⟨r, hr, hrp⟩ := (mem_promptSet _ _).mp hpm
      obtain ⟨hrS, hrd, hrm⟩ := (mem_recAt S d m0 r).mp hr
      have hOcc0 : Occ S m0 ph2.1 := ⟨r, hrS, hrm, hrp⟩
      exact hm ((hinj m p m0 ph2.1 hOcc hOcc0 hkey.symm).1)
    rw [hnone, if_neg (fun hc => hm hc.1)]

theorem runModels_drift (S : List StorageRecord) (d : String) (hinj : KeyInj S) :
    ∀ (dm : List (String × List StorageRecord)) (st : List (String × String)),
      (∀ mr ∈ dm, mr.2 = recAt S d mr.1) →
      (dm.map Prod.fst).Nodup →
      (∀ mr ∈ dm, ∃ r0 ∈ S, dateKey r0 = d ∧ r0.model_id = mr.1) →
      (∀ m p, Occ S m p → m ∈ dm.map Prod.fst →
        lookupA st (driftKey m p) = stSpec S d m p) →
      (∀ m stats, lookupA (runModels st dm).1 m = some stats →
        stats.drifted_prompts
          = ((promptsAt S d m).filter fun p => driftedSpecB S d m p).length) ∧
      (∀ m p, Occ S m p →
        lookupA (runModels st dm).2.1 (driftKey m p)
          = if m ∈ dm.map Prod.fst ∧ obsB S d m p = true
            then lastHashAt S d m p
            else lookupA st (driftKey m p)) := by
  intro dm
  induction dm with
  | nil =>
      intro st _ _ _ _
      constructor
      · intro m stats h
        exact absurd h (by rw [show lookupA (runModels st []).1 m = none from rfl]; simp)
      · intro m p _
        rw [if_neg (by intro hc; simp at hc)]
        rfl
  | cons mr rest ih =>
      intro st hvals hnd hocc hst
      obtain ⟨m0, recs0⟩ := mr
      have hrecs0 : recs0 = recAt S d m0 := hvals (m0, recs0) (List.mem_cons_self _ _)
      have hm0occ : ∃ r0 ∈ S, dateKey r0 = d ∧ r0.model_id = m0 :=
        hocc (m0, recs0) (List.mem_cons_self _ _)
      simp only [List.map_cons, List.nodup_cons] at hnd
      have hst0 : ∀ p, Occ S m0 p → lookupA st (driftKey m0 p) = stSpec S d m0 p :=
        fun p hp => hst m0 p hp (by rw [List.map_cons]; exact List.mem_cons_self _ _)
      have hch : ∀ m p, Occ S m p →
          lookupA (processGroup st m0 recs0).2 (driftKey m p)
            = if m = m0 ∧ obsB S d m p = true then lastHashAt S d m p
              else lookupA st (driftKey m p) := by
        rw [hrecs0]
        exact processGroup_state S d m0 st hinj hm0occ
      have hst1 : ∀ m p, Occ S m p → m ∈ rest.map Prod.fst →
          lookupA (processGroup st m0 recs0).2 (driftKey m p) = stSpec S d m p := by
        intro m p hO hm
        rw [hch m p hO, if_neg (by intro hc; exact hnd.1 (hc.1 ▸ hm))]
        exact hst m p hO (by rw [List.map_cons]; exact List.mem_cons_of_mem _ hm)
      obtain ⟨ihA, ihB⟩ := ih (processGroup st m0 recs0).2
        (fun mr2 h2 => hvals mr2 (List.mem_cons_of_mem _ h2)) hnd.2
        (fun mr2 h2 => hocc mr2 (List.mem_cons_of_mem _ h2)) hst1
      constructor
      · intro m stats h
        rw [show (runModels st ((m0, recs0) :: rest)).1
            = (m0, (processGroup st m0 recs0).1)
              :: (runModels (processGroup st m0 recs0).2 rest).1 from rfl] at h
        rw [lookupA] at h
        by_cases hm : m0 = m
        · rw [if_pos hm] at h
          obtain rfl : (processGroup st m0 recs0).1 = stats := Option.some.inj h
          subst hm
          rw [hrecs0]
          exact processGroup_drift S d m0 st hst0
        · rw [if_neg hm] at h
          exact ihA m stats h
      · intro m p hO
        rw [show (runModels st ((m0, recs0) :: rest)).2.1
            = (runModels (processGroup st m0 recs0).2 rest).2.1 from rfl]
        rw [ihB m p hO]
        by_cases hmrest : m ∈ rest.map Prod.fst
        · have hobs : m ∈ ((m0, recs0) :: rest).map Prod.fst := by
            rw [List.map_cons]
            exact List.mem_cons_of_mem _ hmrest
          by_cases ho : obsB S d m p = true
          · rw [if_pos ⟨hmrest, ho⟩, if_pos ⟨hobs, ho⟩]
          · rw [if_neg (by intro hc; exact ho hc.2), if_neg (by intro hc; exact ho hc.2)]
            rw [hch m p hO]
            rw [if_neg (by intro hc; exact ho hc.2)]
        · rw [if_neg (by intro hc; exact hmrest hc.1)]
          rw [hch m p hO]
          by_cases hm : m = m0
          · subst hm
            by_cases ho : obsB S d m p = true
            · rw [if_pos ⟨rfl, ho⟩,
                if_pos ⟨by rw [List.map_cons]; exact List.mem_cons_self _ _, ho⟩]
            · rw [if_neg (by intro hc; exact ho hc.2), if_neg (by intro hc; exact ho hc.2)]
          · have hcn : ¬(m ∈ ((m0, recs0) :: rest).map Prod.fst
                ∧ obsB S d m p = true) := by
              intro hc
              rw [List.map_cons] at hc
              rcases List.mem_cons.mp hc.1 with he | he
              · exact hm he
              · exact hmrest he
            rw [if_neg (by intro hc; exact hm hc.1), if_neg hcn]

/-! ## The date loop and claim C3 -/

theorem groupRecs_inner_mem_iff (S : List StorageRecord) (d m : String) :
    m ∈ ((lookupA (groupRecs S) d).getD []).map Prod.fst
      ↔ ∃ r ∈ S, dateKey r = d ∧ r.model_id = m := by
  constructor
  · have h : ∀ (acc : List (String × List (String × List StorageRecord))),
        m ∈ ((lookupA (S.foldl
            (fun acc r =>
              modifyA acc (dateKey r) []
                (fun dm => modifyA dm r.model_id [] (fun l => l ++ [r])))
            acc) d).getD []).map Prod.fst →
        (m ∈ ((lookupA acc d).getD []).map Prod.fst
          ∨ ∃ r ∈ S, dateKey r = d ∧ r.model_id = m) := by
      induction S with
      | nil => intro acc hm2; exact Or.inl hm2
      | cons r rest ih =>
          intro acc hm2
          rw [List.foldl_cons] at hm2
          rcases ih _ hm2 with hc | hc
          · rw [modifyA, lookupA_setA] at hc
            by_cases hd : dateKey r = d
            · rw [if_pos hd] at hc
              show _ ∨ ∃ r0 ∈ r :: rest, dateKey r0 = d ∧ r0.model_id = m
              rw [show (some (modifyA ((lookupA acc (dateKey r)).getD [])
                  r.model_id [] (fun l => l ++ [r]))).getD []
                = modifyA ((lookupA acc (dateKey r)).getD [])
                  r.model_id [] (fun l => l ++ [r]) from rfl] at hc
              rw [modifyA, setA_keys] at hc
              by_cases hmm : r.model_id ∈ ((lookupA acc (dateKey r)).getD []).map Prod.fst
              · rw [if_pos hmm] at hc
                rw [hd] at hc
                exact Or.inl hc
              · rw [if_neg hmm] at hc
                rcases List.mem_append.mp hc with hc2 | hc2
                · rw [hd] at hc2
                  exact Or.inl hc2
                · rcases List.mem_singleton.mp hc2 with rfl
                  exact Or.inr ⟨r, List.mem_cons_self _ _, hd, rfl⟩
            · rw [if_neg hd] at hc
              exact Or.inl hc
          · obtain ⟨r0, hr0, hrd, hrm⟩ := hc
            exact Or.inr ⟨r0, List.mem_cons_of_mem _ hr0, hrd, hrm⟩
    intro hmem
    rw [groupRecs] at hmem
    rcases h [] hmem with hc | hc
    · simp [lookupA] at hc
    · exact hc
  · exact groupRecs_inner_mem S d m

theorem runDates_drift (S : List StorageRecord) (hinj : KeyInj S) :
    ∀ (ds : List String) (st : List (String × String)),
      ds.Sorted strLe →
      ds.Nodup →
      (∀ d1 ∈ ds, d1 ∈ S.map dateKey) →
      (∀ m p, Occ S m p →
        lookupA st (driftKey m p)
          = match maxString? ((S.map dateKey).filter
              fun d0 => decide (d0 ∉ ds) && obsB S d0 m p) with
            | none => none
            | some d0 => lastHashAt S d0 m p) →
      (∀ d0 ∈ S.map dateKey, d0 ∉ ds → ∀ d1 ∈ ds, strLtB d0.data d1.data = true) →
      ∀ d0 m stats,
        (lookupA (runDates (groupRecs S) st ds).1 d0).bind (fun dm => lookupA dm m)
          = some stats →
        stats.drifted_prompts
          = ((promptsAt S d0 m).filter fun p => driftedSpecB S d0 m p).length := by
  intro ds
  induction ds with
  | nil =>
      intro st _ _ _ _ _ d0 m stats h
      exact absurd h (by
        rw [show (runDates (groupRecs S) st []).1 = [] from rfl]
        simp [lookupA])
  | cons d rest ih =>
      intro st hsort hnd hsub hst hout d0 m stats h
      have hdkeys : d ∈ S.map dateKey := hsub d (List.mem_cons_self _ _)
      have hsort2 := List.sorted_cons.mp hsort
      rw [List.nodup_cons] at hnd
      have hsthead : ∀ m1 p, Occ S m1 p →
          m1 ∈ ((lookupA (groupRecs S) d).getD []).map Prod.fst →
          lookupA st (driftKey m1 p) = stSpec S d m1 p := by
        intro m1 p hO _
        rw [hst m1 p hO, stSpec, prevObsDate]
        have hcong := maxString?_congr
          ((S.map dateKey).filter fun d2 => decide (d2 ∉ d :: rest) && obsB S d2 m1 p)
          ((S.map dateKey).filter fun d2 => strLtB d2.data d.data && obsB S d2 m1 p)
          (by
            intro x
            simp only [List.mem_filter, Bool.and_eq_true, decide_eq_true_eq]
            constructor
            · intro ⟨hx1, hx2, hx3⟩
              exact ⟨hx1, hout x hx1 hx2 d (List.mem_cons_self _ _), hx3⟩
            · intro ⟨hx1, hx2, hx3⟩
              refine ⟨hx1, ?_, hx3⟩
              intro hmem
              rcases List.mem_cons.mp hmem with rfl | hmem2
              · rw [strLtB_irrefl] at hx2
                exact Bool.noConfusion hx2
              · have hle : strLtB x.data d.data = false := hsort2.1 x hmem2
                rw [hle] at hx2
                exact Bool.noConfusion hx2)
        rw [hcong]
      have hvals : ∀ mr ∈ (lookupA (groupRecs S) d).getD [],
          mr.2 = recAt S d mr.1 := by
        intro mr hmr
        obtain ⟨m1, recs1⟩ := mr
        exact inner_entry_eq S d m1 recs1 hmr
      have hocc : ∀ mr ∈ (lookupA (groupRecs S) d).getD [],
          ∃ r0 ∈ S, dateKey r0 = d ∧ r0.model_id = mr.1 := by
        intro mr hmr
        exact (groupRecs_inner_mem_iff S d mr.1).mp
          (List.mem_map_of_mem Prod.fst hmr)
      obtain ⟨rmA, rmB⟩ := runModels_drift S d hinj
        ((lookupA (groupRecs S) d).getD []) st hvals
        (groupRecs_inner_nodup S d) hocc hsthead
      by_cases hd0 : d = d0
      · subst hd0
        rw [show lookupA (runDates (groupRecs S) st (d :: rest)).1 d
            = some (runModels st ((lookupA (groupRecs S) d).getD [])).1 from by
          rw [show (runDates (groupRecs S) st (d :: rest)).1
              = (d, (runModels st ((lookupA (groupRecs S) d).getD [])).1)
                :: (runDates (groupRecs S)
                  (runModels st ((lookupA (groupRecs S) d).getD [])).2.1 rest).1
              from rfl]
          rw [lookupA, if_pos rfl]] at h
        exact rmA m stats h
      · rw [show lookupA (runDates (groupRecs S) st (d :: rest)).1 d0
            = lookupA (runDates (groupRecs S)
                (runModels st ((lookupA (groupRecs S) d).getD [])).2.1 rest).1 d0
            from by
          rw [show (runDates (groupRecs S) st (d :: rest)).1
              = (d, (runModels st ((lookupA (groupRecs S) d).getD [])).1)
                :: (runDates (groupRecs S)
                  (runModels st ((lookupA (groupRecs S) d).getD [])).2.1 rest).1
              from rfl]
          rw [lookupA, if_neg hd0]] at h
      -- establish ih hypotheses
        apply ih (runModels st ((lookupA (groupRecs S) d).getD [])).2.1
          hsort2.2 hnd.2 (fun d1 h1 => hsub d1 (List.mem_cons_of_mem _ h1))
          ?hst2 ?hout2 d0 m stats h
        case hst2 =>
          intro m1 p hO
          rw [rmB m1 p hO]
          by_cases hobs : obsB S d m1 p = true
          · obtain ⟨r0, hr0, hrd, hrm, hrp⟩ := (obsB_iff S d m1 p).mp hobs
            have hmem1 : m1 ∈ ((lookupA (groupRecs S) d).getD []).map Prod.fst :=
              groupRecs_inner_mem S d m1 ⟨r0, hr0, hrd, hrm⟩
            rw [if_pos ⟨hmem1, hobs⟩]
            have hmax : maxString? ((S.map dateKey).filter
                fun d2 => decide (d2 ∉ rest) && obsB S d2 m1 p) = some d := by
              apply maxString?_of_greatest
              · rw [List.mem_filter]
                exact ⟨hdkeys, by
                  rw [Bool.and_eq_true, decide_eq_true_eq]
                  exact ⟨hnd.1, hobs⟩⟩
              · intro y hy
                obtain ⟨hy1, hy2⟩ := List.mem_filter.mp hy
                rw [Bool.and_eq_true, decide_eq_true_eq] at hy2
                by_cases hyds : y ∈ d :: rest
                · rcases List.mem_cons.mp hyds with rfl | hy3
                  · exact strLe_refl y
                  · exact absurd hy3 hy2.1
                · exact show strLtB d.data y.data = false from
                    strLtB_asymm _ _ (hout y hy1 hyds d (List.mem_cons_self _ _))
            rw [hmax]
          · have hif : (if m1 ∈ ((lookupA (groupRecs S) d).getD []).map Prod.fst
                ∧ obsB S d m1 p = true
                then lastHashAt S d m1 p
                else lookupA st (driftKey m1 p)) = lookupA st (driftKey m1 p) := by
              rw [if_neg (by intro hc; exact hobs hc.2)]
            rw [hif, hst m1 p hO]
            have hcong := maxString?_congr
              ((S.map dateKey).filter
                fun d2 => decide (d2 ∉ d :: rest) && obsB S d2 m1 p)
              ((S.map dateKey).filter
                fun d2 => decide (d2 ∉ rest) && obsB S d2 m1 p)
              (by
                intro x
                simp only [List.mem_filter, Bool.and_eq_true, decide_eq_true_eq]
                constructor
                · intro ⟨hx1, hx2, hx3⟩
                  exact ⟨hx1, fun hr => hx2 (List.mem_cons_of_mem _ hr), hx3⟩
                · intro ⟨hx1, hx2, hx3⟩
                  refine ⟨hx1, ?_, hx3⟩
                  intro hmem
                  rcases List.mem_cons.mp hmem with rfl | hmem2
                  · exact hobs hx3
                  · exact hx2 hmem2)
            rw [hcong]
        case hout2 =>
          intro d1 hd1 hnotin d2 hd2
          by_cases hd1ds : d1 ∈ d :: rest
          · rcases List.mem_cons.mp hd1ds with rfl | hd13
            · rw [strLt_iff_le_ne]
              refine ⟨hsort2.1 d2 hd2, ?_⟩
              intro he
              exact hnd.1 (he ▸ hd2)
            · exact absurd hd13 hnotin
          · exact hout d1 hd1 hd1ds d2 (List.mem_cons_of_mem _ hd2)

/-- C3 (amended): with the `prevHash` key `` `${model}|${prompt}` `` free
of collisions on the occurring pairs, every populated `(date, model)`
slot of the rebuilt chart counts as drifted exactly the prompts whose
last-observed fingerprint of that date differs from the fingerprint
carried forward from the immediately preceding date on which the
`(model, prompt)` pair was observed; in particular the first observation
of a pair never counts, and a repeated fingerprint contributes zero.
Without that hypothesis the key aliasing refutes the claim
(`chart_drift_counterexample`). -/
theorem chart_drift_counts (rs : List StorageRecord)
    (hinj : KeyInj (sortRecs rs)) (d m : String) (stats : DayStats)
    (hslot : lookup2 (rebuildData rs).1 d m = some stats) :
    stats.drifted_prompts
      = ((promptsAt (sortRecs rs) d m).filter
          fun p => driftedSpecB (sortRecs rs) d m p).length := by
  have hperm := List.perm_insertionSort strLe
    ((groupRecs (sortRecs rs)).map (·.1))
  have hkeysnd := groupRecs_keys_nodup (sortRecs rs)
  have hdats : (((groupRecs (sortRecs rs)).map (·.1)).insertionSort strLe).Nodup :=
    hperm.nodup_iff.mpr hkeysnd
  have hsorted := List.sorted_insertionSort strLe
    ((groupRecs (sortRecs rs)).map (·.1))
  have hsub : ∀ d1 ∈ ((groupRecs (sortRecs rs)).map (·.1)).insertionSort strLe,
      d1 ∈ (sortRecs rs).map dateKey := by
    intro d1 h1
    exact (groupRecs_mem_keys (sortRecs rs) d1).mp (hperm.mem_iff.mp h1)
  have hallin : ∀ x ∈ (sortRecs rs).map dateKey,
      x ∈ ((groupRecs (sortRecs rs)).map (·.1)).insertionSort strLe := by
    intro x hx
    exact hperm.mem_iff.mpr ((groupRecs_mem_keys (sortRecs rs) x).mpr hx)
  have hst0 : ∀ m1 p, Occ (sortRecs rs) m1 p →
      lookupA [] (driftKey m1 p)
        = match maxString? (((sortRecs rs).map dateKey).filter
            fun d0 => decide
              (d0 ∉ ((groupRecs (sortRecs rs)).map (·.1)).insertionSort strLe)
              && obsB (sortRecs rs) d0 m1 p) with
          | none => none
          | some d0 => lastHashAt (sortRecs rs) d0 m1 p := by
    intro m1 p _
    have hfil : ((sortRecs rs).map dateKey).filter
        (fun d0 => decide
          (d0 ∉ ((groupRecs (sortRecs rs)).map (·.1)).insertionSort strLe)
          && obsB (sortRecs rs) d0 m1 p) = [] := by
      rw [List.filter_eq_nil_iff]
      intro x hx
      rw [Bool.and_eq_true, decide_eq_true_eq]
      intro hc
      exact hc.1 (hallin x hx)
    rw [hfil, maxString?_nil]
    rfl
  have hout0 : ∀ d0 ∈ (sortRecs rs).map dateKey,
      d0 ∉ ((groupRecs (sortRecs rs)).map (·.1)).insertionSort strLe →
      ∀ d1 ∈ ((groupRecs (sortRecs rs)).map (·.1)).insertionSort strLe,
        strLtB d0.data d1.data = true := by
    intro d0 h0 hno
    exact absurd (hallin d0 h0) hno
  have hslot2 : (lookupA (runDates (groupRecs (sortRecs rs)) []
      (((groupRecs (sortRecs rs)).map (·.1)).insertionSort strLe)).1 d).bind
      (fun dm => lookupA dm m) = some stats := hslot
  exact runDates_drift (sortRecs rs) hinj
    (((groupRecs (sortRecs rs)).map (·.1)).insertionSort strLe) []
    hsorted hdats hsub hst0 hout0 d m stats hslot2

/-- C3 counterexample: `(model "a", prompt "b|c")` on day 1 and
`(model "a|b", prompt "c")` on day 2 share the `prevHash` key
`"a|b|c"`, so the very first observation of `("a|b", "c")` is counted
as a drift: the chart slot reports one drifted prompt although the
spec-side count for its only prompt is zero. -/
theorem chart_drift_counterexample :
    prevObsDate (sortRecs [aliasRec1, aliasRec2]) "2026-01-02" "a|b" "c" = none ∧
    driftedSpecB (sortRecs [aliasRec1, aliasRec2]) "2026-01-02" "a|b" "c" = false ∧
    promptsAt (sortRecs [aliasRec1, aliasRec2]) "2026-01-02" "a|b" = ["c"] ∧
    lookup2 (rebuildData [aliasRec1, aliasRec2]).1 "2026-01-02" "a|b"
      = some ⟨1, 1, 1, 1⟩ := by decide

/-- C3 witness: the two-day drift scenario (hash `A` then hash `B` for
one `(model, prompt)` pair, collision-free keys) where the day-2 slot
counts exactly one drifted prompt. -/
theorem chart_drift_counts_witness :
    (⟨1, 1, 1, 1⟩ : DayStats).drifted_prompts
      = ((promptsAt (sortRecs [driftRec1, driftRec2]) "2026-01-02" "m").filter
          fun p => driftedSpecB (sortRecs [driftRec1, driftRec2]) "2026-01-02" "m" p).length := by
  have hinj : KeyInj (sortRecs [driftRec1, driftRec2]) := by
    have hs : sortRecs [driftRec1, driftRec2] = [driftRec1, driftRec2] := by decide
    rw [hs]
    intro m p m1 p1 h1 h2 _
    obtain ⟨r, hr, hm, hp⟩ := h1
    obtain ⟨r1, hr1, hm1, hp1⟩ := h2
    have hrm : r.model_id = "m" ∧ r.prompt_id = "p" := by
      rcases List.mem_cons.mp hr with rfl | hr2
      · exact ⟨rfl, rfl⟩
      · rcases List.mem_cons.mp hr2 with rfl | hr3
        · exact ⟨rfl, rfl⟩
        · exact absurd hr3 (List.not_mem_nil r)
    have hrm1 : r1.model_id = "m" ∧ r1.prompt_id = "p" := by
      rcases List.mem_cons.mp hr1 with rfl | hr2
      · exact ⟨rfl, rfl⟩
      · rcases List.mem_cons.mp hr2 with rfl | hr3
        · exact ⟨rfl, rfl⟩
        · exact absurd hr3 (List.not_mem_nil r1)
    constructor
    · rw [← hm, ← hm1, hrm.1, hrm1.1]
    · rw [← hp, ← hp1, hrm.2, hrm1.2]
  exact chart_drift_counts [driftRec1, driftRec2] hinj "2026-01-02" "m"
    ⟨1, 1, 1, 1⟩ (by decide)

/-! ## Holm–Bonferroni lemmas and claim C5 -/

theorem hbGo_lookup_not_mem (m : Nat) (alpha : ℚ) :
    ∀ (rest : List (String × ℚ)) (i : Nat) (st : ℚ)
      (acc : List (String × ℚ × Bool)) (k : String),
      k ∉ rest.map Prod.fst →
      lookupA (hbGo m alpha rest i st acc) k = lookupA acc k := by
  intro rest
  induction rest with
  | nil => intro i st acc k _; rfl
  | cons hd tl ih =>
      intro i st acc k hk
      obtain ⟨key, p⟩ := hd
      simp only [List.map_cons, List.mem_cons, not_or] at hk
      show lookupA (hbGo m alpha tl (i + 1) _ (setA acc key _)) k = _
      rw [ih _ _ _ _ hk.2, lookupA_setA, if_neg (fun h => hk.1 h.symm)]

theorem hbGo_get (m : Nat) (alpha : ℚ) :
    ∀ (rest : List (String × ℚ)) (i : Nat) (st : ℚ)
      (acc : List (String × ℚ × Bool)),
      (rest.map Prod.fst).Nodup →
      ∀ j (hj : j < rest.length),
        lookupA (hbGo m alpha rest i st acc) (rest.get ⟨j, hj⟩).1
          = some (specAdjGo m st ((rest.take (j + 1)).map Prod.snd) i,
              decide (specAdjGo m st ((rest.take (j + 1)).map Prod.snd) i < alpha)) := by
  intro rest
  induction rest with
  | nil => intro i st acc _ j hj; simp at hj
  | cons hd tl ih =>
      intro i st acc hnd j hj
      obtain ⟨key, p⟩ := hd
      simp only [List.map_cons, List.nodup_cons] at hnd
      cases j with
      | zero =>
          show lookupA (hbGo m alpha tl (i + 1) _ (setA acc key _)) key = _
          rw [hbGo_lookup_not_mem _ _ _ _ _ _ _ hnd.1, lookupA_setA, if_pos rfl]
          rfl
      | succ j' =>
          have hj' : j' < tl.length := by simpa using Nat.lt_of_succ_lt_succ hj
          show lookupA (hbGo m alpha tl (i + 1) _ (setA acc key _)) (tl.get ⟨j', hj'⟩).1 = _
          rw [ih (i + 1) _ (setA acc key _) hnd.2 j' hj']
          rfl

theorem specAdjGo_ge_start (m : Nat) :
    ∀ (ps : List ℚ) (st : ℚ) (i : Nat), st ≤ specAdjGo m st ps i := by
  intro ps
  induction ps with
  | nil => intro st i; exact le_refl st
  | cons p rest ih =>
      intro st i
      exact le_trans (le_max_left _ _) (ih _ (i + 1))

theorem specAdjGo_mono_start (m : Nat) :
    ∀ (ps : List ℚ) (st st' : ℚ) (i : Nat), st ≤ st' →
      specAdjGo m st ps i ≤ specAdjGo m st' ps i := by
  intro ps
  induction ps with
  | nil => intro st st' i h; exact h
  | cons p rest ih =>
      intro st st' i h
      exact ih _ _ (i + 1) (max_le_max h (le_refl _))

theorem specAdjGo_append (m : Nat) :
    ∀ (qs : List ℚ) (p : ℚ) (st : ℚ) (i : Nat),
      specAdjGo m st (qs ++ [p]) i
        = max (specAdjGo m st qs i) (min 1 (p * ((m - (i + qs.length) : ℕ) : ℚ))) := by
  intro qs
  induction qs with
  | nil => intro p st i; simp [specAdjGo]
  | cons q rest ih =>
      intro p st i
      show specAdjGo m _ (rest ++ [p]) (i + 1) = _
      rw [ih _ _ (i + 1)]
      have he : i + 1 + rest.length = i + (rest.length + 1) := by omega
      rw [he]
      rfl

theorem specAdjGo_prefix_le (m : Nat) :
    ∀ (ext qs : List ℚ) (st : ℚ) (i : Nat),
      specAdjGo m st qs i ≤ specAdjGo m st (qs ++ ext) i := by
  intro ext
  induction ext using List.reverseRecOn with
  | nil => intro qs st i; simp
  | append_singleton es e ih =>
      intro qs st i
      rw [← List.append_assoc, specAdjGo_append]
      exact le_trans (ih qs st i) (le_max_left _ _)

/-- Claim C5: `holmBonferroni` stores, for the `j`-th entry in ascending
raw-p order, exactly the running maximum of `min(1, p*(m-j))` together
with the flag `adjusted < alpha`; every adjusted p-value is at least its
raw p-value and the adjusted values are non-decreasing along the sorted
order. -/
theorem holmBonferroni_adjusts_and_flags (pValues : List (String × ℚ)) (alpha : ℚ)
    (hkeys : (pValues.map Prod.fst).Nodup)
    (hp : ∀ x ∈ pValues, 0 ≤ x.2 ∧ x.2 ≤ 1) :
    ∀ j (hj : j < (pValues.insertionSort (fun a b => a.2 ≤ b.2)).length),
      lookupA (holmBonferroni pValues alpha)
          (((pValues.insertionSort (fun a b => a.2 ≤ b.2)).get ⟨j, hj⟩).1)
        = some (specAdj (pValues.insertionSort (fun a b => a.2 ≤ b.2)) j,
            decide (specAdj (pValues.insertionSort (fun a b => a.2 ≤ b.2)) j < alpha)) ∧
      ((pValues.insertionSort (fun a b => a.2 ≤ b.2)).get ⟨j, hj⟩).2
        ≤ specAdj (pValues.insertionSort (fun a b => a.2 ≤ b.2)) j ∧
      (∀ i, i ≤ j → specAdj (pValues.insertionSort (fun a b => a.2 ≤ b.2)) i
        ≤ specAdj (pValues.insertionSort (fun a b => a.2 ≤ b.2)) j) := by
  intro j hj
  set sorted := pValues.insertionSort (fun a b => a.2 ≤ b.2) with hsorted
  have hperm : List.Perm sorted pValues := List.perm_insertionSort _ _
  have hnd : (sorted.map Prod.fst).Nodup := (hperm.map Prod.fst).nodup_iff.mpr hkeys
  refine ⟨hbGo_get sorted.length alpha sorted 0 0 [] hnd j hj, ?_, ?_⟩
  · have hmem : sorted.get ⟨j, hj⟩ ∈ pValues := hperm.mem_iff.mp (List.get_mem sorted j hj)
    obtain ⟨hp0, hp1⟩ := hp _ hmem
    have htake : (sorted.take (j + 1)).map Prod.snd
        = (sorted.take j).map Prod.snd ++ [(sorted.get ⟨j, hj⟩).2] := by
      rw [List.take_succ, List.getElem?_eq_getElem hj]
      simp [List.get_eq_getElem]
      rw [List.take_succ, List.getElem?_map, List.getElem?_eq_getElem hj]
      rfl
    have hlen : ((sorted.take j).map Prod.snd).length = j := by
      rw [List.length_map, List.length_take]
      omega
    unfold specAdj
    rw [htake, specAdjGo_append, hlen]
    have hmj : 1 ≤ ((sorted.length - (0 + j) : ℕ) : ℚ) := by
      have : 1 ≤ sorted.length - (0 + j) := by omega
      exact_mod_cast this
    have hminle : (sorted.get ⟨j, hj⟩).2
        ≤ min 1 ((sorted.get ⟨j, hj⟩).2 * ((sorted.length - (0 + j) : ℕ) : ℚ)) := by
      refine le_min hp1 ?_
      calc (sorted.get ⟨j, hj⟩).2 = (sorted.get ⟨j, hj⟩).2 * 1 := by ring
        _ ≤ (sorted.get ⟨j, hj⟩).2 * ((sorted.length - (0 + j) : ℕ) : ℚ) := by
            exact mul_le_mul_of_nonneg_left hmj hp0
    exact le_trans hminle (le_max_right _ _)
  · intro i hi
    unfold specAdj
    have h1 : sorted.take (i + 1) ++ (sorted.take (j + 1)).drop (i + 1)
        = sorted.take (j + 1) := by
      have : sorted.take (i + 1) = (sorted.take (j + 1)).take (i + 1) := by
        rw [List.take_take]
        congr 1
        omega
      rw [this, List.take_append_drop]
    calc specAdjGo sorted.length 0 ((sorted.take (i + 1)).map Prod.snd) 0
        ≤ specAdjGo sorted.length 0
            (((sorted.take (i + 1)).map Prod.snd)
              ++ (((sorted.take (j + 1)).drop (i + 1)).map Prod.snd)) 0 :=
          specAdjGo_prefix_le _ _ _ _ _
      _ = specAdjGo sorted.length 0 ((sorted.take (j + 1)).map Prod.snd) 0 := by
          rw [← List.map_append, h1]

/-- Witness for C5: two comparisons with raw p-values `1` and `0` at
`alpha = 1`; the entry sorted last (`"a"`) is stored with its adjusted
value and significance flag. -/
theorem holmBonferroni_adjusts_and_flags_witness :
    lookupA (holmBonferroni [("a", (1:ℚ)), ("b", 0)] 1)
        ((([("a", (1:ℚ)), ("b", 0)].insertionSort
            (fun a b => a.2 ≤ b.2)).get ⟨1, by decide⟩).1)
      = some (specAdj ([("a", (1:ℚ)), ("b", 0)].insertionSort
            (fun a b => a.2 ≤ b.2)) 1,
          decide (specAdj ([("a", (1:ℚ)), ("b", 0)].insertionSort
            (fun a b => a.2 ≤ b.2)) 1 < 1)) :=
  (holmBonferroni_adjusts_and_flags [("a", (1:ℚ)), ("b", 0)] 1
    (by decide) (by decide) 1 (by decide)).1

/-! ## Welch's t-test guard and formulas (claim C8) -/

/-- Claim C8: `welchTTest` returns `null` exactly when either accumulator
has `n < 2`; with both `n ≥ 2` it returns `t = 0, df = n_a + n_b - 2,
p = 1, d = 0` when the standard-error denominator is zero, and otherwise
computes `t` from the unpooled standard errors and Cohen's d from the
pooled standard deviation. -/
theorem welchTTest_guard_and_formulas (a b : ModelDayStats) :
    (welchTTest a b = none ↔ a.n < 2 ∨ b.n < 2) ∧
    (2 ≤ a.n → 2 ≤ b.n →
      ((Real.sqrt (((welfordVariance a : ℚ) : ℝ) / (a.n : ℝ)
            + ((welfordVariance b : ℚ) : ℝ) / (b.n : ℝ)) = 0 →
          welchTTest a b
            = some ⟨0, (a.n : ℝ) + (b.n : ℝ) - 2, 1, 0, "negligible"⟩) ∧
        (Real.sqrt (((welfordVariance a : ℚ) : ℝ) / (a.n : ℝ)
            + ((welfordVariance b : ℚ) : ℝ) / (b.n : ℝ)) ≠ 0 →
          ∃ res, welchTTest a b = some res ∧
            res.t = (((a.mean : ℚ) : ℝ) - ((b.mean : ℚ) : ℝ))
              / Real.sqrt (((welfordVariance a : ℚ) : ℝ) / (a.n : ℝ)
                  + ((welfordVariance b : ℚ) : ℝ) / (b.n : ℝ)) ∧
            res.cohensD =
              (if 0 < Real.sqrt ((((a.n : ℝ) - 1) * ((welfordVariance a : ℚ) : ℝ)
                    + ((b.n : ℝ) - 1) * ((welfordVariance b : ℚ) : ℝ))
                    / ((a.n : ℝ) + (b.n : ℝ) - 2))
                then |((a.mean : ℚ) : ℝ) - ((b.mean : ℚ) : ℝ)|
                    / Real.sqrt ((((a.n : ℝ) - 1) * ((welfordVariance a : ℚ) : ℝ)
                        + ((b.n : ℝ) - 1) * ((welfordVariance b : ℚ) : ℝ))
                        / ((a.n : ℝ) + (b.n : ℝ) - 2))
                else 0)))) := by
  constructor
  · by_cases h : a.n < 2 ∨ b.n < 2
    · simp [welchTTest, h]
    · simp only [welchTTest, if_neg h]
      split_ifs <;> simp [h]
  · intro ha hb
    have h : ¬ (a.n < 2 ∨ b.n < 2) := by omega
    constructor
    · intro hz
      simp only [welchTTest, if_neg h]
      rw [if_pos hz]
    · intro hnz
      simp only [welchTTest, if_neg h]
      rw [if_neg hnz]
      exact ⟨_, rfl, rfl, rfl⟩

/-- Witness for C8: two accumulators with `n = 2` and zero variance give
the degenerate standard error, so the test reports `t = 0, p = 1, d = 0`. -/
theorem welchTTest_guard_and_formulas_witness :
    welchTTest ⟨2, 0, 0, 2⟩ ⟨2, 0, 0, 2⟩
      = some ⟨0, ((2 : ℕ) : ℝ) + ((2 : ℕ) : ℝ) - 2, 1, 0, "negligible"⟩ := by
  have hz : Real.sqrt (((welfordVariance ⟨2, 0, 0, 2⟩ : ℚ) : ℝ) / ((2 : ℕ) : ℝ)
      + ((welfordVariance ⟨2, 0, 0, 2⟩ : ℚ) : ℝ) / ((2 : ℕ) : ℝ)) = 0 := by
    have hv : welfordVariance ⟨2, 0, 0, 2⟩ = 0 := by
      norm_num [welfordVariance]
    rw [hv]
    norm_num [Real.sqrt_zero]
  exact ((welchTTest_guard_and_formulas ⟨2, 0, 0, 2⟩ ⟨2, 0, 0, 2⟩).2
    (le_refl 2) (le_refl 2)).1 hz

/-- Witness for C10: aggregating one unscored record into the empty chart
reports the same (absent) mean/variance for its slot and the same
`total_scored`. -/
theorem welfordUpdate_none_frame_witness :
    sampleRec.score = none ∧
    (aggregateRecords [sampleRec] ⟨[], [], 0, 0⟩).total_scored = 0 := by
  refine ⟨rfl, ?_⟩
  have h := (welfordUpdate_none_frame.2 ⟨[], [], 0, 0⟩ sampleRec rfl).2
  simpa using h

/-! ## Erasure of an identity (C2)

Splitting on the newline, filtering the parsed rows and re-joining: the
rebuilt buffer decodes to exactly the surviving records, and the removed
count is the number of the identity's parseable rows. -/

theorem intercalate_go_acc (s : String) (as : List String) :
    ∀ (a b : String), String.intercalate.go (a ++ b) s as
      = a ++ String.intercalate.go b s as := by
  induction as with
  | nil => intro a b; rfl
  | cons c rest ih =>
      intro a b
      show String.intercalate.go (a ++ b ++ s ++ c) s rest = _
      rw [show a ++ b ++ s ++ c = a ++ (b ++ s ++ c) by simp [String.append_assoc]]
      rw [ih a (b ++ s ++ c)]
      rfl

theorem intercalate_cons_cons (s x y : String) (rest : List String) :
    String.intercalate s (x :: y :: rest)
      = x ++ s ++ String.intercalate s (y :: rest) := by
  show String.intercalate.go x s (y :: rest)
    = x ++ s ++ String.intercalate.go y s rest
  show String.intercalate.go (x ++ s ++ y) s rest = _
  rw [show x ++ s ++ y = (x ++ s) ++ y from rfl, intercalate_go_acc s rest (x ++ s) y]

theorem splitOnChar_no_sep (c : Char) (l : List Char) :
    ∀ piece ∈ splitOnChar c l, c ∉ piece := by
  induction l with
  | nil =>
      intro piece hp
      rcases List.mem_singleton.mp hp with rfl
      exact List.not_mem_nil c
  | cons x rest ih =>
      intro piece hp
      rw [splitOnChar] at hp
      cases hsp : splitOnChar c rest with
      | nil => rw [hsp] at hp; rcases List.mem_singleton.mp hp with rfl; exact List.not_mem_nil c
      | cons hd tl =>
          rw [hsp] at hp
          have hp2 : piece ∈ (if x = c then [] :: hd :: tl else (x :: hd) :: tl) := hp
          by_cases hx : x = c
          · rw [if_pos hx] at hp2
            rcases List.mem_cons.mp hp2 with rfl | hp3
            · exact List.not_mem_nil c
            · exact ih piece (hsp ▸ hp3)
          · rw [if_neg hx] at hp2
            rcases List.mem_cons.mp hp2 with rfl | hp3
            · intro hmem
              rcases List.mem_cons.mp hmem with he | hmem2
              · exact hx he.symm
              · exact ih hd (hsp ▸ List.mem_cons_self hd tl) hmem2
            · exact ih piece (hsp ▸ List.mem_cons_of_mem hd hp3)

theorem splitOnChar_ne_nil (c : Char) (l : List Char) : splitOnChar c l ≠ [] := by
  cases l with
  | nil => simp [splitOnChar]
  | cons x rest =>
      rw [splitOnChar]
      cases hsp : splitOnChar c rest with
      | nil => simp
      | cons hd tl =>
          show (if x = c then [] :: hd :: tl else (x :: hd) :: tl) ≠ []
          by_cases hx : x = c
          · rw [if_pos hx]; simp
          · rw [if_neg hx]; simp

theorem splitOnChar_append (c : Char) (a rest : List Char) (ha : c ∉ a) :
    splitOnChar c (a ++ c :: rest) = a :: splitOnChar c rest := by
  induction a with
  | nil =>
      rw [List.nil_append, splitOnChar]
      cases hsp : splitOnChar c rest with
      | nil => exact absurd hsp (splitOnChar_ne_nil c rest)
      | cons hd tl =>
          show (if c = c then [] :: hd :: tl else (c :: hd) :: tl) = [] :: hd :: tl
          rw [if_pos rfl]
  | cons x xs ih =>
      simp only [List.mem_cons, not_or] at ha
      rw [List.cons_append, splitOnChar, ih ha.2]
      show (if x = c then [] :: xs :: splitOnChar c rest
        else (x :: xs) :: splitOnChar c rest) = (x :: xs) :: splitOnChar c rest
      rw [if_neg (fun hx : x = c => ha.1 hx.symm)]

theorem splitOnChar_of_no_sep (c : Char) (l : List Char) (h : c ∉ l) :
    splitOnChar c l = [l] := by
  induction l with
  | nil => rfl
  | cons x xs ih =>
      simp only [List.mem_cons, not_or] at h
      rw [splitOnChar, ih h.2]
      show (if x = c then [] :: xs :: [] else (x :: xs) :: []) = [x :: xs]
      rw [if_neg (fun hx : x = c => h.1 hx.symm)]

theorem splitNl_header (header : String) (X : String) (hh : '\n' ∉ header.data) :
    splitNl (header ++ "\n" ++ X) = header :: (splitOnChar '\n' X.data).map (⟨·⟩) := by
  rw [splitNl]
  rw [show (header ++ "\n" ++ X).data = header.data ++ '\n' :: X.data by
    simp [String.data_append]]
  rw [splitOnChar_append '\n' header.data X.data hh]
  rw [List.map_cons]

theorem parseCsvRow_empty : parseCsvRow ⟨[]⟩ = none := by decide

theorem filterMap_splitNl_intercalate (ls : List String)
    (hl : ∀ x ∈ ls, '\n' ∉ x.data) :
    ((splitOnChar '\n' (String.intercalate "\n" ls).data).map (⟨·⟩)).filterMap
        parseCsvRow
      = ls.filterMap parseCsvRow := by
  induction ls with
  | nil =>
      show ((splitOnChar '\n' ([] : List Char)).map (⟨·⟩)).filterMap parseCsvRow = []
      rw [show splitOnChar '\n' ([] : List Char) = [[]] from rfl]
      rw [List.map_cons, List.map_nil, List.filterMap_cons]
      rw [parseCsvRow_empty]
      rfl
  | cons x rest ih =>
      cases rest with
      | nil =>
          show ((splitOnChar '\n' x.data).map (⟨·⟩)).filterMap parseCsvRow = _
          rw [splitOnChar_of_no_sep '\n' x.data (hl x (List.mem_cons_self _ _))]
          rfl
      | cons y rest2 =>
          rw [intercalate_cons_cons]
          rw [show ((x ++ "\n") ++ String.intercalate "\n" (y :: rest2)).data
              = x.data ++ '\n' :: (String.intercalate "\n" (y :: rest2)).data by
            simp [String.data_append]]
          rw [splitOnChar_append '\n' x.data _ (hl x (List.mem_cons_self _ _))]
          rw [List.map_cons]
          rw [show (⟨x.data⟩ : String) = x from rfl]
          rw [List.filterMap_cons, List.filterMap_cons,
            ih (fun z hz => hl z (List.mem_cons_of_mem _ hz))]

theorem mem_splitNl_no_nl (csv : String) (x : String) (hx : x ∈ splitNl csv) :
    '\n' ∉ x.data := by
  rw [splitNl] at hx
  rcases List.mem_map.mp hx with ⟨piece, hp, rfl⟩
  exact splitOnChar_no_sep '\n' csv.data piece hp

theorem filterMap_filter_user (uid : String) (L : List String) :
    (L.filter fun line =>
        match parseCsvRow line with
        | some rec => decide (rec.user_id ≠ uid)
        | none => true).filterMap parseCsvRow
      = (L.filterMap parseCsvRow).filter fun r => decide (r.user_id ≠ uid) := by
  induction L with
  | nil => rfl
  | cons line rest ih =>
      rw [List.filter_cons, List.filterMap_cons]
      cases hp : parseCsvRow line with
      | none =>
          simp only [hp]
          rw [if_pos trivial, List.filterMap_cons, hp, ih]
      | some rec =>
          simp only [hp]
          by_cases hu : rec.user_id ≠ uid
          · rw [if_pos (decide_eq_true hu), List.filterMap_cons, hp, ih,
              List.filter_cons, if_pos (decide_eq_true hu)]
          · rw [if_neg (by rw [decide_eq_false hu]; simp), ih, List.filter_cons,
              if_neg (by rw [decide_eq_false hu]; simp)]

theorem removed_count (uid : String) (L : List String) :
    L.length - (L.filter fun line =>
        match parseCsvRow line with
        | some rec => decide (rec.user_id ≠ uid)
        | none => true).length
      = ((L.filterMap parseCsvRow).filter fun r => decide (r.user_id = uid)).length := by
  induction L with
  | nil => rfl
  | cons line rest ih =>
      have hle := List.length_filter_le (fun line =>
        match parseCsvRow line with
        | some rec => decide (rec.user_id ≠ uid)
        | none => true) rest
      rw [List.filter_cons, List.filterMap_cons, List.length_cons]
      cases hp : parseCsvRow line with
      | none =>
          simp only [hp]
          rw [if_pos trivial, List.length_cons]
          omega
      | some rec =>
          simp only [hp]
          by_cases hu : rec.user_id ≠ uid
          · rw [if_pos (decide_eq_true hu), List.length_cons,
              List.filter_cons, if_neg (by rw [decide_eq_false (fun h => hu h)]; simp)]
            omega
          · rw [if_neg (by rw [decide_eq_false hu]; simp), List.filter_cons,
              if_pos (decide_eq_true (by push_neg at hu; exact hu)), List.length_cons]
            omega

theorem parseCsvBody_rebuild (csv : String) (f : String → Bool) :
    parseCsvBody (((splitNl csv).headD "") ++ "\n"
        ++ String.intercalate "\n" (((splitNl csv).drop 1).filter f))
      = (((splitNl csv).drop 1).filter f).filterMap parseCsvRow := by
  have hne : splitNl csv ≠ [] := by
    rw [splitNl]
    intro hmap
    exact splitOnChar_ne_nil '\n' csv.data (List.map_eq_nil.mp hmap)
  have hmem : (splitNl csv).headD "" ∈ splitNl csv := by
    cases hsp : splitNl csv with
    | nil => exact absurd hsp hne
    | cons a t => exact List.mem_cons_self a t
  have hh : '\n' ∉ ((splitNl csv).headD "").data := mem_splitNl_no_nl csv _ hmem
  have hf : ∀ x ∈ ((splitNl csv).drop 1).filter f, '\n' ∉ x.data := fun x hx =>
    mem_splitNl_no_nl csv x (List.mem_of_mem_drop (List.mem_of_mem_filter hx))
  rw [parseCsvBody, splitNl_header _ _ hh, List.drop_one, List.tail_cons,
    filterMap_splitNl_intercalate _ hf]

theorem deleteUserFromBuffer_spec (s : Storage) (uid : String) :
    (deleteUserFromBuffer s uid).1.bufferRecords
        = s.bufferRecords.filter (fun r => decide (r.user_id ≠ uid)) ∧
    (deleteUserFromBuffer s uid).2
        = (s.bufferRecords.filter fun r => decide (r.user_id = uid)).length ∧
    (deleteUserFromBuffer s uid).1.archives = s.archives ∧
    (deleteUserFromBuffer s uid).1.users = s.users := by
  obtain ⟨buffer, archives, users, chart⟩ := s
  cases buffer with
  | none => exact ⟨rfl, rfl, rfl, rfl⟩
  | some csv =>
      have hrem := removed_count uid ((splitNl csv).drop 1)
      have hlen : ((splitNl csv).drop 1).length = (splitNl csv).length - 1 := by simp
      by_cases h0 : 0 < (splitNl csv).length - 1
          - (((splitNl csv).drop 1).filter (fun line =>
              match parseCsvRow line with
              | some rec => decide (rec.user_id ≠ uid)
              | none => true)).length
      · have hred : deleteUserFromBuffer ⟨some csv, archives, users, chart⟩ uid
            = (⟨some (((splitNl csv).headD "") ++ "\n" ++ String.intercalate "\n"
                  (((splitNl csv).drop 1).filter (fun line =>
                    match parseCsvRow line with
                    | some rec => decide (rec.user_id ≠ uid)
                    | none => true))), archives, users, chart⟩,
              (splitNl csv).length - 1 - (((splitNl csv).drop 1).filter (fun line =>
                match parseCsvRow line with
                | some rec => decide (rec.user_id ≠ uid)
                | none => true)).length) := if_pos h0
        rw [hred]
        refine ⟨?_, ?_, rfl, rfl⟩
        · exact (parseCsvBody_rebuild csv _).trans (filterMap_filter_user uid _)
        · rw [← hlen]
          exact hrem
      · have hred : deleteUserFromBuffer ⟨some csv, archives, users, chart⟩ uid
            = (⟨some csv, archives, users, chart⟩,
              (splitNl csv).length - 1 - (((splitNl csv).drop 1).filter (fun line =>
                match parseCsvRow line with
                | some rec => decide (rec.user_id ≠ uid)
                | none => true)).length) := if_neg h0
        rw [hred]
        have hcount : (splitNl csv).length - 1 - (((splitNl csv).drop 1).filter (fun line =>
              match parseCsvRow line with
              | some rec => decide (rec.user_id ≠ uid)
              | none => true)).length
            = ((((splitNl csv).drop 1).filterMap parseCsvRow).filter fun r =>
                decide (r.user_id = uid)).length := by
          rw [← hlen]
          exact hrem
        have hz : ((((splitNl csv).drop 1).filterMap parseCsvRow).filter fun r =>
            decide (r.user_id = uid)).length = 0 := by omega
        have hnil : (((splitNl csv).drop 1).filterMap parseCsvRow).filter (fun r =>
            decide (r.user_id = uid)) = [] := List.length_eq_zero.mp hz
        have hall : ∀ r ∈ ((splitNl csv).drop 1).filterMap parseCsvRow,
            r.user_id ≠ uid := by
          intro r hr heq
          have hmem : r ∈ (((splitNl csv).drop 1).filterMap parseCsvRow).filter (fun r =>
              decide (r.user_id = uid)) :=
            List.mem_filter.mpr ⟨hr, decide_eq_true heq⟩
          rw [hnil] at hmem
          exact List.not_mem_nil r hmem
        refine ⟨?_, hcount, rfl, rfl⟩
        exact (List.filter_eq_self.mpr (fun r hr => decide_eq_true (hall r hr))).symm

/-- C2 (amended): provided the identity owns no archived rows, the erase
operation removes exactly the identity's rows from the buffer (other
identities' rows and unparseable lines are kept), returns their count,
removes the identity from the summary listing (so it is no longer a known
submitter), and stores the chart rebuilt from the purged state, whose
input records contain no row of the identity. -/
theorem eraseUser_erases (s : Storage) (uid : String)
    (harch : ∀ r ∈ s.archiveRecords, r.user_id ≠ uid) :
    (eraseUser s uid).1.bufferRecords
        = s.bufferRecords.filter (fun r => decide (r.user_id ≠ uid)) ∧
    (eraseUser s uid).2
        = (s.bufferRecords.filter fun r => decide (r.user_id = uid)).length ∧
    uid ∉ (eraseUser s uid).1.users ∧
    (eraseUser s uid).1.chart
        = some (rebuildChart (eraseUser s uid).1.archives (eraseUser s uid).1.buffer
            (eraseUser s uid).1.users) ∧
    ∀ r ∈ (eraseUser s uid).1.inputRecords, r.user_id ≠ uid := by
  obtain ⟨hbuf, hrem, harchEq, husers⟩ := deleteUserFromBuffer_spec s uid
  refine ⟨hbuf, hrem, ?_, rfl, ?_⟩
  · intro hmem
    have hmem2 : uid ∈ ((deleteUserFromBuffer s uid).1.users.filter fun u =>
        decide (u ≠ uid)) := hmem
    exact absurd rfl (of_decide_eq_true (List.mem_filter.mp hmem2).2)
  · intro r hr
    have hr2 : r ∈ archiveRecordsOf (deleteUserFromBuffer s uid).1.archives
        ++ bufferRecordsOf (deleteUserFromBuffer s uid).1.buffer := hr
    rcases List.mem_append.mp hr2 with ha | hb
    · rw [harchEq] at ha
      exact harch r ha
    · have hb2 : r ∈ (deleteUserFromBuffer s uid).1.bufferRecords := hb
      rw [hbuf] at hb2
      exact of_decide_eq_true (List.mem_filter.mp hb2).2

/-- C2 counterexample: the eraser never touches archive partitions, so
erasing `user1` from `sampleStorage` — every one of whose input records
belongs to `user1` — still leaves a rebuilt chart counting one submission
attributable only to `user1`. -/
theorem eraseUser_counterexample :
    (∀ r ∈ sampleStorage.inputRecords, r.user_id = "user1") ∧
    ((eraseUser sampleStorage "user1").1.chart).map (fun c => c.total_submissions)
      = some 1 := by
  decide

/-- Witness for C2 at `bufferOnlyStorage` (the archive partition belongs
to `user2`, so the hypothesis holds). -/
theorem eraseUser_erases_witness :
    (∀ r ∈ bufferOnlyStorage.archiveRecords, r.user_id ≠ "user1") ∧
    ((eraseUser bufferOnlyStorage "user1").1.bufferRecords
        = bufferOnlyStorage.bufferRecords.filter (fun r => decide (r.user_id ≠ "user1")) ∧
      (eraseUser bufferOnlyStorage "user1").2
        = (bufferOnlyStorage.bufferRecords.filter fun r =>
            decide (r.user_id = "user1")).length ∧
      "user1" ∉ (eraseUser bufferOnlyStorage "user1").1.users ∧
      (eraseUser bufferOnlyStorage "user1").1.chart
        = some (rebuildChart (eraseUser bufferOnlyStorage "user1").1.archives
            (eraseUser bufferOnlyStorage "user1").1.buffer
            (eraseUser bufferOnlyStorage "user1").1.users) ∧
      ∀ r ∈ (eraseUser bufferOnlyStorage "user1").1.inputRecords, r.user_id ≠ "user1") :=
  ⟨by decide, eraseUser_erases bufferOnlyStorage "user1" (by decide)⟩

end Pramana
